import Mathlib

/-!
# photo.c : colour quantisation and scan-line compositing

A shallow embedding of `src/mp2/photo.c`.  The two file-scope histograms
`level_4` and `level_2` are passed explicitly, machine integers are `Nat`/`Int`,
and the stores into `uint8_t` cells are written with an explicit `% 256`.
-/

namespace Photo

/-! ## Constants of photo.c (lines 46-56) -/

def level_4_size : Nat := 4096
def level_4_node : Nat := 128
def level_2_size : Nat := 64
def level_2_node : Nat := 64
def red_bitmask : Nat := 0x1F
def green_bitmask : Nat := 0x3F
def blue_bitmask : Nat := 0x1F
def bitmask : Nat := 0x3
def bitmask_6 : Nat := 0x3F
def palette_size : Nat := 192
def palette_dim : Nat := 3

/-! ## Data model -/

/-- Modelled from the spec: the record type `octree` is declared in a header that
is not among the sources.  The spec describes a bucket as a bucket id, three
accumulators and a pixel count, all integers; the accumulators and the count are
signed here because `read_photo` subtracts from them, and `node_num` only ever
holds a loop index. -/
structure octree where
  red : Int
  green : Int
  blue : Int
  count : Int
  node_num : Nat
deriving DecidableEq

/-- The file-scope arrays `level_4[4096]` and `level_2[64]`. -/
structure Hist where
  level_4 : List octree
  level_2 : List octree
deriving DecidableEq

/-- One palette row `palette[i][0..2]`. -/
abbrev color := Nat × Nat × Nat

/-- Conversion of an `int` value to `uint8_t` on assignment. -/
def to_uint8 (v : Int) : Nat := (v % 256).toNat

/-! ## Histogram reset and accumulation -/

/-- Loops at lines 477-490 of `read_photo`, run on whatever the two arrays held
before: the five fields of every cell are assigned. -/
def reset_levels (prev : Hist) : Hist :=
  { level_4 := (List.range level_4_size).foldl (fun a i => a.set i ⟨0, 0, 0, 0, i⟩) prev.level_4
    level_2 := (List.range level_2_size).foldl (fun a j => a.set j ⟨0, 0, 0, 0, j⟩) prev.level_2 }

/-- The reset histogram: the contents of the two arrays after lines 477-490. -/
def reset_hist : Hist :=
  { level_4 := (List.range level_4_size).map (fun i => ⟨0, 0, 0, 0, i⟩)
    level_2 := (List.range level_2_size).map (fun j => ⟨0, 0, 0, 0, j⟩) }

/-- The four `+=`/`++` statements of `map_to_octree` on one cell. -/
def add_oct (o : octree) (r g b : Nat) : octree :=
  { o with red := o.red + r, green := o.green + g, blue := o.blue + b, count := o.count + 1 }

/-- The four `+=`/`++` statements applied to cell `i` of a histogram array. -/
def add_pixel (a : List octree) (i : Nat) (r g b : Nat) : List octree :=
  match a[i]? with
  | some o => a.set i (add_oct o r g b)
  | none => a

/-- Function `map_to_octree` (lines 633-665). -/
def map_to_octree (st : Hist) (pixel : Nat) : Hist :=
  let red_bit := (pixel >>> 11) &&& red_bitmask
  let green_bit := (pixel >>> 5) &&& green_bitmask
  let blue_bit := pixel &&& blue_bitmask
  let red_4 := (red_bit >>> 1) <<< 8
  let green_4 := (green_bit >>> 2) <<< 4
  let blue_4 := blue_bit >>> 1
  let index_4 := red_4 ||| green_4 ||| blue_4
  let red_2 := (red_bit >>> 3) <<< 4
  let green_2 := (green_bit >>> 4) <<< 2
  let blue_2 := blue_bit >>> 3
  let index_2 := red_2 ||| green_2 ||| blue_2
  { level_4 := add_pixel st.level_4 index_4 red_bit green_bit blue_bit
    level_2 := add_pixel st.level_2 index_2 red_bit green_bit blue_bit }

/-- The histogram after `map_to_octree` has been called on every pixel of a
stream, starting from the reset histogram. -/
def accumulate (stream : List Nat) : Hist :=
  stream.foldl map_to_octree reset_hist

/-- Function `qsort_comp` (lines 667-681). -/
def qsort_comp (a b : octree) : Int :=
  if a.count > b.count then -1
  else if a.count < b.count then 1
  else 0

/-! ## Palette selection (lines 546-591) -/

/-- Loop at lines 546-550. -/
def zero_palette : List color := List.replicate palette_size (0, 0, 0)

/-- The index computed at lines 571-576 from a fine bucket's `node_num`. -/
def coarse_of_node (n : Nat) : Nat :=
  let red_same := ((n >>> 10) &&& bitmask) <<< 4
  let green_same := ((n >>> 6) &&& bitmask) <<< 2
  let blue_same := (n >>> 2) &&& bitmask
  red_same ||| green_same ||| blue_same

/-- The four `-=` statements at lines 578-581 on one cell. -/
def sub_oct (c o : octree) : octree :=
  { c with red := c.red - o.red, green := c.green - o.green,
           blue := c.blue - o.blue, count := c.count - o.count }

/-- The four `-=` statements at lines 578-581 applied to cell `i` of `level_2`. -/
def sub_bucket (a : List octree) (i : Nat) (o : octree) : List octree :=
  match a[i]? with
  | some c => a.set i (sub_oct c o)
  | none => a

/-- The average colour stored for a bucket (lines 567-569 and 587-589). -/
def average (o : octree) : color :=
  (to_uint8 (o.red.tdiv o.count), to_uint8 (o.green.tdiv o.count),
   to_uint8 (o.blue.tdiv o.count))

/-- Body of the loop at lines 564-583 for index `i`. -/
def fine_step (level_4 : List octree) (st : List color × List octree) (i : Nat) :
    List color × List octree :=
  match level_4[i]? with
  | some o =>
    if o.count ≠ 0 then
      (st.1.set (i + 64) (average o), sub_bucket st.2 (coarse_of_node o.node_num) o)
    else st
  | none => st

/-- Body of the loop at lines 585-591 for index `j`. -/
def coarse_step (level_2 : List octree) (pal : List color) (j : Nat) : List color :=
  match level_2[j]? with
  | some c => if c.count ≠ 0 then pal.set j (average c) else pal
  | none => pal

/-- Lines 546-591 of `read_photo`, run on the already sorted `level_4`:
returns the palette and the final contents of `level_2`. -/
def select_palette (level_4 level_2 : List octree) : List color × List octree :=
  let st := (List.range level_4_node).foldl (fine_step level_4) (zero_palette, level_2)
  ((List.range level_2_node).foldl (coarse_step st.2) st.1, st.2)

/-- Function `vga_conventer` (lines 690-725), reading the sorted `level_4`. -/
def vga_conventer (level_4 : List octree) (pixel : Nat) : Nat :=
  let red_bit := (pixel >>> 11) &&& red_bitmask
  let green_bit := (pixel >>> 5) &&& green_bitmask
  let blue_bit := pixel &&& blue_bitmask
  let red_4 := (red_bit >>> 1) <<< 8
  let green_4 := (green_bit >>> 2) <<< 4
  let blue_4 := blue_bit >>> 1
  let vga_offset_4 := red_4 ||| green_4 ||| blue_4
  let red_2 := (red_bit >>> 3) <<< 4
  let green_2 := (green_bit >>> 4) <<< 2
  let blue_2 := blue_bit >>> 3
  let vga_offset_2 := red_2 ||| green_2 ||| blue_2
  match (List.range 128).find? (fun i =>
      match level_4[i]? with
      | some o => decide (o.node_num = vga_offset_4)
      | none => false) with
  | some i => (i + level_4_node) % 256
  | none => (vga_offset_2 + level_2_node) % 256

/-- The pair `(index_4, index_2)` that `map_to_octree` computes for a pixel
(lines 635-657) and uses to index `level_4` and `level_2`. -/
def map_to_octree_indices (pixel : Nat) : Nat × Nat :=
  let red_bit := (pixel >>> 11) &&& red_bitmask
  let green_bit := (pixel >>> 5) &&& green_bitmask
  let blue_bit := pixel &&& blue_bitmask
  let red_4 := (red_bit >>> 1) <<< 8
  let green_4 := (green_bit >>> 2) <<< 4
  let blue_4 := blue_bit >>> 1
  let index_4 := red_4 ||| green_4 ||| blue_4
  let red_2 := (red_bit >>> 3) <<< 4
  let green_2 := (green_bit >>> 4) <<< 2
  let blue_2 := blue_bit >>> 3
  let index_2 := red_2 ||| green_2 ||| blue_2
  (index_4, index_2)

/-- The pair `(vga_offset_4, vga_offset_2)` that `vga_conventer` computes for a
pixel (lines 692-709). -/
def vga_conventer_offsets (pixel : Nat) : Nat × Nat :=
  let red_bit := (pixel >>> 11) &&& red_bitmask
  let green_bit := (pixel >>> 5) &&& green_bitmask
  let blue_bit := pixel &&& blue_bitmask
  let red_4 := (red_bit >>> 1) <<< 8
  let green_4 := (green_bit >>> 2) <<< 4
  let blue_4 := blue_bit >>> 1
  let vga_offset_4 := red_4 ||| green_4 ||| blue_4
  let red_2 := (red_bit >>> 3) <<< 4
  let green_2 := (green_bit >>> 4) <<< 2
  let blue_2 := blue_bit >>> 3
  let vga_offset_2 := red_2 ||| green_2 ||| blue_2
  (vga_offset_4, vga_offset_2)

/-- The contract of the C library's `qsort` called with `qsort_comp` (line 557):
the array afterwards is a rearrangement of the array before in which no element
compares greater than a later one; the order among equal elements is unspecified. -/
def IsQsorted (before after : List octree) : Prop :=
  after.Perm before ∧ after.Pairwise (fun a b => qsort_comp a b ≤ 0)

/-- One admissible outcome of the `qsort` call: a stable insertion sort with
`qsort_comp` as the order. -/
def qsort_model (l : List octree) : List octree :=
  l.insertionSort (fun a b => qsort_comp a b ≤ 0)

/-! ## Photos, images and rooms -/

/-- Modelled from the spec: `photo_header_t` is declared in a header that is not
among the sources.  The spec gives a fixed-size header holding width and height
as unsigned integers; `read_photo` walks both with `uint16_t` counters. -/
structure photo_header_t where
  width : Nat
  height : Nat
deriving DecidableEq

/-- Record `struct photo_t` (lines 70-74). -/
structure photo_t where
  hdr : photo_header_t
  palette : List color
  img : List Nat
deriving DecidableEq

/-- Record `struct image_t` (lines 85-88). -/
structure image_t where
  hdr : photo_header_t
  img : List Nat
deriving DecidableEq

/-- Modelled from the spec: objects are declared outside the sources.  An object
yields its image and its integer placement (`obj_image`, `obj_get_x`,
`obj_get_y`). -/
structure object_t where
  x : Int
  y : Int
  image : image_t
deriving DecidableEq

/-- Modelled from the spec: rooms are declared outside the sources.  A room
yields its photo (`room_photo`) and its objects in iteration order
(`room_contents_iterate`, `obj_next`). -/
structure room_t where
  photo : photo_t
  contents : List object_t
deriving DecidableEq

/-! ## read_photo (lines 439-621) -/

/-- The pairs `(y, x)` in the order in which the loop nest
`for (y = height; y-- > 0; ) for (x = 0; width > x; x++)` visits them. -/
def scan_order (width height : Nat) : List (Nat × Nat) :=
  (List.range height).reverse.flatMap (fun y => (List.range width).map (fun x => (y, x)))

/-- Loop nest at lines 506-543: one `fread` of a 16-bit word per visit, handed
to `map_to_octree`; a failed `fread` ends the load.  The histogram is returned in
both cases since it is file-scope state. -/
def first_pass : List (Nat × Nat) → List Nat → Hist → Bool × Hist
  | [], _, st => (true, st)
  | _ :: _, [], st => (false, st)
  | _ :: cs, pixel :: rest, st => first_pass cs rest (map_to_octree st pixel)

/-- Lines 611-612: the guarded store of the converted pixel. -/
def store_pixel (level_4 : List octree) (width : Nat) (img : List Nat) (y x pixel : Nat) :
    List Nat :=
  if (width : Int) * y + x - 2 < 0 then img
  else img.set ((width : Int) * y + x - 2).toNat (vga_conventer level_4 pixel)

/-- Loop nest at lines 593-615: one `fread` of a 16-bit word per visit. -/
def second_pass (level_4 : List octree) (width : Nat) :
    List (Nat × Nat) → List Nat → List Nat → Option (List Nat)
  | [], _, img => some img
  | _ :: _, [], _ => none
  | (y, x) :: cs, pixel :: rest, img =>
    second_pass level_4 width cs rest (store_pixel level_4 width img y x pixel)

/-- Function `read_photo` (lines 439-621) for a file that opens and allocations
that succeed.  `file` is the content of the file in 16-bit words, the header being
its first two words (width, then height); `qsort` is the C library's sort called
with `qsort_comp`; `mem` gives the bytes found in the freshly allocated pixel
buffer; `prev` is what the two histogram arrays held on entry.  The result is the
photo, if any, and the histogram arrays on return. -/
def read_photo (MAX_PHOTO_WIDTH MAX_PHOTO_HEIGHT : Nat) (qsort : List octree → List octree)
    (mem : Nat → Nat) (prev : Hist) (file : List Nat) : Option photo_t × Hist :=
  match file with
  | width :: height :: pixels =>
    if MAX_PHOTO_WIDTH < width ∨ MAX_PHOTO_HEIGHT < height then (none, prev)
    else
      let img := (List.range (width * height)).map mem
      let fp := first_pass (scan_order width height) pixels (reset_levels prev)
      if fp.1 = false then (none, fp.2)
      else
        let level_4 := qsort fp.2.level_4
        let sel := select_palette level_4 fp.2.level_2
        -- `fseek (in, 0, SEEK_SET)`: the second pass reads from the start of the file
        match second_pass level_4 width (scan_order width height) file img with
        | none => (none, ⟨level_4, sel.2⟩)
        | some img2 => (some ⟨⟨width, height⟩, sel.1, img2⟩, ⟨level_4, sel.2⟩)
  | _ => (none, prev)

/-- The values handed to `map_to_octree` (line 540) by the loop nest at lines
506-543, in order. -/
def first_pass_args : List (Nat × Nat) → List Nat → List Nat
  | [], _ => []
  | _ :: _, [] => []
  | _ :: cs, pixel :: rest => pixel :: first_pass_args cs rest

/-- The calls of `vga_conventer` (line 612) made by the loop nest at lines 593-615,
in order: the cell of `img` that receives the result, and the value handed over.
A visit that takes the `continue` of line 611 makes no call. -/
def second_pass_calls (width : Nat) : List (Nat × Nat) → List Nat → List (Nat × Nat)
  | [], _ => []
  | _ :: _, [] => []
  | (y, x) :: cs, pixel :: rest =>
    if (width : Int) * y + x - 2 < 0 then second_pass_calls width cs rest
    else (((width : Int) * y + x - 2).toNat, pixel) :: second_pass_calls width cs rest

/-! ## read_obj_image (lines 359-422) -/

/-- Loop nest at lines 398-417: one `fread` of a one-byte pixel per visit, stored
at `img[width * y + x]`; a failed `fread` ends the load. -/
def obj_pass (width : Nat) : List (Nat × Nat) → List Nat → List Nat → Option (List Nat)
  | [], _, img => some img
  | _ :: _, [], _ => none
  | (y, x) :: cs, pixel :: rest, img => obj_pass width cs rest (img.set (width * y + x) pixel)

/-- Function `read_obj_image` (lines 359-422) for a file that opens and
allocations that succeed.  `file` holds the two fields of the header (width, then
height) followed by the one-byte pixels; `mem` gives the bytes found in the freshly
allocated pixel buffer. -/
def read_obj_image (MAX_OBJECT_WIDTH MAX_OBJECT_HEIGHT : Nat) (mem : Nat → Nat)
    (file : List Nat) : Option image_t :=
  match file with
  | width :: height :: pixels =>
    if MAX_OBJECT_WIDTH < width ∨ MAX_OBJECT_HEIGHT < height then none
    else
      match obj_pass width (scan_order width height) pixels
          ((List.range (width * height)).map mem) with
      | none => none
      | some img => some ⟨⟨width, height⟩, img⟩
  | _ => none

/-! ## prep_room (lines 327-347) -/

/-- Function `prep_room` (lines 327-347): the recorded room and the calls
`set_palette (offset_p, red_6, green_6, blue_6)` it makes, in order. -/
def prep_room (r : room_t) : room_t × List (Nat × Nat × Nat × Nat) :=
  (r, (List.range 192).map (fun i =>
    let offset_p := 64 + i
    let entry := r.photo.palette.getD i (0, 0, 0)
    let red_6 := ((entry.1 <<< 1) &&& bitmask_6) % 256
    let green_6 := (entry.2.1 &&& bitmask_6) % 256
    let blue_6 := ((entry.2.2 <<< 1) &&& bitmask_6) % 256
    (offset_p, red_6, green_6, blue_6)))

/-! ## Scan-line compositor (lines 117-255) -/

/-- A read `a[i]` of a pixel array; an index outside the array has no defined
value. -/
def read_at (a : List Nat) (i : Int) : Option Nat :=
  if 0 ≤ i then a[i.toNat]? else none

/-- Loop at lines 134-137 over the given values of `idx`. -/
def horiz_photo_loop (view : photo_t) (x y : Int) : List Nat → List Nat → Option (List Nat)
  | [], buf => some buf
  | idx :: rest, buf =>
    if 0 ≤ x + idx ∧ (view.hdr.width : Int) > x + idx then
      match read_at view.img ((view.hdr.width : Int) * y + x + idx) with
      | some v => horiz_photo_loop view x y rest (buf.set idx v)
      | none => none
    else horiz_photo_loop view x y rest (buf.set idx 0)

/-- Loop at lines 168-175; `fuel` bounds the number of rounds and `none` is
returned when it runs out or a read falls outside the image. -/
def horiz_copy (SCROLL_X_DIM OBJ_CLR_TRANSP : Nat) (img : image_t) (yoff : Int) :
    Nat → Int → Int → List Nat → Option (List Nat)
  | 0, _, _, _ => none
  | fuel + 1, idx, imgx, buf =>
    if (SCROLL_X_DIM : Int) > idx ∧ (img.hdr.width : Int) > imgx then
      match read_at img.img (yoff + imgx) with
      | some pixel =>
        horiz_copy SCROLL_X_DIM OBJ_CLR_TRANSP img yoff fuel (idx + 1) (imgx + 1)
          (if OBJ_CLR_TRANSP ≠ pixel then buf.set idx.toNat pixel else buf)
      | none => none
    else some buf

/-- Loop at lines 140-176 over the objects of the room, the sums, differences
and the product of lines 147-165 taken as exact integers.  The loop as the
machine runs it, in 32-bit `int`, is `horiz_objects_int`; the two agree as long as
no result leaves the range of `int` (`horiz_objects_int_eq`). -/
def horiz_objects (SCROLL_X_DIM OBJ_CLR_TRANSP : Nat) (x y : Int) :
    List object_t → List Nat → Option (List Nat)
  | [], buf => some buf
  | obj :: rest, buf =>
    let obj_x := obj.x
    let obj_y := obj.y
    let img := obj.image
    if y < obj_y ∨ y ≥ obj_y + img.hdr.height ∨
        x + SCROLL_X_DIM ≤ obj_x ∨ x ≥ obj_x + img.hdr.width then
      horiz_objects SCROLL_X_DIM OBJ_CLR_TRANSP x y rest buf
    else
      let yoff := (y - obj_y) * img.hdr.width
      let idx := if x ≤ obj_x then obj_x - x else 0
      let imgx := if x ≤ obj_x then 0 else x - obj_x
      match horiz_copy SCROLL_X_DIM OBJ_CLR_TRANSP img yoff (SCROLL_X_DIM + 1) idx imgx buf with
      | some buf2 => horiz_objects SCROLL_X_DIM OBJ_CLR_TRANSP x y rest buf2
      | none => none

/-- Function `fill_horiz_buffer` (lines 117-177).  `cur_room` is the file-scope
room recorded by `prep_room`; `buf` is the caller's array of `SCROLL_X_DIM` bytes. -/
def fill_horiz_buffer (SCROLL_X_DIM OBJ_CLR_TRANSP : Nat) (cur_room : room_t)
    (x y : Int) (buf : List Nat) : Option (List Nat) :=
  let view := cur_room.photo
  match horiz_photo_loop view x y (List.range SCROLL_X_DIM) buf with
  | some buf1 => horiz_objects SCROLL_X_DIM OBJ_CLR_TRANSP x y cur_room.contents buf1
  | none => none

/-- Loop at lines 212-215 over the given values of `idx`. -/
def vert_photo_loop (view : photo_t) (x y : Int) : List Nat → List Nat → Option (List Nat)
  | [], buf => some buf
  | idx :: rest, buf =>
    if 0 ≤ y + idx ∧ (view.hdr.height : Int) > y + idx then
      match read_at view.img ((view.hdr.width : Int) * (y + idx) + x) with
      | some v => vert_photo_loop view x y rest (buf.set idx v)
      | none => none
    else vert_photo_loop view x y rest (buf.set idx 0)

/-- Loop at lines 246-253; `fuel` bounds the number of rounds and `none` is
returned when it runs out or a read falls outside the image. -/
def vert_copy (SCROLL_Y_DIM OBJ_CLR_TRANSP : Nat) (img : image_t) (xoff : Int) :
    Nat → Int → Int → List Nat → Option (List Nat)
  | 0, _, _, _ => none
  | fuel + 1, idx, imgy, buf =>
    if (SCROLL_Y_DIM : Int) > idx ∧ (img.hdr.height : Int) > imgy then
      match read_at img.img (xoff + (img.hdr.width : Int) * imgy) with
      | some pixel =>
        vert_copy SCROLL_Y_DIM OBJ_CLR_TRANSP img xoff fuel (idx + 1) (imgy + 1)
          (if OBJ_CLR_TRANSP ≠ pixel then buf.set idx.toNat pixel else buf)
      | none => none
    else some buf

/-- Loop at lines 218-254 over the objects of the room, the sums and differences
of lines 225-243 taken as exact integers, as in `horiz_objects`. -/
def vert_objects (SCROLL_Y_DIM OBJ_CLR_TRANSP : Nat) (x y : Int) :
    List object_t → List Nat → Option (List Nat)
  | [], buf => some buf
  | obj :: rest, buf =>
    let obj_x := obj.x
    let obj_y := obj.y
    let img := obj.image
    if x < obj_x ∨ x ≥ obj_x + img.hdr.width ∨
        y + SCROLL_Y_DIM ≤ obj_y ∨ y ≥ obj_y + img.hdr.height then
      vert_objects SCROLL_Y_DIM OBJ_CLR_TRANSP x y rest buf
    else
      let xoff := x - obj_x
      let idx := if y ≤ obj_y then obj_y - y else 0
      let imgy := if y ≤ obj_y then 0 else y - obj_y
      match vert_copy SCROLL_Y_DIM OBJ_CLR_TRANSP img xoff (SCROLL_Y_DIM + 1) idx imgy buf with
      | some buf2 => vert_objects SCROLL_Y_DIM OBJ_CLR_TRANSP x y rest buf2
      | none => none

/-- The accesses of the loop at lines 168-175, one pair per round, in order: the
index at which `img->img` is read and the offset `idx` of the cell of `buf` that the
round may write. -/
def horiz_copy_accesses (SCROLL_X_DIM : Nat) (img : image_t) (yoff : Int) :
    Nat → Int → Int → List (Int × Int)
  | 0, _, _ => []
  | fuel + 1, idx, imgx =>
    if (SCROLL_X_DIM : Int) > idx ∧ (img.hdr.width : Int) > imgx then
      (yoff + imgx, idx) :: horiz_copy_accesses SCROLL_X_DIM img yoff fuel (idx + 1) (imgx + 1)
    else []

/-- The accesses `fill_horiz_buffer` makes for one object (lines 146-175). -/
def horiz_accesses (SCROLL_X_DIM : Nat) (x y : Int) (obj : object_t) : List (Int × Int) :=
  let obj_x := obj.x
  let obj_y := obj.y
  let img := obj.image
  if y < obj_y ∨ y ≥ obj_y + img.hdr.height ∨
      x + SCROLL_X_DIM ≤ obj_x ∨ x ≥ obj_x + img.hdr.width then []
  else
    let yoff := (y - obj_y) * img.hdr.width
    let idx := if x ≤ obj_x then obj_x - x else 0
    let imgx := if x ≤ obj_x then 0 else x - obj_x
    horiz_copy_accesses SCROLL_X_DIM img yoff (SCROLL_X_DIM + 1) idx imgx

/-- The accesses of the loop at lines 246-253, one pair per round, in order: the
index at which `img->img` is read and the offset `idx` of the cell of `buf` that the
round may write. -/
def vert_copy_accesses (SCROLL_Y_DIM : Nat) (img : image_t) (xoff : Int) :
    Nat → Int → Int → List (Int × Int)
  | 0, _, _ => []
  | fuel + 1, idx, imgy =>
    if (SCROLL_Y_DIM : Int) > idx ∧ (img.hdr.height : Int) > imgy then
      (xoff + (img.hdr.width : Int) * imgy, idx) ::
        vert_copy_accesses SCROLL_Y_DIM img xoff fuel (idx + 1) (imgy + 1)
    else []

/-- The accesses `fill_vert_buffer` makes for one object (lines 224-253). -/
def vert_accesses (SCROLL_Y_DIM : Nat) (x y : Int) (obj : object_t) : List (Int × Int) :=
  let obj_x := obj.x
  let obj_y := obj.y
  let img := obj.image
  if x < obj_x ∨ x ≥ obj_x + img.hdr.width ∨
      y + SCROLL_Y_DIM ≤ obj_y ∨ y ≥ obj_y + img.hdr.height then []
  else
    let xoff := x - obj_x
    let idx := if y ≤ obj_y then obj_y - y else 0
    let imgy := if y ≤ obj_y then 0 else y - obj_y
    vert_copy_accesses SCROLL_Y_DIM img xoff (SCROLL_Y_DIM + 1) idx imgy

/-- One access of a copy loop carried out on `buf`: the pixel read is stored at
the offset unless it is `OBJ_CLR_TRANSP`. -/
def do_access (OBJ_CLR_TRANSP : Nat) (img : image_t) (buf : List Nat) (a : Int × Int) :
    List Nat :=
  match read_at img.img a.1 with
  | some pixel => if OBJ_CLR_TRANSP ≠ pixel then buf.set a.2.toNat pixel else buf
  | none => buf

/-- The value a 32-bit two's complement `int` holds after an operation whose exact
result is `v`. -/
def to_int (v : Int) : Int := (v + 2147483648) % 4294967296 - 2147483648

/-- Loop at lines 140-176 over the objects of the room as the machine runs it:
every sum, difference and product of lines 147-165 is an `int` (`x`, `y`,
`SCROLL_X_DIM`) or `int32_t` (`obj_x`, `obj_y`) operation, the 16-bit header
fields being promoted to `int`, and gives the value `to_int` of its exact result. -/
def horiz_objects_int (SCROLL_X_DIM OBJ_CLR_TRANSP : Nat) (x y : Int) :
    List object_t → List Nat → Option (List Nat)
  | [], buf => some buf
  | obj :: rest, buf =>
    let obj_x := obj.x
    let obj_y := obj.y
    let img := obj.image
    if y < obj_y ∨ y ≥ to_int (obj_y + img.hdr.height) ∨
        to_int (x + SCROLL_X_DIM) ≤ obj_x ∨ x ≥ to_int (obj_x + img.hdr.width) then
      horiz_objects_int SCROLL_X_DIM OBJ_CLR_TRANSP x y rest buf
    else
      let yoff := to_int (to_int (y - obj_y) * img.hdr.width)
      let idx := if x ≤ obj_x then to_int (obj_x - x) else 0
      let imgx := if x ≤ obj_x then 0 else to_int (x - obj_x)
      match horiz_copy SCROLL_X_DIM OBJ_CLR_TRANSP img yoff (SCROLL_X_DIM + 1) idx imgx buf with
      | some buf2 => horiz_objects_int SCROLL_X_DIM OBJ_CLR_TRANSP x y rest buf2
      | none => none

/-- Function `fill_horiz_buffer` (lines 117-177) with the object loop in 32-bit
`int`. -/
def fill_horiz_buffer_int (SCROLL_X_DIM OBJ_CLR_TRANSP : Nat) (cur_room : room_t)
    (x y : Int) (buf : List Nat) : Option (List Nat) :=
  let view := cur_room.photo
  match horiz_photo_loop view x y (List.range SCROLL_X_DIM) buf with
  | some buf1 => horiz_objects_int SCROLL_X_DIM OBJ_CLR_TRANSP x y cur_room.contents buf1
  | none => none

/-- Function `fill_vert_buffer` (lines 195-255).  `cur_room` is the file-scope
room recorded by `prep_room`; `buf` is the caller's array of `SCROLL_Y_DIM` bytes. -/
def fill_vert_buffer (SCROLL_Y_DIM OBJ_CLR_TRANSP : Nat) (cur_room : room_t)
    (x y : Int) (buf : List Nat) : Option (List Nat) :=
  let view := cur_room.photo
  match vert_photo_loop view x y (List.range SCROLL_Y_DIM) buf with
  | some buf1 => vert_objects SCROLL_Y_DIM OBJ_CLR_TRANSP x y cur_room.contents buf1
  | none => none

/-! ## Vocabulary of the claims -/

/-- Red channel of a 5:6:5 pixel (bits 15..11). -/
def red_of (pixel : Nat) : Nat := (pixel >>> 11) &&& red_bitmask
/-- Green channel of a 5:6:5 pixel (bits 10..5). -/
def green_of (pixel : Nat) : Nat := (pixel >>> 5) &&& green_bitmask
/-- Blue channel of a 5:6:5 pixel (bits 4..0). -/
def blue_of (pixel : Nat) : Nat := pixel &&& blue_bitmask

/-- Fine id of a colour: `(r>>1)<<8 | (g>>2)<<4 | (b>>1)`. -/
def fine_rgb (r g b : Nat) : Nat := ((r >>> 1) <<< 8) ||| ((g >>> 2) <<< 4) ||| (b >>> 1)
/-- Coarse id of a colour: `(r>>3)<<4 | (g>>4)<<2 | (b>>3)`. -/
def coarse_rgb (r g b : Nat) : Nat := ((r >>> 3) <<< 4) ||| ((g >>> 4) <<< 2) ||| (b >>> 3)

/-- Fine id of a pixel. -/
def fine_id (pixel : Nat) : Nat := fine_rgb (red_of pixel) (green_of pixel) (blue_of pixel)
/-- Coarse id of a pixel. -/
def coarse_id (pixel : Nat) : Nat := coarse_rgb (red_of pixel) (green_of pixel) (blue_of pixel)

/-- Sum of a channel over a list of pixels. -/
def chan_sum (f : Nat → Nat) (ps : List Nat) : Int := ((ps.map f).sum : Nat)

/-- The bucket that a list of pixels with a common id adds up to. -/
def bucket_of (ps : List Nat) (id : Nat) : octree :=
  ⟨chan_sum red_of ps, chan_sum green_of ps, chan_sum blue_of ps, (ps.length : Nat), id⟩
/-- The pixels of a stream whose fine id is `k`, added up. -/
def fine_hist (s : List Nat) (k : Nat) : octree :=
  bucket_of (s.filter (fun p => fine_id p = k)) k

/-- The pixels of a stream whose coarse id is `j`, added up. -/
def coarse_hist (s : List Nat) (j : Nat) : octree :=
  bucket_of (s.filter (fun p => coarse_id p = j)) j

/-- Fine bucket of id `k` is promoted at rank `i`: it sits at a rank below 128 of
the sorted array and its count is not zero. -/
def promoted_at (level_4 : List octree) (i k : Nat) : Prop :=
  i < 128 ∧ ∃ o, level_4[i]? = some o ∧ o.count ≠ 0 ∧ o.node_num = k

/-- The promoted buckets among the first `n` ranks whose two top bits per channel
form the coarse id `j`. -/
def promoted_in (level_4 : List octree) (n j : Nat) : List octree :=
  (level_4.take n).filter
    (fun o => decide (o.count ≠ 0) && decide (coarse_of_node o.node_num = j))

/-- The residual of a coarse bucket: what is left of it after the promoted fine
buckets it contains have been taken out. -/
def residual (level_4 : List octree) (c : octree) (j : Nat) : octree :=
  { c with
    red := c.red - ((promoted_in level_4 128 j).map octree.red).sum
    green := c.green - ((promoted_in level_4 128 j).map octree.green).sum
    blue := c.blue - ((promoted_in level_4 128 j).map octree.blue).sum
    count := c.count - ((promoted_in level_4 128 j).map octree.count).sum }

/-- The ids of the promoted fine buckets inside coarse bucket `j`. -/
def promoted_ids (level_4 : List octree) (j : Nat) : List Nat :=
  (promoted_in level_4 128 j).map octree.node_num

/-- The pixels of a stream that fall in coarse bucket `j` and whose fine bucket
was not promoted. -/
def rest_pixels (s : List Nat) (level_4 : List octree) (j : Nat) : List Nat :=
  s.filter (fun p => decide (coarse_id p = j ∧ ¬ fine_id p ∈ promoted_ids level_4 j))

/-- The value the photo contributes to offset `i` of a horizontal strip starting
at `(x, y)` (lines 135-136). -/
def photo_horiz (view : photo_t) (x y : Int) (i : Nat) : Option Nat :=
  if 0 ≤ x + i ∧ (view.hdr.width : Int) > x + i then
    read_at view.img ((view.hdr.width : Int) * y + x + i)
  else some 0

/-- The value the photo contributes to offset `i` of a vertical strip starting
at `(x, y)` (lines 213-214). -/
def photo_vert (view : photo_t) (x y : Int) (i : Nat) : Option Nat :=
  if 0 ≤ y + i ∧ (view.hdr.height : Int) > y + i then
    read_at view.img ((view.hdr.width : Int) * (y + i) + x)
  else some 0

/-- A strip cell after an object pixel was offered to it: a pixel other than
`OBJ_CLR_TRANSP` replaces the cell, anything else leaves it. -/
def paint (OBJ_CLR_TRANSP : Nat) (pixel : Option Nat) (old : Option Nat) : Option Nat :=
  match pixel with
  | some p => if OBJ_CLR_TRANSP ≠ p then some p else old
  | none => old

/-- The pixel an object shows at map coordinate `(mx, my)`: defined when the
bounding box of the object contains the coordinate and the object's pixel there is
not `OBJ_CLR_TRANSP`. -/
def obj_pixel (OBJ_CLR_TRANSP : Nat) (obj : object_t) (mx my : Int) : Option Nat :=
  if obj.x ≤ mx ∧ mx < obj.x + obj.image.hdr.width ∧
      obj.y ≤ my ∧ my < obj.y + obj.image.hdr.height then
    paint OBJ_CLR_TRANSP
      (read_at obj.image.img ((my - obj.y) * obj.image.hdr.width + (mx - obj.x))) none
  else none

/-- The bounding box of an object contains the map coordinate `(mx, my)`. -/
def covers (obj : object_t) (mx my : Int) : Prop :=
  obj.x ≤ mx ∧ mx < obj.x + obj.image.hdr.width ∧
    obj.y ≤ my ∧ my < obj.y + obj.image.hdr.height

/-- The pixel of an object's image that corresponds to the map coordinate
`(mx, my)`: row `my - y`, column `mx - x` of the image. -/
def sprite_pixel (obj : object_t) (mx my : Int) : Option Nat :=
  read_at obj.image.img ((my - obj.y) * obj.image.hdr.width + (mx - obj.x))

/-- The objects of a list laid over a value in iteration order. -/
def overlay (OBJ_CLR_TRANSP : Nat) (mx my : Int) : List object_t → Nat → Nat
  | [], v => v
  | obj :: rest, v =>
    overlay OBJ_CLR_TRANSP mx my rest ((obj_pixel OBJ_CLR_TRANSP obj mx my).getD v)

/-- The value `v` is in the range of a 32-bit `int`. -/
def in_int (v : Int) : Prop := -2147483648 ≤ v ∧ v ≤ 2147483647

/-- The far corner, the dimensions and the pixel count of an object are in the
range of `int`. -/
def object_in_int (obj : object_t) : Prop :=
  in_int (obj.x + obj.image.hdr.width) ∧ in_int (obj.y + obj.image.hdr.height) ∧
  in_int obj.image.hdr.width ∧ in_int obj.image.hdr.height ∧
  in_int ((obj.image.hdr.width : Int) * obj.image.hdr.height)

/-- An image holds `width * height` pixels. -/
def image_wf (img : image_t) : Prop := img.img.length = img.hdr.width * img.hdr.height

/-- A photo holds `width * height` pixels. -/
def photo_wf (p : photo_t) : Prop := p.img.length = p.hdr.width * p.hdr.height

/-- The position in the file, counted in 16-bit words from its start, of the word
whose index the second pass of `read_photo` stores at `img[m]`: the pair `(y, x)`
with `width * y + x - 2 = m` is visited after `(height - 1 - y) * width + x` reads. -/
def word_stored_at (width height m : Nat) : Nat :=
  (height - 1 - (m + 2) / width) * width + (m + 2) % width

/-! ## The lookup table of the design notes -/

/-- The table follows the words of the design notes, not the source: built once
after selection, it maps the fine id of each promoted bucket (rank `i < 128` with
non-zero count) to `128 + i`; `none` stands for every other fine id. -/
def promoted_table (level_4 : List octree) (fine : Nat) : Option Nat :=
  ((List.range 128).find? (fun i =>
    match level_4[i]? with
    | some o => decide (o.count ≠ 0) && decide (o.node_num = fine)
    | none => false)).map (fun i => 128 + i)

/-- Remapping by direct lookup, in the words of the design notes: the table entry
of the pixel's fine id when there is one, and 64 + the pixel's coarse id for every
other fine id. -/
def vga_by_table (level_4 : List octree) (pixel : Nat) : Nat :=
  match promoted_table level_4 (fine_id pixel) with
  | some index => index
  | none => 64 + coarse_id pixel

/-! ## Sample inputs -/

/-- A stream of two pixels: pure red and pure blue. -/
def sample_stream : List Nat := [0xF800, 0x1F]

/-- The fine array of the sample stream as sorted by `qsort_model`. -/
def sample_sorted : List octree := qsort_model (accumulate sample_stream).level_4

/-- A 2x1 photo with a single 1x1 object placed at `(1, 0)`. -/
def sample_room : room_t :=
  { photo := { hdr := ⟨2, 1⟩, palette := List.replicate 192 (31, 63, 31), img := [70, 71] }
    contents := [{ x := 1, y := 0, image := { hdr := ⟨1, 1⟩, img := [5] } }] }

/-- The 64 pixels of the 8x8 image that is pure red everywhere. -/
def red_pixels : List Nat := List.replicate 64 0xF800

/-- The file of the 8x8 image that is pure red everywhere: the header words 8, 8
and the 64 pixels. -/
def red_file : List Nat := 8 :: 8 :: red_pixels

/-- A room with a 2x2 photo and no object. -/
def bare_room : room_t :=
  { photo := { hdr := ⟨2, 2⟩, palette := List.replicate 192 (0, 0, 0), img := [70, 71, 72, 73] }
    contents := [] }

/-- A 2x2 object at `(1, 0)` whose top right pixel is the transparent code 64. -/
def sample_object : object_t :=
  { x := 1, y := 0, image := { hdr := ⟨2, 2⟩, img := [5, 64, 6, 7] } }

/-- The file of a 1x1 image whose only pixel is pure red. -/
def one_pixel_file : List Nat := [1, 1, 0xF800]

/-- A room without objects whose photo is what `read_photo` returns for
`one_pixel_file` when `qsort` behaves as `qsort_model` and the allocated byte
is 0. -/
def one_pixel_room : room_t :=
  { photo :=
      { hdr := ⟨1, 1⟩
        palette := (select_palette (qsort_model (accumulate [0xF800]).level_4)
          (accumulate [0xF800]).level_2).1
        img := [0] }
    contents := [] }

/-- A room whose only object, two pixels wide, sits two columns below the largest
`int`. -/
def far_room : room_t :=
  { photo := { hdr := ⟨2, 1⟩, palette := List.replicate 192 (0, 0, 0), img := [70, 71] }
    contents := [{ x := 2147483646, y := 0, image := { hdr := ⟨2, 1⟩, img := [5, 6] } }] }

/-! # Theorems -/

/-! ## Bit arithmetic -/

theorem and_1F (x : Nat) : x &&& 0x1F = x % 32 := Nat.and_pow_two_sub_one_eq_mod x 5
theorem and_3F (x : Nat) : x &&& 0x3F = x % 64 := Nat.and_pow_two_sub_one_eq_mod x 6
theorem and_3 (x : Nat) : x &&& 0x3 = x % 4 := Nat.and_pow_two_sub_one_eq_mod x 2

theorem pack_8_4 (a b c : Nat) (hb : b < 16) (hc : c < 16) :
    (a <<< 8) ||| (b <<< 4) ||| c = a * 256 + b * 16 + c := by
  have h1 : (a <<< 8) ||| (b <<< 4) = 2 ^ 4 * (a * 16 + b) := by
    have := Nat.mul_add_lt_is_or (show 2 ^ 4 * b < 2 ^ 8 by omega) a
    rw [Nat.shiftLeft_eq, Nat.shiftLeft_eq, Nat.mul_comm a, Nat.mul_comm b, ← this]
    omega
  rw [h1, ← Nat.mul_add_lt_is_or (show c < 2 ^ 4 by omega)]
  omega

theorem pack_4_2 (a b c : Nat) (hb : b < 4) (hc : c < 4) :
    (a <<< 4) ||| (b <<< 2) ||| c = a * 16 + b * 4 + c := by
  have h1 : (a <<< 4) ||| (b <<< 2) = 2 ^ 2 * (a * 4 + b) := by
    have := Nat.mul_add_lt_is_or (show 2 ^ 2 * b < 2 ^ 4 by omega) a
    rw [Nat.shiftLeft_eq, Nat.shiftLeft_eq, Nat.mul_comm a, Nat.mul_comm b, ← this]
    omega
  rw [h1, ← Nat.mul_add_lt_is_or (show c < 2 ^ 2 by omega)]
  omega

theorem red_of_eq (p : Nat) : red_of p = p / 2048 % 32 := by
  simp [red_of, red_bitmask, and_1F, Nat.shiftRight_eq_div_pow]

theorem green_of_eq (p : Nat) : green_of p = p / 32 % 64 := by
  simp [green_of, green_bitmask, and_3F, Nat.shiftRight_eq_div_pow]

theorem blue_of_eq (p : Nat) : blue_of p = p % 32 := by
  simp [blue_of, blue_bitmask, and_1F]

theorem fine_rgb_eq (r g b : Nat) (hg : g < 64) (hb : b < 32) :
    fine_rgb r g b = r / 2 * 256 + g / 4 * 16 + b / 2 := by
  unfold fine_rgb
  rw [pack_8_4 _ _ _ (by simp [Nat.shiftRight_eq_div_pow]; omega)
    (by simp [Nat.shiftRight_eq_div_pow]; omega)]
  simp [Nat.shiftRight_eq_div_pow]

theorem coarse_rgb_eq (r g b : Nat) (hg : g < 64) (hb : b < 32) :
    coarse_rgb r g b = r / 8 * 16 + g / 16 * 4 + b / 8 := by
  unfold coarse_rgb
  rw [pack_4_2 _ _ _ (by simp [Nat.shiftRight_eq_div_pow]; omega)
    (by simp [Nat.shiftRight_eq_div_pow]; omega)]
  simp [Nat.shiftRight_eq_div_pow]

theorem red_of_lt (p : Nat) : red_of p < 32 := by rw [red_of_eq]; omega
theorem green_of_lt (p : Nat) : green_of p < 64 := by rw [green_of_eq]; omega
theorem blue_of_lt (p : Nat) : blue_of p < 32 := by rw [blue_of_eq]; omega

theorem fine_id_eq (p : Nat) :
    fine_id p = red_of p / 2 * 256 + green_of p / 4 * 16 + blue_of p / 2 :=
  fine_rgb_eq _ _ _ (green_of_lt p) (blue_of_lt p)

theorem coarse_id_eq (p : Nat) :
    coarse_id p = red_of p / 8 * 16 + green_of p / 16 * 4 + blue_of p / 8 :=
  coarse_rgb_eq _ _ _ (green_of_lt p) (blue_of_lt p)

theorem fine_id_lt (p : Nat) : fine_id p < 4096 := by
  have := red_of_lt p; have := green_of_lt p; have := blue_of_lt p
  rw [fine_id_eq]; omega

theorem coarse_id_lt (p : Nat) : coarse_id p < 64 := by
  have := red_of_lt p; have := green_of_lt p; have := blue_of_lt p
  rw [coarse_id_eq]; omega

theorem coarse_of_node_eq (n : Nat) :
    coarse_of_node n = n / 1024 % 4 * 16 + n / 64 % 4 * 4 + n / 4 % 4 := by
  unfold coarse_of_node
  simp only [bitmask, and_3]
  rw [pack_4_2 _ _ _ (by omega) (by omega)]
  simp [Nat.shiftRight_eq_div_pow]

theorem coarse_of_node_lt (n : Nat) : coarse_of_node n < 64 := by
  rw [coarse_of_node_eq]; omega

theorem coarse_of_fine (p : Nat) : coarse_of_node (fine_id p) = coarse_id p := by
  have := red_of_lt p; have := green_of_lt p; have := blue_of_lt p
  rw [coarse_of_node_eq, fine_id_eq, coarse_id_eq]; omega

theorem map_to_octree_eq (st : Hist) (p : Nat) :
    map_to_octree st p =
      { level_4 := add_pixel st.level_4 (fine_id p) (red_of p) (green_of p) (blue_of p)
        level_2 := add_pixel st.level_2 (coarse_id p) (red_of p) (green_of p) (blue_of p) } :=
  rfl

/-! ## Accumulation -/

theorem add_pixel_map (f : Nat → octree) (n i r g b : Nat) (hi : i < n) :
    add_pixel ((List.range n).map f) i r g b =
      (List.range n).map (fun k => if k = i then add_oct (f k) r g b else f k) := by
  unfold add_pixel
  have h : ((List.range n).map f)[i]? = some (f i) := by
    simp [List.getElem?_map, List.getElem?_range hi]
  rw [h]
  apply List.ext_getElem
  · simp
  · intro k h1 h2
    simp only [List.length_map, List.length_range, List.length_set] at h1 h2
    simp only [List.getElem_set, List.getElem_map, List.getElem_range]
    by_cases hk : i = k
    · subst hk; simp
    · have hk2 : ¬ k = i := fun e => hk e.symm
      simp [hk, hk2]

theorem chan_sum_append (f : Nat → Nat) (a b : List Nat) :
    chan_sum f (a ++ b) = chan_sum f a + chan_sum f b := by
  simp [chan_sum]

theorem chan_sum_nil (f : Nat → Nat) : chan_sum f [] = 0 := by simp [chan_sum]

theorem chan_sum_single (f : Nat → Nat) (p : Nat) : chan_sum f [p] = f p := by
  simp [chan_sum]

theorem bucket_of_snoc (id : Nat → Nat) (s : List Nat) (p k : Nat) :
    bucket_of ((s ++ [p]).filter (fun q => id q = k)) k =
      if k = id p then
        add_oct (bucket_of (s.filter (fun q => id q = k)) k) (red_of p) (green_of p) (blue_of p)
      else bucket_of (s.filter (fun q => id q = k)) k := by
  rw [List.filter_append]
  by_cases h : k = id p
  · have h2 : id p = k := h.symm
    simp [h2, bucket_of, add_oct, chan_sum_append, chan_sum_single]
  · have h2 : ¬ id p = k := fun e => h e.symm
    simp [h2, h]

theorem accumulate_snoc (s : List Nat) (p : Nat) :
    accumulate (s ++ [p]) = map_to_octree (accumulate s) p := by
  simp [accumulate, List.foldl_append]

theorem accumulate_eq (s : List Nat) :
    accumulate s =
      { level_4 := (List.range level_4_size).map (fine_hist s)
        level_2 := (List.range level_2_size).map (coarse_hist s) } := by
  induction s using List.reverseRecOn with
  | nil =>
    simp [accumulate, reset_hist, fine_hist, coarse_hist, bucket_of, chan_sum_nil]
  | append_singleton s p ih =>
    rw [accumulate_snoc, ih, map_to_octree_eq]
    simp only
    rw [add_pixel_map _ level_4_size _ _ _ _ (fine_id_lt p),
      add_pixel_map _ level_2_size _ _ _ _ (coarse_id_lt p)]
    have h4 : ∀ k, (if k = fine_id p then
          add_oct (fine_hist s k) (red_of p) (green_of p) (blue_of p)
        else fine_hist s k) = fine_hist (s ++ [p]) k := by
      intro k
      simp only [fine_hist]
      rw [bucket_of_snoc fine_id]
    have h2 : ∀ k, (if k = coarse_id p then
          add_oct (coarse_hist s k) (red_of p) (green_of p) (blue_of p)
        else coarse_hist s k) = coarse_hist (s ++ [p]) k := by
      intro k
      simp only [coarse_hist]
      rw [bucket_of_snoc coarse_id]
    simp only [h4, h2]

theorem level_4_getElem? (s : List Nat) (k : Nat) (hk : k < 4096) :
    (accumulate s).level_4[k]? = some (fine_hist s k) := by
  rw [accumulate_eq]
  simp [level_4_size, List.getElem?_map, List.getElem?_range hk]

theorem level_2_getElem? (s : List Nat) (j : Nat) (hj : j < 64) :
    (accumulate s).level_2[j]? = some (coarse_hist s j) := by
  rw [accumulate_eq]
  simp [level_2_size, List.getElem?_map, List.getElem?_range hj]

/-! ## The selection loops -/

theorem sub_bucket_getElem? (a : List octree) (i j : Nat) (o : octree) :
    (sub_bucket a i o)[j]? = if i = j then (a[j]?).map (fun c => sub_oct c o) else a[j]? := by
  unfold sub_bucket
  cases h : a[i]? with
  | none =>
    by_cases hij : i = j
    · subst hij; simp [h]
    · simp [hij]
  | some c =>
    simp only [List.getElem?_set]
    by_cases hij : i = j
    · subst hij
      have hlt : i < a.length := (List.getElem?_eq_some.mp h).1
      simp [h, hlt]
    · simp [hij]

theorem sub_bucket_length (a : List octree) (i : Nat) (o : octree) :
    (sub_bucket a i o).length = a.length := by
  unfold sub_bucket
  cases a[i]? <;> simp

theorem foldl_sub_oct (c : octree) (l : List octree) :
    l.foldl sub_oct c =
      { c with red := c.red - (l.map octree.red).sum
               green := c.green - (l.map octree.green).sum
               blue := c.blue - (l.map octree.blue).sum
               count := c.count - (l.map octree.count).sum } := by
  induction l generalizing c with
  | nil => simp
  | cons o l ih =>
    rw [List.foldl_cons, ih]
    simp only [sub_oct, List.map_cons, List.sum_cons]
    congr 1 <;> ring

theorem promoted_in_succ (l4 : List octree) (n j : Nat) (o : octree) (h : l4[n]? = some o) :
    promoted_in l4 (n + 1) j =
      promoted_in l4 n j ++
        (if o.count ≠ 0 ∧ coarse_of_node o.node_num = j then [o] else []) := by
  unfold promoted_in
  rw [List.take_succ, h, List.filter_append]
  congr 1
  by_cases h1 : o.count ≠ 0 ∧ coarse_of_node o.node_num = j
  · simp [h1.1, h1.2]
  · rw [if_neg h1]
    simp only [Option.toList, List.filter_cons, List.filter_nil]
    have : (decide (o.count ≠ 0) && decide (coarse_of_node o.node_num = j)) = false := by
      simpa using h1
    rw [this]; rfl

theorem fine_step_pos (l4 : List octree) (st : List color × List octree) (i : Nat)
    (o : octree) (h : l4[i]? = some o) (hc : o.count ≠ 0) :
    fine_step l4 st i =
      (st.1.set (i + 64) (average o), sub_bucket st.2 (coarse_of_node o.node_num) o) := by
  unfold fine_step; rw [h]; simp only; rw [if_pos hc]

theorem fine_step_neg (l4 : List octree) (st : List color × List octree) (i : Nat)
    (o : octree) (h : l4[i]? = some o) (hc : ¬ o.count ≠ 0) :
    fine_step l4 st i = st := by
  unfold fine_step; rw [h]; simp only; rw [if_neg hc]

theorem coarse_step_pos (l2 : List octree) (pal : List color) (j : Nat)
    (c : octree) (h : l2[j]? = some c) (hc : c.count ≠ 0) :
    coarse_step l2 pal j = pal.set j (average c) := by
  unfold coarse_step; rw [h]; simp only; rw [if_pos hc]

theorem coarse_step_neg (l2 : List octree) (pal : List color) (j : Nat)
    (c : octree) (h : l2[j]? = some c) (hc : ¬ c.count ≠ 0) :
    coarse_step l2 pal j = pal := by
  unfold coarse_step; rw [h]; simp only; rw [if_neg hc]

theorem fine_loop_level_2 (l4 l2 : List octree) (pal0 : List color) (n j : Nat)
    (hn : n ≤ l4.length) :
    ((List.range n).foldl (fine_step l4) (pal0, l2)).2[j]? =
      (l2[j]?).map (fun c => (promoted_in l4 n j).foldl sub_oct c) := by
  induction n with
  | zero => simp [promoted_in]
  | succ n ih =>
    have hlt : n < l4.length := hn
    have hget : l4[n]? = some l4[n] := List.getElem?_eq_getElem hlt
    rw [List.range_succ, List.foldl_append, List.foldl_cons, List.foldl_nil]
    rw [promoted_in_succ l4 n j _ hget]
    have ih2 := ih (Nat.le_of_lt hlt)
    by_cases hc : l4[n].count ≠ 0
    · rw [fine_step_pos l4 _ n _ hget hc]
      simp only
      rw [sub_bucket_getElem?, ih2]
      by_cases hj : coarse_of_node l4[n].node_num = j
      · rw [if_pos hj, if_pos ⟨hc, hj⟩]
        cases l2[j]? <;> simp [List.foldl_append]
      · rw [if_neg hj, if_neg (fun h => hj h.2)]
        simp
    · rw [fine_step_neg l4 _ n _ hget hc, if_neg (fun h => hc h.1), ih2]
      simp

theorem fine_loop_level_2_length (l4 l2 : List octree) (pal0 : List color) (n : Nat) :
    ((List.range n).foldl (fine_step l4) (pal0, l2)).2.length = l2.length := by
  induction n with
  | zero => simp
  | succ n ih =>
    rw [List.range_succ, List.foldl_append, List.foldl_cons, List.foldl_nil]
    unfold fine_step
    split
    · split
      · simp only [sub_bucket_length]; exact ih
      · exact ih
    · exact ih

theorem fine_loop_palette_length (l4 l2 : List octree) (pal0 : List color) (n : Nat) :
    ((List.range n).foldl (fine_step l4) (pal0, l2)).1.length = pal0.length := by
  induction n with
  | zero => simp
  | succ n ih =>
    rw [List.range_succ, List.foldl_append, List.foldl_cons, List.foldl_nil]
    unfold fine_step
    split
    · split
      · simp only [List.length_set]; exact ih
      · exact ih
    · exact ih

/-- Palette after `n` rounds of the loop at lines 564-583. -/
theorem fine_loop_palette (l4 l2 : List octree) (pal0 : List color) (n m : Nat)
    (hn : n ≤ l4.length) (hp : n + 64 ≤ pal0.length) :
    ((List.range n).foldl (fine_step l4) (pal0, l2)).1[m]? =
      if 64 ≤ m ∧ m < 64 + n then
        match l4[m - 64]? with
        | some o => if o.count ≠ 0 then some (average o) else pal0[m]?
        | none => pal0[m]?
      else pal0[m]? := by
  induction n with
  | zero =>
    have : ¬ (64 ≤ m ∧ m < 64 + 0) := by omega
    simp [this]
  | succ n ih =>
    have hlt : n < l4.length := hn
    have hget : l4[n]? = some l4[n] := List.getElem?_eq_getElem hlt
    have ih2 := ih (Nat.le_of_lt hlt) (by omega)
    have hlen := fine_loop_palette_length l4 l2 pal0 n
    rw [List.range_succ, List.foldl_append, List.foldl_cons, List.foldl_nil]
    by_cases hm : m = n + 64
    · subst hm
      have h1 : 64 ≤ n + 64 ∧ n + 64 < 64 + (n + 1) := by omega
      have h2 : ¬ (64 ≤ n + 64 ∧ n + 64 < 64 + n) := by omega
      rw [if_pos h1, Nat.add_sub_cancel, hget]
      simp only
      rw [if_neg h2] at ih2
      by_cases hc : l4[n].count ≠ 0
      · rw [fine_step_pos l4 _ n _ hget hc, if_pos hc]
        simp only
        rw [List.getElem?_set_self (by omega)]
      · rw [fine_step_neg l4 _ n _ hget hc, if_neg hc, ih2]
    · have h3 : (64 ≤ m ∧ m < 64 + (n + 1)) ↔ (64 ≤ m ∧ m < 64 + n) := by omega
      simp only [h3]
      by_cases hc : l4[n].count ≠ 0
      · rw [fine_step_pos l4 _ n _ hget hc]
        simp only
        rw [List.getElem?_set_ne (fun e => hm e.symm), ih2]
      · rw [fine_step_neg l4 _ n _ hget hc, ih2]

theorem coarse_loop_length (l2 : List octree) (pal : List color) (n : Nat) :
    ((List.range n).foldl (coarse_step l2) pal).length = pal.length := by
  induction n with
  | zero => simp
  | succ n ih =>
    rw [List.range_succ, List.foldl_append, List.foldl_cons, List.foldl_nil]
    unfold coarse_step
    split
    · split
      · simp only [List.length_set]; exact ih
      · exact ih
    · exact ih

/-- Palette after `n` rounds of the loop at lines 585-591. -/
theorem coarse_loop_palette (l2 : List octree) (pal : List color) (n m : Nat)
    (hn : n ≤ l2.length) (hp : n ≤ pal.length) :
    ((List.range n).foldl (coarse_step l2) pal)[m]? =
      if m < n then
        match l2[m]? with
        | some c => if c.count ≠ 0 then some (average c) else pal[m]?
        | none => pal[m]?
      else pal[m]? := by
  induction n with
  | zero => simp
  | succ n ih =>
    have hlt : n < l2.length := hn
    have hget : l2[n]? = some l2[n] := List.getElem?_eq_getElem hlt
    have ih2 := ih (Nat.le_of_lt hlt) (by omega)
    have hlen := coarse_loop_length l2 pal n
    rw [List.range_succ, List.foldl_append, List.foldl_cons, List.foldl_nil]
    by_cases hm : m = n
    · subst hm
      rw [if_pos (Nat.lt_succ_self m), hget]
      simp only
      rw [if_neg (Nat.lt_irrefl m)] at ih2
      by_cases hc : l2[m].count ≠ 0
      · rw [coarse_step_pos l2 _ m _ hget hc, if_pos hc]
        rw [List.getElem?_set_self (by omega)]
      · rw [coarse_step_neg l2 _ m _ hget hc, if_neg hc, ih2]
    · have h3 : m < n + 1 ↔ m < n := by omega
      simp only [h3]
      by_cases hc : l2[n].count ≠ 0
      · rw [coarse_step_pos l2 _ n _ hget hc]
        rw [List.getElem?_set_ne (fun e => hm e.symm), ih2]
      · rw [coarse_step_neg l2 _ n _ hget hc, ih2]

/-! ## Sums over sub-streams -/

theorem chan_sum_cons (f : Nat → Nat) (p : Nat) (s : List Nat) :
    chan_sum f (p :: s) = f p + chan_sum f s := by
  simp [chan_sum]

theorem chan_sum_one (s : List Nat) : chan_sum (fun _ => 1) s = (s.length : Nat) := by
  induction s with
  | nil => simp [chan_sum]
  | cons p s ih => rw [chan_sum_cons, ih]; simp; ring

theorem chan_sum_nonneg (f : Nat → Nat) (s : List Nat) : 0 ≤ chan_sum f s := by
  unfold chan_sum; exact Int.ofNat_nonneg _

/-- A sub-stream splits into the part inside a smaller selection and the rest. -/
theorem chan_sum_split (f : Nat → Nat) (s : List Nat) (A B : Nat → Prop)
    [DecidablePred A] [DecidablePred B] (hBA : ∀ p, B p → A p) :
    chan_sum f (s.filter (fun p => decide (A p))) =
      chan_sum f (s.filter (fun p => decide (B p))) +
        chan_sum f (s.filter (fun p => decide (A p ∧ ¬ B p))) := by
  induction s with
  | nil => simp [chan_sum]
  | cons p s ih =>
    by_cases hB : B p
    · have hA := hBA p hB
      simp only [List.filter_cons, hA, hB, decide_True, decide_False, if_true, not_true,
        and_false, if_false, chan_sum_cons, Bool.false_eq_true]
      rw [ih]; ring
    · by_cases hA : A p
      · simp only [List.filter_cons, hA, hB, decide_True, decide_False, if_true, not_false_eq_true,
          and_self, if_false, chan_sum_cons, Bool.false_eq_true]
        rw [ih]; ring
      · simp only [List.filter_cons, hA, hB, decide_False, if_false, false_and,
          Bool.false_eq_true]
        rw [ih]

/-- Adding up the sub-streams of the ids of a duplicate-free list gives the
sub-stream of the pixels whose id is in the list. -/
theorem chan_sum_ids (f id : Nat → Nat) (s : List Nat) (L : List Nat) (hL : L.Nodup) :
    (L.map (fun k => chan_sum f (s.filter (fun p => decide (id p = k))))).sum =
      chan_sum f (s.filter (fun p => decide (id p ∈ L))) := by
  induction L with
  | nil => simp [chan_sum]
  | cons k L ih =>
    rw [List.nodup_cons] at hL
    rw [List.map_cons, List.sum_cons, ih hL.2]
    have h := chan_sum_split f s (fun p => id p ∈ k :: L) (fun p => id p = k)
      (fun p hp => by simp [hp])
    rw [h]
    congr 2
    apply List.filter_congr
    intro p _
    by_cases h1 : id p = k
    · subst h1; simp [hL.1]
    · simp [h1]

/-! ## Averages -/

theorem to_uint8_natCast (n : Nat) (h : n < 256) : to_uint8 (n : Int) = n := by
  unfold to_uint8
  have : ((n : Int) % 256) = n := Int.emod_eq_of_lt (by omega) (by omega)
  rw [this]; simp

theorem nat_sum_le (f : Nat → Nat) (ps : List Nat) (hi : Nat) (h : ∀ q ∈ ps, f q ≤ hi) :
    (ps.map f).sum ≤ hi * ps.length := by
  induction ps with
  | nil => simp
  | cons q ps ih =>
    have h1 := h q (by simp)
    have h2 := ih (fun x hx => h x (by simp [hx]))
    simp only [List.map_cons, List.sum_cons, List.length_cons]
    rw [Nat.mul_succ]; omega

theorem nat_sum_ge (f : Nat → Nat) (ps : List Nat) (lo : Nat) (h : ∀ q ∈ ps, lo ≤ f q) :
    lo * ps.length ≤ (ps.map f).sum := by
  induction ps with
  | nil => simp
  | cons q ps ih =>
    have h1 := h q (by simp)
    have h2 := ih (fun x hx => h x (by simp [hx]))
    simp only [List.map_cons, List.sum_cons, List.length_cons]
    rw [Nat.mul_succ]; omega

theorem nat_avg_le (f : Nat → Nat) (ps : List Nat) (hi : Nat) (h : ∀ q ∈ ps, f q ≤ hi) :
    (ps.map f).sum / ps.length ≤ hi := by
  rcases Nat.eq_zero_or_pos ps.length with h0 | h0
  · rw [h0, Nat.div_zero]; exact Nat.zero_le _
  · exact Nat.div_le_of_le_mul (by rw [Nat.mul_comm]; exact nat_sum_le f ps hi h)

theorem nat_avg_ge (f : Nat → Nat) (ps : List Nat) (lo : Nat) (h : ∀ q ∈ ps, lo ≤ f q)
    (hne : 0 < ps.length) : lo ≤ (ps.map f).sum / ps.length :=
  (Nat.le_div_iff_mul_le hne).mpr (nat_sum_ge f ps lo h)

/-- The stored channel of an average is the plain quotient: nothing is lost in
the conversion to `uint8_t`. -/
theorem to_uint8_avg (f : Nat → Nat) (ps : List Nat) (h : ∀ q, f q < 64) :
    to_uint8 ((chan_sum f ps).tdiv ((ps.length : Nat) : Int)) = (ps.map f).sum / ps.length := by
  unfold chan_sum
  rw [← Int.ofNat_tdiv]
  apply to_uint8_natCast
  have := nat_avg_le f ps 63 (fun q _ => by have := h q; omega)
  omega

theorem average_bucket_of (ps : List Nat) (id : Nat) :
    average (bucket_of ps id) =
      ((ps.map red_of).sum / ps.length, (ps.map green_of).sum / ps.length,
       (ps.map blue_of).sum / ps.length) := by
  unfold average bucket_of
  simp only
  rw [to_uint8_avg red_of ps (fun q => by have := red_of_lt q; omega),
    to_uint8_avg green_of ps green_of_lt,
    to_uint8_avg blue_of ps (fun q => by have := blue_of_lt q; omega)]

/-! ## The sorted fine array -/

theorem fine_hist_node (s : List Nat) (k : Nat) : (fine_hist s k).node_num = k := rfl

theorem accumulate_level_4 (s : List Nat) :
    (accumulate s).level_4 = (List.range level_4_size).map (fine_hist s) := by
  rw [accumulate_eq]

theorem accumulate_level_2 (s : List Nat) :
    (accumulate s).level_2 = (List.range level_2_size).map (coarse_hist s) := by
  rw [accumulate_eq]

theorem sorted_length (s : List Nat) (sorted : List octree)
    (h : IsQsorted (accumulate s).level_4 sorted) : sorted.length = 4096 := by
  rw [h.1.length_eq, accumulate_level_4]
  simp [level_4_size]

theorem sorted_mem (s : List Nat) (sorted : List octree)
    (h : IsQsorted (accumulate s).level_4 sorted) (o : octree) (ho : o ∈ sorted) :
    o.node_num < 4096 ∧ o = fine_hist s o.node_num := by
  have h1 : o ∈ (accumulate s).level_4 := h.1.mem_iff.mp ho
  rw [accumulate_level_4] at h1
  simp only [List.mem_map, List.mem_range] at h1
  obtain ⟨k, hk, hko⟩ := h1
  have hn : o.node_num = k := by rw [← hko]; rfl
  rw [hn]
  exact ⟨hk, hko.symm⟩

theorem sorted_nodup (s : List Nat) (sorted : List octree)
    (h : IsQsorted (accumulate s).level_4 sorted) : (sorted.map octree.node_num).Nodup := by
  have h1 : (sorted.map octree.node_num).Perm ((accumulate s).level_4.map octree.node_num) :=
    h.1.map _
  rw [h1.nodup_iff, accumulate_level_4]
  simp only [List.map_map]
  have : (octree.node_num ∘ fine_hist s) = id := by
    funext k; rfl
  rw [this, List.map_id]
  exact List.nodup_range _

theorem qsort_comp_le (a b : octree) : qsort_comp a b ≤ 0 ↔ b.count ≤ a.count := by
  unfold qsort_comp
  by_cases h1 : a.count > b.count
  · simp [h1]; omega
  · by_cases h2 : a.count < b.count
    · simp [h1, h2]
    · simp [h1, h2]; omega

theorem sorted_desc (before sorted : List octree) (h : IsQsorted before sorted)
    (i j : Nat) (a b : octree) (hij : i < j) (ha : sorted[i]? = some a)
    (hb : sorted[j]? = some b) : b.count ≤ a.count := by
  obtain ⟨hi, rfl⟩ := List.getElem?_eq_some.mp ha
  obtain ⟨hj, rfl⟩ := List.getElem?_eq_some.mp hb
  exact (qsort_comp_le _ _).mp (List.pairwise_iff_getElem.mp h.2 i j hi hj hij)

theorem promoted_in_sublist (l4 : List octree) (n j : Nat) :
    (promoted_in l4 n j).Sublist l4 :=
  (List.filter_sublist _).trans (List.take_sublist _ _)

theorem promoted_in_mem (l4 : List octree) (n j : Nat) (o : octree)
    (ho : o ∈ promoted_in l4 n j) :
    o ∈ l4 ∧ o.count ≠ 0 ∧ coarse_of_node o.node_num = j := by
  refine ⟨(promoted_in_sublist l4 n j).subset ho, ?_⟩
  unfold promoted_in at ho
  rw [List.mem_filter] at ho
  simpa using ho.2

theorem promoted_ids_nodup (s : List Nat) (sorted : List octree)
    (h : IsQsorted (accumulate s).level_4 sorted) (j : Nat) :
    (promoted_ids sorted j).Nodup :=
  (sorted_nodup s sorted h).sublist ((promoted_in_sublist sorted 128 j).map _)

theorem promoted_sum (s : List Nat) (sorted : List octree)
    (h : IsQsorted (accumulate s).level_4 sorted) (j : Nat)
    (field : octree → Int) (f : Nat → Nat)
    (hf : ∀ k, field (fine_hist s k) = chan_sum f (s.filter (fun p => decide (fine_id p = k)))) :
    ((promoted_in sorted 128 j).map field).sum =
      chan_sum f (s.filter (fun p => decide (fine_id p ∈ promoted_ids sorted j))) := by
  rw [← chan_sum_ids f fine_id s _ (promoted_ids_nodup s sorted h j)]
  unfold promoted_ids
  rw [List.map_map]
  congr 1
  apply List.map_congr_left
  intro o ho
  have h1 := (sorted_mem s sorted h o (promoted_in_mem sorted 128 j o ho).1).2
  simp only [Function.comp]
  rw [← hf]
  exact congrArg field h1

theorem promoted_ids_coarse (sorted : List octree) (j p : Nat)
    (hp : fine_id p ∈ promoted_ids sorted j) : coarse_id p = j := by
  unfold promoted_ids at hp
  rw [List.mem_map] at hp
  obtain ⟨o, ho, he⟩ := hp
  have := (promoted_in_mem sorted 128 j o ho).2.2
  rw [he, coarse_of_fine] at this
  exact this

theorem fine_hist_count (s : List Nat) (k : Nat) :
    (fine_hist s k).count = chan_sum (fun _ => 1) (s.filter (fun p => decide (fine_id p = k))) := by
  rw [chan_sum_one]; rfl

/-- What is left in a coarse bucket is the sum of the pixels whose fine bucket
was not promoted. -/
theorem residual_eq (s : List Nat) (sorted : List octree)
    (h : IsQsorted (accumulate s).level_4 sorted) (j : Nat) :
    residual sorted (coarse_hist s j) j = bucket_of (rest_pixels s sorted j) j := by
  have hsplit := fun f => chan_sum_split f s (fun p => coarse_id p = j)
    (fun p => fine_id p ∈ promoted_ids sorted j) (fun p hp => promoted_ids_coarse sorted j p hp)
  unfold residual
  rw [promoted_sum s sorted h j octree.red red_of (fun _ => rfl),
    promoted_sum s sorted h j octree.green green_of (fun _ => rfl),
    promoted_sum s sorted h j octree.blue blue_of (fun _ => rfl),
    promoted_sum s sorted h j octree.count (fun _ => 1) (fine_hist_count s)]
  have hc : (coarse_hist s j).count =
      chan_sum (fun _ => 1) (s.filter (fun p => decide (coarse_id p = j))) := by
    rw [chan_sum_one]; rfl
  have hr : (coarse_hist s j).red = chan_sum red_of (s.filter (fun p => decide (coarse_id p = j))) := rfl
  have hg : (coarse_hist s j).green = chan_sum green_of (s.filter (fun p => decide (coarse_id p = j))) := rfl
  have hb : (coarse_hist s j).blue = chan_sum blue_of (s.filter (fun p => decide (coarse_id p = j))) := rfl
  rw [hc, hr, hg, hb, hsplit red_of, hsplit green_of, hsplit blue_of, hsplit (fun _ => 1)]
  unfold bucket_of rest_pixels
  rw [← chan_sum_one]
  simp only [add_sub_cancel_left]
  rfl

/-! ## The palette computed from a sorted histogram -/

theorem zero_palette_getElem? (m : Nat) (hm : m < 192) : zero_palette[m]? = some (0, 0, 0) := by
  unfold zero_palette palette_size
  rw [List.getElem?_replicate_of_lt hm]

theorem zero_palette_length : zero_palette.length = 192 := by
  unfold zero_palette palette_size
  exact List.length_replicate _ _

theorem level_2_get (s : List Nat) (j : Nat) (hj : j < 64) :
    (accumulate s).level_2[j]? = some (coarse_hist s j) := by
  rw [accumulate_level_2]
  simp [level_2_size, List.getElem?_map, List.getElem?_range hj]

theorem level_2_length (s : List Nat) : (accumulate s).level_2.length = 64 := by
  rw [accumulate_level_2]; simp [level_2_size]

theorem select_level_2 (s : List Nat) (sorted : List octree)
    (h : IsQsorted (accumulate s).level_4 sorted) (j : Nat) (hj : j < 64) :
    (select_palette sorted (accumulate s).level_2).2[j]? =
      some (residual sorted (coarse_hist s j) j) := by
  unfold select_palette
  simp only [level_4_node]
  rw [fine_loop_level_2 _ _ _ 128 j (by rw [sorted_length s sorted h]; omega),
    level_2_get s j hj, Option.map_some', foldl_sub_oct]
  rfl

theorem select_level_2_length (s : List Nat) (sorted : List octree) :
    (select_palette sorted (accumulate s).level_2).2.length = 64 := by
  unfold select_palette
  simp only
  rw [fine_loop_level_2_length, level_2_length]

theorem select_fine (s : List Nat) (sorted : List octree)
    (h : IsQsorted (accumulate s).level_4 sorted) (i : Nat) (hi : i < 128) (o : octree)
    (ho : sorted[i]? = some o) :
    (select_palette sorted (accumulate s).level_2).1[64 + i]? =
      some (if o.count ≠ 0 then average o else (0, 0, 0)) := by
  have hlen := sorted_length s sorted h
  unfold select_palette
  simp only [level_4_node, level_2_node]
  rw [coarse_loop_palette _ _ 64 (64 + i)
      (by rw [fine_loop_level_2_length, level_2_length])
      (by rw [fine_loop_palette_length, zero_palette_length]; omega),
    if_neg (by omega),
    fine_loop_palette _ _ _ 128 (64 + i) (by omega) (by rw [zero_palette_length]),
    if_pos (by omega), Nat.add_sub_cancel_left, ho]
  simp only
  by_cases hc : o.count ≠ 0
  · rw [if_pos hc, if_pos hc]
  · rw [if_neg hc, if_neg hc, zero_palette_getElem? _ (by omega)]

theorem select_coarse (s : List Nat) (sorted : List octree)
    (h : IsQsorted (accumulate s).level_4 sorted) (j : Nat) (hj : j < 64) :
    (select_palette sorted (accumulate s).level_2).1[j]? =
      some (if (residual sorted (coarse_hist s j) j).count ≠ 0
        then average (residual sorted (coarse_hist s j) j) else (0, 0, 0)) := by
  have hlen := sorted_length s sorted h
  have h2 := select_level_2 s sorted h j hj
  unfold select_palette at h2 ⊢
  simp only [level_4_node, level_2_node] at h2 ⊢
  rw [coarse_loop_palette _ _ 64 j
      (by rw [fine_loop_level_2_length, level_2_length])
      (by rw [fine_loop_palette_length, zero_palette_length]; omega),
    if_pos hj, h2]
  simp only
  by_cases hc : (residual sorted (coarse_hist s j) j).count ≠ 0
  · rw [if_pos hc, if_pos hc]
  · rw [if_neg hc, if_neg hc,
      fine_loop_palette _ _ _ 128 j (by omega) (by rw [zero_palette_length]),
      if_neg (by omega), zero_palette_getElem? _ (by omega)]

/-! ## The scan of `vga_conventer` -/

theorem vga_conventer_eq (l4 : List octree) (p : Nat) :
    vga_conventer l4 p =
      match (List.range 128).find? (fun i =>
          match l4[i]? with
          | some o => decide (o.node_num = fine_id p)
          | none => false) with
      | some i => (i + level_4_node) % 256
      | none => (coarse_id p + level_2_node) % 256 := rfl

theorem vga_cases (l4 : List octree) (p : Nat) :
    (∃ i o, i < 128 ∧ l4[i]? = some o ∧ o.node_num = fine_id p ∧
        vga_conventer l4 p = 128 + i) ∨
    ((∀ i o, i < 128 → l4[i]? = some o → o.node_num ≠ fine_id p) ∧
        vga_conventer l4 p = 64 + coarse_id p) := by
  rw [vga_conventer_eq]
  cases hf : (List.range 128).find? (fun i =>
      match l4[i]? with
      | some o => decide (o.node_num = fine_id p)
      | none => false) with
  | some i =>
    left
    have hi : i < 128 := List.mem_range.mp (List.mem_of_find?_eq_some hf)
    have hp := List.find?_some hf
    cases ho : l4[i]? with
    | none => rw [ho] at hp; simp at hp
    | some o =>
      rw [ho] at hp
      refine ⟨i, o, hi, ho, by simpa using hp, ?_⟩
      show (i + 128) % 256 = 128 + i
      omega
  | none =>
    right
    rw [List.find?_eq_none] at hf
    constructor
    · intro i o hi ho hn
      have := hf i (List.mem_range.mpr hi)
      rw [ho] at this
      simp [hn] at this
    · have := coarse_id_lt p
      show (coarse_id p + 64) % 256 = 64 + coarse_id p
      omega

theorem nodup_index_eq (l : List octree) (hnd : (l.map octree.node_num).Nodup)
    (i j : Nat) (a b : octree) (ha : l[i]? = some a) (hb : l[j]? = some b)
    (hab : a.node_num = b.node_num) : i = j := by
  obtain ⟨hi, rfl⟩ := List.getElem?_eq_some.mp ha
  obtain ⟨hj, rfl⟩ := List.getElem?_eq_some.mp hb
  have hi2 : i < (l.map octree.node_num).length := by simpa using hi
  have hj2 : j < (l.map octree.node_num).length := by simpa using hj
  have : (l.map octree.node_num)[i] = (l.map octree.node_num)[j] := by
    simpa using hab
  exact (List.Nodup.getElem_inj_iff hnd).mp this

theorem fine_hist_count_pos (s : List Nat) (p : Nat) (hp : p ∈ s) :
    0 < (fine_hist s (fine_id p)).count := by
  have : p ∈ s.filter (fun q => decide (fine_id q = fine_id p)) := by
    rw [List.mem_filter]; exact ⟨hp, by simp⟩
  have := List.length_pos_of_mem this
  show (0 : Int) < ((s.filter (fun q => decide (fine_id q = fine_id p))).length : Nat)
  omega

/-! ## Averages stay in their bucket -/

theorem fine_parts (p q : Nat) (h : fine_id q = fine_id p) :
    red_of q / 2 = red_of p / 2 ∧ green_of q / 4 = green_of p / 4 ∧
      blue_of q / 2 = blue_of p / 2 := by
  have := red_of_lt p; have := green_of_lt p; have := blue_of_lt p
  have := red_of_lt q; have := green_of_lt q; have := blue_of_lt q
  rw [fine_id_eq, fine_id_eq] at h
  omega

theorem coarse_parts (p q : Nat) (h : coarse_id q = coarse_id p) :
    red_of q / 8 = red_of p / 8 ∧ green_of q / 16 = green_of p / 16 ∧
      blue_of q / 8 = blue_of p / 8 := by
  have := red_of_lt p; have := green_of_lt p; have := blue_of_lt p
  have := red_of_lt q; have := green_of_lt q; have := blue_of_lt q
  rw [coarse_id_eq, coarse_id_eq] at h
  omega

/-- The average of pixels that agree on `f q / d` agrees with them on it. -/
theorem avg_div (f : Nat → Nat) (ps : List Nat) (d a : Nat) (hd : 0 < d)
    (hne : 0 < ps.length) (h : ∀ q ∈ ps, f q / d = a) :
    (ps.map f).sum / ps.length / d = a := by
  have hlo := nat_avg_ge f ps (d * a)
    (fun q hq => by
      have := h q hq
      have := Nat.div_mul_le_self (f q) d
      subst a; rw [Nat.mul_comm]; exact this) hne
  have hhi := nat_avg_le f ps (d * a + (d - 1))
    (fun q hq => by
      have h1 := h q hq
      have h2 := Nat.div_add_mod (f q) d
      have h3 := Nat.mod_lt (f q) hd
      rw [h1] at h2
      omega)
  apply Nat.div_eq_of_lt_le
  · rw [Nat.mul_comm]; exact hlo
  · rw [Nat.succ_mul, Nat.mul_comm]; omega

theorem avg_lt (f : Nat → Nat) (ps : List Nat) (n : Nat) (hn : 0 < n) (h : ∀ q, f q < n) :
    (ps.map f).sum / ps.length < n := by
  have := nat_avg_le f ps (n - 1) (fun q _ => by have := h q; omega)
  omega

theorem bucket_avg_fine (ps : List Nat) (id p : Nat) (hne : 0 < ps.length)
    (h : ∀ q ∈ ps, fine_id q = fine_id p) :
    fine_rgb (average (bucket_of ps id)).1 (average (bucket_of ps id)).2.1
      (average (bucket_of ps id)).2.2 = fine_id p := by
  rw [average_bucket_of]
  simp only
  rw [fine_rgb_eq _ _ _ (avg_lt green_of ps 64 (by omega) green_of_lt)
      (avg_lt blue_of ps 32 (by omega) blue_of_lt), fine_id_eq,
    avg_div red_of ps 2 _ (by omega) hne (fun q hq => (fine_parts p q (h q hq)).1),
    avg_div green_of ps 4 _ (by omega) hne (fun q hq => (fine_parts p q (h q hq)).2.1),
    avg_div blue_of ps 2 _ (by omega) hne (fun q hq => (fine_parts p q (h q hq)).2.2)]

theorem bucket_avg_coarse (ps : List Nat) (id p : Nat) (hne : 0 < ps.length)
    (h : ∀ q ∈ ps, coarse_id q = coarse_id p) :
    coarse_rgb (average (bucket_of ps id)).1 (average (bucket_of ps id)).2.1
      (average (bucket_of ps id)).2.2 = coarse_id p := by
  rw [average_bucket_of]
  simp only
  rw [coarse_rgb_eq _ _ _ (avg_lt green_of ps 64 (by omega) green_of_lt)
      (avg_lt blue_of ps 32 (by omega) blue_of_lt), coarse_id_eq,
    avg_div red_of ps 8 _ (by omega) hne (fun q hq => (coarse_parts p q (h q hq)).1),
    avg_div green_of ps 16 _ (by omega) hne (fun q hq => (coarse_parts p q (h q hq)).2.1),
    avg_div blue_of ps 8 _ (by omega) hne (fun q hq => (coarse_parts p q (h q hq)).2.2)]

theorem mem_take_index (l : List octree) (n : Nat) (o : octree) (ho : o ∈ l.take n) :
    ∃ i, i < n ∧ l[i]? = some o := by
  obtain ⟨i, hi⟩ := List.mem_iff_getElem?.mp ho
  rw [List.getElem?_take] at hi
  by_cases h : i < n
  · rw [if_pos h] at hi; exact ⟨i, h, hi⟩
  · rw [if_neg h] at hi; cases hi

theorem promoted_in_index (l4 : List octree) (n j : Nat) (o : octree)
    (ho : o ∈ promoted_in l4 n j) : ∃ i, i < n ∧ l4[i]? = some o := by
  unfold promoted_in at ho
  exact mem_take_index l4 n o (List.mem_filter.mp ho).1

/-- A pixel of the stream whose fine id is at no rank below 128 is among the
pixels left in its coarse bucket. -/
theorem mem_rest_pixels (s : List Nat) (sorted : List octree) (p : Nat) (hp : p ∈ s)
    (hno : ∀ i o, i < 128 → sorted[i]? = some o → o.node_num ≠ fine_id p) :
    p ∈ rest_pixels s sorted (coarse_id p) := by
  unfold rest_pixels
  rw [List.mem_filter]
  refine ⟨hp, ?_⟩
  simp only [decide_eq_true_eq, true_and]
  intro hmem
  unfold promoted_ids at hmem
  rw [List.mem_map] at hmem
  obtain ⟨o, ho, he⟩ := hmem
  obtain ⟨i, hi, hio⟩ := promoted_in_index sorted 128 _ o ho
  exact hno i o hi hio he

theorem rest_pixels_coarse (s : List Nat) (sorted : List octree) (j q : Nat)
    (hq : q ∈ rest_pixels s sorted j) : coarse_id q = j := by
  unfold rest_pixels at hq
  rw [List.mem_filter] at hq
  have := hq.2
  simp only [decide_eq_true_eq] at this
  exact this.1

/-! ## Main results on the quantiser -/

theorem qsort_model_spec (l : List octree) : IsQsorted l (qsort_model l) := by
  constructor
  · exact List.perm_insertionSort _ l
  · have htot : IsTotal octree (fun a b => qsort_comp a b ≤ 0) :=
      ⟨fun a b => by
        rw [qsort_comp_le, qsort_comp_le]; exact le_total _ _⟩
    have htr : IsTrans octree (fun a b => qsort_comp a b ≤ 0) :=
      ⟨fun a b c => by
        rw [qsort_comp_le, qsort_comp_le, qsort_comp_le]; intro h1 h2; exact le_trans h2 h1⟩
    exact List.sorted_insertionSort _ l

/-- C3: starting from the reset histogram, after `map_to_octree` has run on every
pixel of a stream, fine cell `k` holds the number of stream pixels whose fine id is
`k` and the sums of their full-precision red, green and blue; coarse cell `c` holds
the same for the pixels whose coarse id is `c`. -/
theorem accumulate_counts_and_sums (stream : List Nat) (k c : Nat)
    (hk : k < 4096) (hc : c < 64) :
    (∃ o, (accumulate stream).level_4[k]? = some o ∧
      o.count = (((stream.filter (fun p => decide (fine_id p = k))).length : Nat) : Int) ∧
      o.red = chan_sum red_of (stream.filter (fun p => decide (fine_id p = k))) ∧
      o.green = chan_sum green_of (stream.filter (fun p => decide (fine_id p = k))) ∧
      o.blue = chan_sum blue_of (stream.filter (fun p => decide (fine_id p = k)))) ∧
    (∃ o, (accumulate stream).level_2[c]? = some o ∧
      o.count = (((stream.filter (fun p => decide (coarse_id p = c))).length : Nat) : Int) ∧
      o.red = chan_sum red_of (stream.filter (fun p => decide (coarse_id p = c))) ∧
      o.green = chan_sum green_of (stream.filter (fun p => decide (coarse_id p = c))) ∧
      o.blue = chan_sum blue_of (stream.filter (fun p => decide (coarse_id p = c)))) :=
  ⟨⟨fine_hist stream k, level_4_getElem? stream k hk, rfl, rfl, rfl, rfl⟩,
   ⟨coarse_hist stream c, level_2_get stream c hc, rfl, rfl, rfl, rfl⟩⟩

theorem accumulate_counts_and_sums_witness :
    (0xF00 < 4096 ∧ 48 < 64) ∧
    ((∃ o, (accumulate sample_stream).level_4[0xF00]? = some o ∧
      o.count = (((sample_stream.filter (fun p => decide (fine_id p = 0xF00))).length : Nat) : Int) ∧
      o.red = chan_sum red_of (sample_stream.filter (fun p => decide (fine_id p = 0xF00))) ∧
      o.green = chan_sum green_of (sample_stream.filter (fun p => decide (fine_id p = 0xF00))) ∧
      o.blue = chan_sum blue_of (sample_stream.filter (fun p => decide (fine_id p = 0xF00)))) ∧
    (∃ o, (accumulate sample_stream).level_2[48]? = some o ∧
      o.count = (((sample_stream.filter (fun p => decide (coarse_id p = 48))).length : Nat) : Int) ∧
      o.red = chan_sum red_of (sample_stream.filter (fun p => decide (coarse_id p = 48))) ∧
      o.green = chan_sum green_of (sample_stream.filter (fun p => decide (coarse_id p = 48))) ∧
      o.blue = chan_sum blue_of (sample_stream.filter (fun p => decide (coarse_id p = 48))))) :=
  ⟨⟨by decide, by decide⟩,
   accumulate_counts_and_sums sample_stream 0xF00 48 (by decide) (by decide)⟩

theorem natCast_div_eq (a n : Nat) : ((a / n : Nat) : Int) = (a : Int) / (n : Int) :=
  Int.natCast_div a n

/-- C4: in the fine array sorted by `qsort_comp`, every bucket at a rank below 128
has a count at least that of every bucket at rank 128 or above; and for every rank
`i < 128`, `palette[64+i]` is the per-channel integer quotient sum / count of that
bucket when its count is not zero, and the zero colour otherwise. -/
theorem fine_slots_hold_top_averages (stream : List Nat) (sorted : List octree)
    (hq : IsQsorted (accumulate stream).level_4 sorted) :
    (∀ i j a b, i < 128 → 128 ≤ j → sorted[i]? = some a → sorted[j]? = some b →
      b.count ≤ a.count) ∧
    (∀ i, i < 128 → ∃ o, sorted[i]? = some o ∧
      (o.count ≠ 0 → ∃ r g b : Nat,
        (select_palette sorted (accumulate stream).level_2).1[64 + i]? = some (r, g, b) ∧
        (r : Int) = o.red / o.count ∧ (g : Int) = o.green / o.count ∧
        (b : Int) = o.blue / o.count) ∧
      (o.count = 0 →
        (select_palette sorted (accumulate stream).level_2).1[64 + i]? = some (0, 0, 0))) := by
  constructor
  · intro i j a b hi hj ha hb
    exact sorted_desc _ sorted hq i j a b (by omega) ha hb
  · intro i hi
    have hlen := sorted_length stream sorted hq
    have hget : sorted[i]? = some sorted[i] := List.getElem?_eq_getElem (by omega)
    refine ⟨sorted[i], hget, ?_, ?_⟩
    · intro hc
      have hsel := select_fine stream sorted hq i hi _ hget
      rw [if_pos hc] at hsel
      have hmem := (sorted_mem stream sorted hq _ (List.getElem_mem (by omega : i < sorted.length))).2
      rw [hmem] at hsel ⊢
      unfold fine_hist at hsel ⊢
      rw [average_bucket_of] at hsel
      exact ⟨_, _, _, hsel, natCast_div_eq _ _, natCast_div_eq _ _, natCast_div_eq _ _⟩
    · intro hc
      have hsel := select_fine stream sorted hq i hi _ hget
      rw [if_neg (by simp [hc])] at hsel
      exact hsel

theorem fine_slots_hold_top_averages_witness :
    IsQsorted (accumulate sample_stream).level_4 sample_sorted ∧
    ((∀ i j a b, i < 128 → 128 ≤ j → sample_sorted[i]? = some a → sample_sorted[j]? = some b →
      b.count ≤ a.count) ∧
    (∀ i, i < 128 → ∃ o, sample_sorted[i]? = some o ∧
      (o.count ≠ 0 → ∃ r g b : Nat,
        (select_palette sample_sorted (accumulate sample_stream).level_2).1[64 + i]?
          = some (r, g, b) ∧
        (r : Int) = o.red / o.count ∧ (g : Int) = o.green / o.count ∧
        (b : Int) = o.blue / o.count) ∧
      (o.count = 0 →
        (select_palette sample_sorted (accumulate sample_stream).level_2).1[64 + i]?
          = some (0, 0, 0)))) :=
  ⟨qsort_model_spec (accumulate sample_stream).level_4,
   fine_slots_hold_top_averages sample_stream sample_sorted (qsort_model_spec (accumulate sample_stream).level_4)⟩

/-- C5: for every coarse id `j < 64`, with the residual of `j` being the
accumulated coarse bucket minus the counts and sums of the promoted fine buckets
whose two top bits per channel form `j`: `palette[j]` is the per-channel integer
quotient residual sum / residual count when the residual count is not zero, and
the zero colour otherwise. -/
theorem coarse_slots_hold_residual_averages (stream : List Nat) (sorted : List octree)
    (hq : IsQsorted (accumulate stream).level_4 sorted) (j : Nat) (hj : j < 64) :
    ∃ c, (accumulate stream).level_2[j]? = some c ∧
      ((residual sorted c j).count ≠ 0 → ∃ r g b : Nat,
        (select_palette sorted (accumulate stream).level_2).1[j]? = some (r, g, b) ∧
        (r : Int) = (residual sorted c j).red / (residual sorted c j).count ∧
        (g : Int) = (residual sorted c j).green / (residual sorted c j).count ∧
        (b : Int) = (residual sorted c j).blue / (residual sorted c j).count) ∧
      ((residual sorted c j).count = 0 →
        (select_palette sorted (accumulate stream).level_2).1[j]? = some (0, 0, 0)) := by
  refine ⟨coarse_hist stream j, level_2_get stream j hj, ?_, ?_⟩
  · intro hc
    have hsel := select_coarse stream sorted hq j hj
    rw [if_pos hc] at hsel
    rw [residual_eq stream sorted hq j] at hsel ⊢
    rw [average_bucket_of] at hsel
    exact ⟨_, _, _, hsel, natCast_div_eq _ _, natCast_div_eq _ _, natCast_div_eq _ _⟩
  · intro hc
    have hsel := select_coarse stream sorted hq j hj
    rw [if_neg (by simp [hc])] at hsel
    exact hsel

theorem coarse_slots_hold_residual_averages_witness :
    (IsQsorted (accumulate sample_stream).level_4 sample_sorted ∧ 3 < 64) ∧
    ∃ c, (accumulate sample_stream).level_2[3]? = some c ∧
      ((residual sample_sorted c 3).count ≠ 0 → ∃ r g b : Nat,
        (select_palette sample_sorted (accumulate sample_stream).level_2).1[3]? = some (r, g, b) ∧
        (r : Int) = (residual sample_sorted c 3).red / (residual sample_sorted c 3).count ∧
        (g : Int) = (residual sample_sorted c 3).green / (residual sample_sorted c 3).count ∧
        (b : Int) = (residual sample_sorted c 3).blue / (residual sample_sorted c 3).count) ∧
      ((residual sample_sorted c 3).count = 0 →
        (select_palette sample_sorted (accumulate sample_stream).level_2).1[3]?
          = some (0, 0, 0)) :=
  ⟨⟨qsort_model_spec (accumulate sample_stream).level_4, by decide⟩,
   coarse_slots_hold_residual_averages sample_stream sample_sorted (qsort_model_spec (accumulate sample_stream).level_4) 3
     (by decide)⟩

/-! ## Conservation of the pixel count -/

theorem sub_bucket_count_sum (a : List octree) (i : Nat) (o : octree) (hi : i < a.length) :
    ((sub_bucket a i o).map octree.count).sum = (a.map octree.count).sum - o.count := by
  induction a generalizing i with
  | nil => simp at hi
  | cons c a ih =>
    cases i with
    | zero =>
      simp only [sub_bucket, List.getElem?_cons_zero, List.set_cons_zero, List.map_cons,
        List.sum_cons, sub_oct]
      ring
    | succ i =>
      have hi2 : i < a.length := by simpa using hi
      have := ih i hi2
      unfold sub_bucket at this ⊢
      rw [List.getElem?_cons_succ]
      cases hget : a[i]? with
      | none =>
        rw [List.getElem?_eq_getElem hi2] at hget
        cases hget
      | some x =>
        rw [hget] at this
        simp only at this ⊢
        rw [List.set_cons_succ]
        simp only [List.map_cons, List.sum_cons]
        rw [this]; ring

theorem fine_loop_count_sum (l4 l2 : List octree) (pal0 : List color) (n : Nat)
    (hn : n ≤ l4.length) (h2 : l2.length = 64) :
    (((List.range n).foldl (fine_step l4) (pal0, l2)).2.map octree.count).sum +
      ((l4.take n).map octree.count).sum = (l2.map octree.count).sum := by
  induction n with
  | zero => simp
  | succ n ih =>
    have hlt : n < l4.length := hn
    have hget : l4[n]? = some l4[n] := List.getElem?_eq_getElem hlt
    have ih2 := ih (Nat.le_of_lt hlt)
    rw [List.range_succ, List.foldl_append, List.foldl_cons, List.foldl_nil,
      List.take_succ, hget]
    simp only [Option.toList, List.map_append, List.sum_append, List.map_cons, List.map_nil,
      List.sum_cons, List.sum_nil, add_zero]
    by_cases hc : l4[n].count ≠ 0
    · rw [fine_step_pos l4 _ n _ hget hc]
      simp only
      rw [sub_bucket_count_sum _ _ _
        (by rw [fine_loop_level_2_length, h2]; exact coarse_of_node_lt _)]
      rw [← ih2]; ring
    · rw [fine_step_neg l4 _ n _ hget hc]
      have h0 : l4[n].count = 0 := by
        by_contra h; exact hc h
      rw [h0, ← ih2]; ring

theorem coarse_total (s : List Nat) :
    ((accumulate s).level_2.map octree.count).sum = (s.length : Nat) := by
  rw [accumulate_level_2, List.map_map]
  have h1 : (octree.count ∘ coarse_hist s) =
      fun j => chan_sum (fun _ => 1) (s.filter (fun p => decide (coarse_id p = j))) := by
    funext j
    simp only [Function.comp]
    rw [chan_sum_one]; rfl
  rw [h1, chan_sum_ids (fun _ => 1) coarse_id s _ (List.nodup_range _), chan_sum_one]
  have h2 : s.filter (fun p => decide (coarse_id p ∈ List.range level_2_size)) = s := by
    rw [List.filter_eq_self]
    intro p _
    simp only [List.mem_range, decide_eq_true_eq, level_2_size]
    exact coarse_id_lt p
  rw [h2]

/-- C6: for an image of width*height pixels, after accumulation and the
subtraction step of `read_photo`, the counts of the fine buckets at ranks 0..127 of
the sorted array plus the counts left in the 64 coarse buckets add up to
width*height. -/
theorem pixel_count_is_conserved (stream : List Nat) (sorted : List octree)
    (width height : Nat) (hlen : stream.length = width * height)
    (hq : IsQsorted (accumulate stream).level_4 sorted) :
    ((sorted.take 128).map octree.count).sum +
      ((select_palette sorted (accumulate stream).level_2).2.map octree.count).sum =
        ((width * height : Nat) : Int) := by
  have h := fine_loop_count_sum sorted (accumulate stream).level_2 zero_palette 128
    (by rw [sorted_length stream sorted hq]; omega) (level_2_length stream)
  rw [coarse_total] at h
  rw [← hlen, ← h]
  unfold select_palette
  simp only [level_4_node]
  ring

theorem pixel_count_is_conserved_witness :
    (sample_stream.length = 2 * 1 ∧
      IsQsorted (accumulate sample_stream).level_4
        sample_sorted) ∧
    ((sample_sorted.take 128).map octree.count).sum +
      ((select_palette sample_sorted
        (accumulate sample_stream).level_2).2.map octree.count).sum =
        ((2 * 1 : Nat) : Int) :=
  ⟨⟨rfl, qsort_model_spec (accumulate sample_stream).level_4⟩,
   pixel_count_is_conserved sample_stream sample_sorted 2 1 rfl (qsort_model_spec (accumulate sample_stream).level_4)⟩

/-! ## The index chosen for a pixel of the stream -/

theorem promoted_at_unique (s : List Nat) (sorted : List octree)
    (hq : IsQsorted (accumulate s).level_4 sorted) (i j k : Nat) (o : octree)
    (hi : sorted[i]? = some o) (hk : o.node_num = k) (hj : promoted_at sorted j k) :
    j = i := by
  obtain ⟨_, o2, ho2, _, hk2⟩ := hj
  exact nodup_index_eq sorted (sorted_nodup s sorted hq) j i o2 o ho2 hi (by rw [hk2, hk])

/-- C7: for a pixel `p` of the accumulated stream, `vga_conventer` returns
64 + (64 + i) when the fine bucket of `p` was promoted at rank `i < 128`, and
64 + (coarse id of p) when it was not promoted; the result lies in [64, 255]. -/
theorem vga_index_of_stream_pixel (stream : List Nat) (sorted : List octree)
    (hq : IsQsorted (accumulate stream).level_4 sorted) (p : Nat) (hp : p ∈ stream) :
    (∀ i, promoted_at sorted i (fine_id p) → vga_conventer sorted p = 64 + (64 + i)) ∧
    ((¬ ∃ i, promoted_at sorted i (fine_id p)) →
      vga_conventer sorted p = 64 + coarse_id p) ∧
    64 ≤ vga_conventer sorted p ∧ vga_conventer sorted p ≤ 255 := by
  have hcl := coarse_id_lt p
  rcases vga_cases sorted p with ⟨i, o, hi, ho, hn, hv⟩ | ⟨hno, hv⟩
  · have hpos : o.count ≠ 0 := by
      have hm := (sorted_mem stream sorted hq o (List.mem_iff_getElem?.mpr ⟨i, ho⟩)).2
      rw [hn] at hm
      have := fine_hist_count_pos stream p hp
      rw [hm]; omega
    refine ⟨?_, ?_, by omega, by omega⟩
    · intro j hj
      have := promoted_at_unique stream sorted hq i j _ o ho hn hj
      omega
    · intro hnone
      exact absurd ⟨i, hi, o, ho, hpos, hn⟩ hnone
  · refine ⟨?_, fun _ => hv, by omega, by omega⟩
    intro j hj
    obtain ⟨hj1, o, ho, _, hk⟩ := hj
    exact absurd hk (hno j o hj1 ho)

theorem vga_index_of_stream_pixel_witness :
    (IsQsorted (accumulate sample_stream).level_4
        sample_sorted ∧ 0x1F ∈ sample_stream) ∧
    ((∀ i, promoted_at sample_sorted i (fine_id 0x1F) →
        vga_conventer sample_sorted 0x1F = 64 + (64 + i)) ∧
    ((¬ ∃ i, promoted_at sample_sorted i (fine_id 0x1F)) →
      vga_conventer sample_sorted 0x1F
        = 64 + coarse_id 0x1F) ∧
    64 ≤ vga_conventer sample_sorted 0x1F ∧
    vga_conventer sample_sorted 0x1F ≤ 255) :=
  ⟨⟨qsort_model_spec (accumulate sample_stream).level_4, by simp [sample_stream]⟩,
   vga_index_of_stream_pixel sample_stream sample_sorted (qsort_model_spec (accumulate sample_stream).level_4) 0x1F (by simp [sample_stream])⟩

/-- C1: for every pixel `p` of the accumulated stream, the palette entry at slot
`vga_conventer(p) - 64` was computed from a bucket with non-zero count, and its
averaged channels lie in the bucket of `p`: the fine id of the entry equals the fine
id of `p` when the index is 128 or more, and the coarse id of the entry equals the
coarse id of `p` when the index is below 128. -/
theorem remapping_is_sound (stream : List Nat) (sorted : List octree)
    (hq : IsQsorted (accumulate stream).level_4 sorted) (p : Nat) (hp : p ∈ stream) :
    ∃ r g b : Nat,
      (select_palette sorted (accumulate stream).level_2).1[vga_conventer sorted p - 64]? =
        some (r, g, b) ∧
      (128 ≤ vga_conventer sorted p →
        ∃ o, sorted[vga_conventer sorted p - 128]? = some o ∧ o.count ≠ 0 ∧
          average o = (r, g, b) ∧ fine_rgb r g b = fine_id p) ∧
      (vga_conventer sorted p < 128 →
        ∃ c, (select_palette sorted (accumulate stream).level_2).2[vga_conventer sorted p - 64]?
            = some c ∧ c.count ≠ 0 ∧
          average c = (r, g, b) ∧ coarse_rgb r g b = coarse_id p) := by
  have hcl := coarse_id_lt p
  rcases vga_cases sorted p with ⟨i, o, hi, ho, hn, hv⟩ | ⟨hno, hv⟩
  · have hm := (sorted_mem stream sorted hq o (List.mem_iff_getElem?.mpr ⟨i, ho⟩)).2
    rw [hn] at hm
    have hcpos := fine_hist_count_pos stream p hp
    have hpos : o.count ≠ 0 := by rw [hm]; omega
    have hsel := select_fine stream sorted hq i hi o ho
    rw [if_pos hpos] at hsel
    have e1 : vga_conventer sorted p - 64 = 64 + i := by omega
    have e2 : vga_conventer sorted p - 128 = i := by omega
    rw [e1, e2]
    refine ⟨(average o).1, (average o).2.1, (average o).2.2, hsel, ?_, ?_⟩
    · intro _
      refine ⟨o, ho, hpos, rfl, ?_⟩
      rw [hm]
      unfold fine_hist
      apply bucket_avg_fine
      · have : (0 : Int) <
            (((stream.filter (fun q => decide (fine_id q = fine_id p))).length : Nat) : Int) :=
          hcpos
        omega
      · intro q hq2
        simpa using (List.mem_filter.mp hq2).2
    · intro h; omega
  · have hmem := mem_rest_pixels stream sorted p hp hno
    have hres := residual_eq stream sorted hq (coarse_id p)
    have hlenpos : 0 < (rest_pixels stream sorted (coarse_id p)).length :=
      List.length_pos_of_mem hmem
    have hpos : (residual sorted (coarse_hist stream (coarse_id p)) (coarse_id p)).count ≠ 0 := by
      rw [hres]
      show (((rest_pixels stream sorted (coarse_id p)).length : Nat) : Int) ≠ 0
      omega
    have hsel := select_coarse stream sorted hq (coarse_id p) hcl
    rw [if_pos hpos] at hsel
    have hl2 := select_level_2 stream sorted hq (coarse_id p) hcl
    have e1 : vga_conventer sorted p - 64 = coarse_id p := by omega
    rw [e1]
    refine ⟨(average (residual sorted (coarse_hist stream (coarse_id p)) (coarse_id p))).1,
      (average (residual sorted (coarse_hist stream (coarse_id p)) (coarse_id p))).2.1,
      (average (residual sorted (coarse_hist stream (coarse_id p)) (coarse_id p))).2.2,
      hsel, ?_, ?_⟩
    · intro h; omega
    · intro _
      refine ⟨_, hl2, hpos, rfl, ?_⟩
      rw [hres]
      exact bucket_avg_coarse _ _ p hlenpos
        (fun q hq2 => rest_pixels_coarse stream sorted _ q hq2)

theorem remapping_is_sound_witness :
    (IsQsorted (accumulate sample_stream).level_4
        sample_sorted ∧ 0x1F ∈ sample_stream) ∧
    ∃ r g b : Nat,
      (select_palette sample_sorted
          (accumulate sample_stream).level_2).1[
            vga_conventer sample_sorted 0x1F - 64]? =
        some (r, g, b) ∧
      (128 ≤ vga_conventer sample_sorted 0x1F →
        ∃ o, sample_sorted[
              vga_conventer sample_sorted 0x1F - 128]?
            = some o ∧ o.count ≠ 0 ∧
          average o = (r, g, b) ∧ fine_rgb r g b = fine_id 0x1F) ∧
      (vga_conventer sample_sorted 0x1F < 128 →
        ∃ c, (select_palette sample_sorted
              (accumulate sample_stream).level_2).2[
                vga_conventer sample_sorted 0x1F - 64]?
            = some c ∧ c.count ≠ 0 ∧
          average c = (r, g, b) ∧ coarse_rgb r g b = coarse_id 0x1F) :=
  ⟨⟨qsort_model_spec (accumulate sample_stream).level_4, by simp [sample_stream]⟩,
   remapping_is_sound sample_stream sample_sorted (qsort_model_spec (accumulate sample_stream).level_4) 0x1F (by simp [sample_stream])⟩

/-! ## The two passes of `read_photo` -/

theorem scan_order_length (width height : Nat) :
    (scan_order width height).length = width * height := by
  unfold scan_order
  rw [List.length_flatMap]
  have hc : (List.length ∘ fun y : Nat => (List.range width).map (fun x => (y, x))) =
      fun _ => width := by
    funext y; simp
  rw [hc, List.map_const', List.sum_replicate, List.length_reverse, List.length_range,
    smul_eq_mul, Nat.mul_comm]

theorem scan_order_mem (width height : Nat) (c : Nat × Nat) (hc : c ∈ scan_order width height) :
    c.1 < height ∧ c.2 < width := by
  unfold scan_order at hc
  simp only [List.mem_flatMap, List.mem_reverse, List.mem_range, List.mem_map] at hc
  obtain ⟨y, hy, x, hx, rfl⟩ := hc
  exact ⟨hy, hx⟩

theorem first_pass_ok (cs : List (Nat × Nat)) (ws : List Nat) (st : Hist)
    (h : cs.length ≤ ws.length) :
    first_pass cs ws st = (true, (ws.take cs.length).foldl map_to_octree st) := by
  induction cs generalizing ws st with
  | nil => simp [first_pass]
  | cons c cs ih =>
    cases ws with
    | nil => simp at h
    | cons w ws =>
      simp only [first_pass, List.length_cons, List.take_succ_cons, List.foldl_cons]
      exact ih ws _ (by simpa using h)

theorem first_pass_short (cs : List (Nat × Nat)) (ws : List Nat) (st : Hist)
    (h : ws.length < cs.length) : (first_pass cs ws st).1 = false := by
  induction cs generalizing ws st with
  | nil => simp at h
  | cons c cs ih =>
    cases ws with
    | nil => simp [first_pass]
    | cons w ws =>
      simp only [first_pass]
      exact ih ws _ (by simpa using h)

theorem store_pixel_length (l4 : List octree) (width : Nat) (img : List Nat) (y x pixel : Nat) :
    (store_pixel l4 width img y x pixel).length = img.length := by
  unfold store_pixel
  split <;> simp

theorem store_pixel_other (l4 : List octree) (width : Nat) (img : List Nat) (y x pixel m : Nat)
    (hm : (width : Int) * y + x - 2 ≠ m) :
    (store_pixel l4 width img y x pixel)[m]? = img[m]? := by
  unfold store_pixel
  split
  · rfl
  · rw [List.getElem?_set_ne]
    omega

/-- The second pass succeeds on a file that is long enough, and leaves alone every
position that no visited pair is stored at. -/
theorem second_pass_ok (l4 : List octree) (width : Nat) (cs : List (Nat × Nat))
    (ws img : List Nat) (h : cs.length ≤ ws.length) :
    ∃ img2, second_pass l4 width cs ws img = some img2 ∧ img2.length = img.length ∧
      ∀ m : Nat, (∀ c ∈ cs, (width : Int) * c.1 + c.2 - 2 ≠ m) → img2[m]? = img[m]? := by
  induction cs generalizing ws img with
  | nil => exact ⟨img, rfl, rfl, fun _ _ => rfl⟩
  | cons c cs ih =>
    cases ws with
    | nil => simp at h
    | cons w ws =>
      obtain ⟨y, x⟩ := c
      obtain ⟨img2, h1, h2, h3⟩ := ih ws (store_pixel l4 width img y x w) (by simpa using h)
      refine ⟨img2, by simpa [second_pass] using h1, by rw [h2, store_pixel_length], ?_⟩
      intro m hm
      rw [h3 m (fun c hc => hm c (by simp [hc]))]
      exact store_pixel_other l4 width img y x w m (hm (y, x) (by simp))

theorem foldl_set_range (f : Nat → octree) (l : List octree) (m k : Nat) (hm : m ≤ l.length) :
    ((List.range m).foldl (fun a i => a.set i (f i)) l)[k]? =
      if k < m then some (f k) else l[k]? := by
  induction m with
  | zero => simp
  | succ m ih =>
    have ih2 := ih (by omega)
    have hlen : ((List.range m).foldl (fun a i => a.set i (f i)) l).length = l.length := by
      clear ih ih2
      induction m with
      | zero => simp
      | succ m ihm =>
        rw [List.range_succ, List.foldl_append, List.foldl_cons, List.foldl_nil,
          List.length_set]
        exact ihm (by omega)
    rw [List.range_succ, List.foldl_append, List.foldl_cons, List.foldl_nil]
    by_cases hk : k = m
    · subst hk
      rw [List.getElem?_set_self (by omega), if_pos (by omega)]
    · rw [List.getElem?_set_ne (fun e => hk e.symm), ih2]
      by_cases hlt : k < m
      · rw [if_pos hlt, if_pos (by omega)]
      · rw [if_neg hlt, if_neg (by omega)]

theorem foldl_set_range_eq (f : Nat → octree) (l : List octree) (n : Nat) (hn : l.length = n) :
    (List.range n).foldl (fun a i => a.set i (f i)) l = (List.range n).map f := by
  apply List.ext_getElem?
  intro k
  rw [foldl_set_range f l n k (by omega)]
  by_cases hk : k < n
  · rw [if_pos hk]
    simp [List.getElem?_map, List.getElem?_range hk]
  · rw [if_neg hk, List.getElem?_eq_none (by omega), List.getElem?_eq_none (by simp; omega)]

/-- The reset loops leave the reset histogram whatever the arrays held before. -/
theorem reset_levels_eq (prev : Hist) (h4 : prev.level_4.length = 4096)
    (h2 : prev.level_2.length = 64) : reset_levels prev = reset_hist := by
  unfold reset_levels reset_hist
  rw [foldl_set_range_eq _ _ level_4_size h4, foldl_set_range_eq _ _ level_2_size h2]

/-- The sub-results of `read_photo` on a file whose header is within the limits
and that holds enough pixels: the stream `s` of the first pass, the sorted fine
array, the palette, and the buffer written by the second pass from the words of
the whole file. -/
theorem read_photo_eq (maxw maxh : Nat) (qsort : List octree → List octree) (mem : Nat → Nat)
    (prev : Hist) (width height : Nat) (pixels img2 : List Nat)
    (h4 : prev.level_4.length = 4096) (h2 : prev.level_2.length = 64)
    (hw : width ≤ maxw) (hh : height ≤ maxh) (hlen : width * height ≤ pixels.length)
    (hsp : second_pass (qsort (accumulate (pixels.take (width * height))).level_4) width
      (scan_order width height) (width :: height :: pixels)
      ((List.range (width * height)).map mem) = some img2) :
    (read_photo maxw maxh qsort mem prev (width :: height :: pixels)).1 =
      some ⟨⟨width, height⟩,
        (select_palette (qsort (accumulate (pixels.take (width * height))).level_4)
          (accumulate (pixels.take (width * height))).level_2).1, img2⟩ := by
  have hcs := scan_order_length width height
  have hfp := first_pass_ok (scan_order width height) pixels (reset_levels prev)
    (by rw [hcs]; exact hlen)
  rw [hcs] at hfp
  unfold read_photo
  simp only
  rw [if_neg (by omega), hfp, reset_levels_eq prev h4 h2]
  simp only [Bool.true_eq_false, if_false]
  unfold accumulate at hsp ⊢
  rw [hsp]

/-- Result of `read_photo` on a file whose header is within the limits and that
holds enough pixels. -/
theorem read_photo_ok (maxw maxh : Nat) (qsort : List octree → List octree) (mem : Nat → Nat)
    (prev : Hist) (width height : Nat) (pixels : List Nat)
    (hw : width ≤ maxw) (hh : height ≤ maxh) (hlen : width * height ≤ pixels.length) :
    ∃ ph, (read_photo maxw maxh qsort mem prev (width :: height :: pixels)).1 = some ph ∧
      ph.hdr = ⟨width, height⟩ ∧ ph.img.length = width * height ∧
      ∀ m : Nat, width * height ≤ m + 2 → m < width * height → ph.img[m]? = some (mem m) := by
  have hcs := scan_order_length width height
  have hfp := first_pass_ok (scan_order width height) pixels (reset_levels prev)
    (by rw [hcs]; exact hlen)
  obtain ⟨img2, h1, h2, h3⟩ := second_pass_ok
    (qsort ((pixels.take (scan_order width height).length).foldl map_to_octree
      (reset_levels prev)).level_4) width
    (scan_order width height) (width :: height :: pixels)
    ((List.range (width * height)).map mem)
    (by rw [hcs]; simp only [List.length_cons]; omega)
  have key : (read_photo maxw maxh qsort mem prev (width :: height :: pixels)).1 =
      some ⟨⟨width, height⟩,
        (select_palette
          (qsort ((pixels.take (scan_order width height).length).foldl map_to_octree
            (reset_levels prev)).level_4)
          ((pixels.take (scan_order width height).length).foldl map_to_octree
            (reset_levels prev)).level_2).1, img2⟩ := by
    unfold read_photo
    simp only
    rw [if_neg (by omega), hfp]
    simp only [Bool.true_eq_false, if_false, h1]
  refine ⟨_, key, rfl, by simpa using h2, ?_⟩
  · intro m hm1 hm2
    show img2[m]? = some (mem m)
    rw [h3 m]
    · simp [List.getElem?_map, List.getElem?_range hm2]
    · intro c hc
      have hb := scan_order_mem width height c hc
      have hy : c.1 + 1 ≤ height := hb.1
      have hmul : width * (c.1 + 1) ≤ width * height := Nat.mul_le_mul_left _ hy
      have hmul2 : ((width * (c.1 + 1) : Nat) : Int) ≤ ((width * height : Nat) : Int) := by
        exact_mod_cast hmul
      push_cast at hmul2
      have hx : (c.2 : Int) < width := by exact_mod_cast hb.2
      have hm1' : ((width * height : Nat) : Int) ≤ m + 2 := by exact_mod_cast hm1
      push_cast at hm1'
      intro he
      nlinarith

theorem vga_conventer_ge (l4 : List octree) (p : Nat) : 64 ≤ vga_conventer l4 p := by
  rcases vga_cases l4 p with ⟨i, o, _, _, _, hv⟩ | ⟨_, hv⟩ <;> omega

theorem reset_hist_sizes : reset_hist.level_4.length = 4096 ∧ reset_hist.level_2.length = 64 := by
  unfold reset_hist
  simp [level_4_size, level_2_size]

/-- C2 (the code at a failing input): for the 2x2 file with pixels
0xF800, 0xF800, 0x1F, 0x1F, limits of 1024 by 1024 and a pixel buffer that was
zero when allocated, `read_photo` succeeds with the buffer
`[vga_conventer 2, vga_conventer 2, 0, 0]`: the first two cells hold the indices of
the two header words (width 2, height 2), and the cells `img[2*1 + 0]` and
`img[2*1 + 1]` still hold the zero they were allocated with, whereas
`vga_conventer` never returns an index below 64. -/
theorem read_photo_misplaces_pixels :
    ∀ qsort : List octree → List octree,
      (read_photo 1024 1024 qsort (fun _ => 0) reset_hist
          [2, 2, 0xF800, 0xF800, 0x1F, 0x1F]).1 =
        some ⟨⟨2, 2⟩,
          (select_palette (qsort (accumulate [0xF800, 0xF800, 0x1F, 0x1F]).level_4)
            (accumulate [0xF800, 0xF800, 0x1F, 0x1F]).level_2).1,
          [vga_conventer (qsort (accumulate [0xF800, 0xF800, 0x1F, 0x1F]).level_4) 2,
           vga_conventer (qsort (accumulate [0xF800, 0xF800, 0x1F, 0x1F]).level_4) 2,
           0, 0]⟩ ∧
      ∀ l4 p, 64 ≤ vga_conventer l4 p := by
  intro qsort
  refine ⟨?_, vga_conventer_ge⟩
  have h : scan_order 2 2 = [(1, 0), (1, 1), (0, 0), (0, 1)] := by decide
  exact read_photo_eq 1024 1024 qsort (fun _ => 0) reset_hist 2 2
    [0xF800, 0xF800, 0x1F, 0x1F] _ reset_hist_sizes.1 reset_hist_sizes.2
    (by omega) (by omega) (by simp)
    (by rw [h]; simp [second_pass, store_pixel])

/-! ## prep_room -/

theorem and_3F_mod (x : Nat) : (x &&& bitmask_6) % 256 = x &&& 0x3F := by
  have : x &&& 0x3F ≤ 0x3F := Nat.and_le_right
  unfold bitmask_6
  omega

/-- C8: `prep_room` makes exactly 192 `set_palette` calls, the `i`-th one being
`set_palette (64 + i, (palette[i][0] << 1) & 0x3F, palette[i][1] & 0x3F,
(palette[i][2] << 1) & 0x3F)`; no call names a register below 64. -/
theorem prep_room_programs_registers (r : room_t) (i red green blue : Nat) (hi : i < 192)
    (hpal : r.photo.palette[i]? = some (red, green, blue)) :
    (prep_room r).2.length = 192 ∧
    (prep_room r).2[i]? =
      some (64 + i, (red <<< 1) &&& 0x3F, green &&& 0x3F, (blue <<< 1) &&& 0x3F) ∧
    (∀ c ∈ (prep_room r).2, 64 ≤ c.1 ∧ c.1 ≤ 255) := by
  refine ⟨by simp [prep_room], ?_, ?_⟩
  · unfold prep_room
    simp only [List.getElem?_map, List.getElem?_range hi, Option.map_some', List.getD,
      List.get?_eq_getElem?, hpal,
      Option.getD_some, and_3F_mod]
  · intro c hc
    unfold prep_room at hc
    simp only [List.mem_map, List.mem_range] at hc
    obtain ⟨k, hk, rfl⟩ := hc
    simp only
    omega

theorem prep_room_programs_registers_witness :
    (5 < 192 ∧
      (room_t.mk ⟨⟨1, 1⟩, List.replicate 192 (31, 63, 31), [200]⟩ []).photo.palette[5]? =
        some (31, 63, 31)) ∧
    ((prep_room (room_t.mk ⟨⟨1, 1⟩, List.replicate 192 (31, 63, 31), [200]⟩ [])).2.length = 192 ∧
    (prep_room (room_t.mk ⟨⟨1, 1⟩, List.replicate 192 (31, 63, 31), [200]⟩ [])).2[5]? =
      some (64 + 5, (31 <<< 1) &&& 0x3F, 63 &&& 0x3F, (31 <<< 1) &&& 0x3F) ∧
    (∀ c ∈ (prep_room (room_t.mk ⟨⟨1, 1⟩, List.replicate 192 (31, 63, 31), [200]⟩ [])).2,
      64 ≤ c.1 ∧ c.1 ≤ 255)) :=
  ⟨⟨by decide, List.getElem?_replicate_of_lt (by decide)⟩,
   prep_room_programs_registers _ 5 31 63 31 (by decide)
     (List.getElem?_replicate_of_lt (by decide))⟩

/-! ## Scan-line compositor -/

theorem read_at_some (a : List Nat) (i : Int) (h0 : 0 ≤ i) (h1 : i < a.length) :
    ∃ v, read_at a i = some v := by
  unfold read_at
  rw [if_pos h0]
  have : i.toNat < a.length := by omega
  exact ⟨a[i.toNat], List.getElem?_eq_getElem this⟩

theorem mul_add_lt_mul (w h r c : Int) (hr0 : 0 ≤ r) (hr : r < h) (hc0 : 0 ≤ c) (hc : c < w) :
    0 ≤ r * w + c ∧ r * w + c < w * h := by
  constructor
  · have : 0 ≤ r * w := by
      apply mul_nonneg hr0; omega
    omega
  · have h1 : (r + 1) * w ≤ h * w := by
      apply mul_le_mul_of_nonneg_right (by omega) (by omega)
    nlinarith

theorem photo_horiz_some (view : photo_t) (x y : Int) (i : Nat) (hwf : photo_wf view)
    (hy0 : 0 ≤ y) (hy : y < view.hdr.height) : ∃ v, photo_horiz view x y i = some v := by
  unfold photo_horiz
  split
  · rename_i h
    have hb := mul_add_lt_mul view.hdr.width view.hdr.height y (x + i) hy0 hy h.1 (by omega)
    apply read_at_some
    · have := hb.1; rw [Int.mul_comm]; omega
    · rw [hwf]; push_cast; have := hb.2; rw [Int.mul_comm (view.hdr.width : Int) y]; omega
  · exact ⟨0, rfl⟩

theorem photo_vert_some (view : photo_t) (x y : Int) (i : Nat) (hwf : photo_wf view)
    (hx0 : 0 ≤ x) (hx : x < view.hdr.width) : ∃ v, photo_vert view x y i = some v := by
  unfold photo_vert
  split
  · rename_i h
    have hb := mul_add_lt_mul view.hdr.width view.hdr.height (y + i) x h.1 (by omega) hx0 hx
    apply read_at_some
    · have := hb.1; rw [Int.mul_comm]; omega
    · rw [hwf]; push_cast; have := hb.2; rw [Int.mul_comm (view.hdr.width : Int) (y + i)]; omega
  · exact ⟨0, rfl⟩

theorem horiz_photo_loop_eq (view : photo_t) (x y : Int) (idx : Nat) (rest buf : List Nat) :
    horiz_photo_loop view x y (idx :: rest) buf =
      match photo_horiz view x y idx with
      | some v => horiz_photo_loop view x y rest (buf.set idx v)
      | none => none := by
  unfold photo_horiz
  rw [horiz_photo_loop]
  split
  · rfl
  · rfl

theorem vert_photo_loop_eq (view : photo_t) (x y : Int) (idx : Nat) (rest buf : List Nat) :
    vert_photo_loop view x y (idx :: rest) buf =
      match photo_vert view x y idx with
      | some v => vert_photo_loop view x y rest (buf.set idx v)
      | none => none := by
  unfold photo_vert
  rw [vert_photo_loop]
  split
  · rfl
  · rfl

/-- A loop that stores `val idx` at `buf[idx]` for the listed indices. -/
theorem photo_loop_spec (loop : List Nat → List Nat → Option (List Nat))
    (val : Nat → Option Nat)
    (hnil : ∀ buf, loop [] buf = some buf)
    (hcons : ∀ idx rest buf, loop (idx :: rest) buf =
      match val idx with
      | some v => loop rest (buf.set idx v)
      | none => none)
    (hval : ∀ i, ∃ v, val i = some v) (idxs buf : List Nat) :
    ∃ buf2, loop idxs buf = some buf2 ∧ buf2.length = buf.length ∧
      ∀ i, i < buf.length → buf2[i]? = if i ∈ idxs then val i else buf[i]? := by
  induction idxs generalizing buf with
  | nil => exact ⟨buf, hnil buf, rfl, fun i _ => by simp⟩
  | cons idx rest ih =>
    obtain ⟨v, hv⟩ := hval idx
    obtain ⟨buf2, h1, h2, h3⟩ := ih (buf.set idx v)
    refine ⟨buf2, ?_, by rw [h2, List.length_set], ?_⟩
    · rw [hcons, hv]; exact h1
    · intro i hi
      rw [h3 i (by rw [List.length_set]; exact hi)]
      by_cases hr : i ∈ rest
      · simp [hr]
      · rw [if_neg hr]
        by_cases he : i = idx
        · subst he
          rw [List.getElem?_set_self hi, hv]; simp
        · rw [List.getElem?_set_ne (fun e => he e.symm)]
          simp [he, hr]

theorem horiz_photo_loop_spec (view : photo_t) (x y : Int) (n : Nat) (buf : List Nat)
    (hwf : photo_wf view) (hy0 : 0 ≤ y) (hy : y < view.hdr.height) (hlen : buf.length = n) :
    ∃ buf2, horiz_photo_loop view x y (List.range n) buf = some buf2 ∧ buf2.length = n ∧
      ∀ i, i < n → buf2[i]? = photo_horiz view x y i := by
  obtain ⟨buf2, h1, h2, h3⟩ := photo_loop_spec (horiz_photo_loop view x y)
    (photo_horiz view x y) (fun _ => rfl) (horiz_photo_loop_eq view x y)
    (fun i => photo_horiz_some view x y i hwf hy0 hy) (List.range n) buf
  refine ⟨buf2, h1, by rw [h2, hlen], ?_⟩
  intro i hi
  rw [h3 i (by omega), if_pos (List.mem_range.mpr hi)]

theorem vert_photo_loop_spec (view : photo_t) (x y : Int) (n : Nat) (buf : List Nat)
    (hwf : photo_wf view) (hx0 : 0 ≤ x) (hx : x < view.hdr.width) (hlen : buf.length = n) :
    ∃ buf2, vert_photo_loop view x y (List.range n) buf = some buf2 ∧ buf2.length = n ∧
      ∀ i, i < n → buf2[i]? = photo_vert view x y i := by
  obtain ⟨buf2, h1, h2, h3⟩ := photo_loop_spec (vert_photo_loop view x y)
    (photo_vert view x y) (fun _ => rfl) (vert_photo_loop_eq view x y)
    (fun i => photo_vert_some view x y i hwf hx0 hx) (List.range n) buf
  refine ⟨buf2, h1, by rw [h2, hlen], ?_⟩
  intro i hi
  rw [h3 i (by omega), if_pos (List.mem_range.mpr hi)]

theorem paint_some (t : Nat) (px : Option Nat) (v : Nat) :
    paint t px (some v) = some ((paint t px none).getD v) := by
  unfold paint
  cases px with
  | none => rfl
  | some p =>
    by_cases h : t ≠ p
    · simp [h]
    · simp [h]

/-- A copy loop in the shape of lines 168-175 and 246-253: while `idx` is inside
the strip and the image counter `c` inside the image, the pixel `px c` is offered
to `buf[idx]`. -/
theorem copy_loop_spec (s t lim : Nat) (px : Int → Option Nat)
    (loop : Nat → Int → Int → List Nat → Option (List Nat))
    (hstep : ∀ fuel idx c buf, loop (fuel + 1) idx c buf =
      if (s : Int) > idx ∧ (lim : Int) > c then
        match px c with
        | some pixel =>
          loop fuel (idx + 1) (c + 1) (if t ≠ pixel then buf.set idx.toNat pixel else buf)
        | none => none
      else some buf)
    (hpx : ∀ c : Int, 0 ≤ c → c < lim → ∃ v, px c = some v) :
    ∀ (fuel : Nat) (idx c : Int) (buf : List Nat), 0 ≤ idx → idx ≤ s → 0 ≤ c →
      (s : Int) - idx < fuel → buf.length = s →
      ∃ buf2, loop fuel idx c buf = some buf2 ∧ buf2.length = s ∧
        ∀ i : Nat, buf2[i]? =
          if idx ≤ i ∧ (i : Int) < s ∧ c + (i - idx) < lim then
            paint t (px (c + (i - idx))) buf[i]?
          else buf[i]? := by
  intro fuel
  induction fuel with
  | zero => intro idx c buf h0 h1 _ h3 _; omega
  | succ fuel ih =>
    intro idx c buf h0 h1 hc h3 hlen
    rw [hstep]
    by_cases hcond : (s : Int) > idx ∧ (lim : Int) > c
    · rw [if_pos hcond]
      obtain ⟨v, hv⟩ := hpx c hc hcond.2
      rw [hv]
      simp only
      have hlen2 : (if t ≠ v then buf.set idx.toNat v else buf).length = s := by
        split <;> simp [hlen]
      obtain ⟨buf2, e1, e2, e3⟩ := ih (idx + 1) (c + 1)
        (if t ≠ v then buf.set idx.toNat v else buf) (by omega) (by omega) (by omega)
        (by omega) hlen2
      refine ⟨buf2, e1, e2, ?_⟩
      intro i
      rw [e3 i]
      by_cases hi : (i : Int) = idx
      · have hin : i = idx.toNat := by omega
        have hlt : idx.toNat < buf.length := by omega
        have hA : ¬ (idx + 1 ≤ (i : Int) ∧ (i : Int) < s ∧
            c + 1 + ((i : Int) - (idx + 1)) < lim) := by omega
        have hB : idx ≤ (i : Int) ∧ (i : Int) < s ∧ c + ((i : Int) - idx) < lim := by omega
        rw [if_neg hA, if_pos hB]
        have hz : c + ((i : Int) - idx) = c := by omega
        rw [hz, hv]
        unfold paint
        simp only
        by_cases ht : t ≠ v
        · rw [if_pos ht, if_pos ht, hin, List.getElem?_set_self hlt]
        · rw [if_neg ht, if_neg ht]
      · have hbuf : (if t ≠ v then buf.set idx.toNat v else buf)[i]? = buf[i]? := by
          split
          · rw [List.getElem?_set_ne (by omega)]
          · rfl
        have hz : c + 1 + ((i : Int) - (idx + 1)) = c + (i - idx) := by omega
        rw [hbuf, hz]
        by_cases hcv : idx ≤ (i : Int) ∧ (i : Int) < s ∧ c + ((i : Int) - idx) < lim
        · have hcv2 : idx + 1 ≤ (i : Int) ∧ (i : Int) < s ∧ c + ((i : Int) - idx) < lim := by
            omega
          rw [if_pos hcv, if_pos hcv2]
        · have hcv2 : ¬ (idx + 1 ≤ (i : Int) ∧ (i : Int) < s ∧ c + ((i : Int) - idx) < lim) := by
            omega
          rw [if_neg hcv, if_neg hcv2]
    · rw [if_neg hcond]
      refine ⟨buf, rfl, hlen, ?_⟩
      intro i
      have hA : ¬ (idx ≤ (i : Int) ∧ (i : Int) < s ∧ c + ((i : Int) - idx) < lim) := by omega
      rw [if_neg hA]

theorem horiz_copy_step (s t : Nat) (img : image_t) (yoff : Int) (fuel : Nat) (idx c : Int)
    (buf : List Nat) :
    horiz_copy s t img yoff (fuel + 1) idx c buf =
      if (s : Int) > idx ∧ (img.hdr.width : Int) > c then
        match read_at img.img (yoff + c) with
        | some pixel =>
          horiz_copy s t img yoff fuel (idx + 1) (c + 1)
            (if t ≠ pixel then buf.set idx.toNat pixel else buf)
        | none => none
      else some buf := by
  rw [horiz_copy]

theorem vert_copy_step (s t : Nat) (img : image_t) (xoff : Int) (fuel : Nat) (idx c : Int)
    (buf : List Nat) :
    vert_copy s t img xoff (fuel + 1) idx c buf =
      if (s : Int) > idx ∧ (img.hdr.height : Int) > c then
        match read_at img.img (xoff + (img.hdr.width : Int) * c) with
        | some pixel =>
          vert_copy s t img xoff fuel (idx + 1) (c + 1)
            (if t ≠ pixel then buf.set idx.toNat pixel else buf)
        | none => none
      else some buf := by
  rw [vert_copy]

/-- What one object does to a horizontal strip. -/
theorem horiz_object_spec (s t : Nat) (x y : Int) (obj : object_t) (buf : List Nat)
    (hwf : image_wf obj.image) (hlen : buf.length = s)
    (hin : ¬ (y < obj.y ∨ y ≥ obj.y + obj.image.hdr.height ∨
      x + s ≤ obj.x ∨ x ≥ obj.x + obj.image.hdr.width)) :
    ∃ buf2, horiz_copy s t obj.image ((y - obj.y) * obj.image.hdr.width) (s + 1)
        (if x ≤ obj.x then obj.x - x else 0) (if x ≤ obj.x then 0 else x - obj.x) buf
          = some buf2 ∧ buf2.length = s ∧
      ∀ i v, i < s → buf[i]? = some v →
        buf2[i]? = some ((obj_pixel t obj (x + i) y).getD v) := by
  have hpx : ∀ c : Int, 0 ≤ c → c < obj.image.hdr.width →
      ∃ v, read_at obj.image.img ((y - obj.y) * obj.image.hdr.width + c) = some v := by
    intro c hc0 hc1
    have hb := mul_add_lt_mul obj.image.hdr.width obj.image.hdr.height (y - obj.y) c
      (by omega) (by omega) hc0 hc1
    apply read_at_some _ _ hb.1
    rw [hwf]; push_cast; exact hb.2
  obtain ⟨buf2, e1, e2, e3⟩ := copy_loop_spec s t obj.image.hdr.width
    (fun c => read_at obj.image.img ((y - obj.y) * obj.image.hdr.width + c))
    (horiz_copy s t obj.image ((y - obj.y) * obj.image.hdr.width))
    (horiz_copy_step s t obj.image _) hpx (s + 1)
    (if x ≤ obj.x then obj.x - x else 0) (if x ≤ obj.x then 0 else x - obj.x) buf
    (by split <;> omega) (by split <;> omega) (by split <;> omega)
    (by split <;> push_cast <;> omega) hlen
  refine ⟨buf2, e1, e2, ?_⟩
  intro i v hi hv
  rw [e3 i, hv]
  unfold obj_pixel
  generalize (y - obj.y) * (obj.image.hdr.width : Int) = yoff
  by_cases hcov : obj.x ≤ x + i ∧ x + i < obj.x + obj.image.hdr.width
  · have hA : (if x ≤ obj.x then obj.x - x else 0) ≤ (i : Int) ∧ (i : Int) < s ∧
        (if x ≤ obj.x then 0 else x - obj.x) +
          ((i : Int) - (if x ≤ obj.x then obj.x - x else 0)) < obj.image.hdr.width := by
      split <;> omega
    have hB : obj.x ≤ x + i ∧ x + i < obj.x + obj.image.hdr.width ∧
        obj.y ≤ y ∧ y < obj.y + obj.image.hdr.height := by omega
    have hidx : yoff + ((if x ≤ obj.x then 0 else x - obj.x) +
          ((i : Int) - (if x ≤ obj.x then obj.x - x else 0))) = yoff + (x + i - obj.x) := by
      split <;> omega
    rw [if_pos hA, if_pos hB, hidx, paint_some]
  · have hA : ¬ ((if x ≤ obj.x then obj.x - x else 0) ≤ (i : Int) ∧ (i : Int) < s ∧
        (if x ≤ obj.x then 0 else x - obj.x) +
          ((i : Int) - (if x ≤ obj.x then obj.x - x else 0)) < obj.image.hdr.width) := by
      split <;> omega
    have hB : ¬ (obj.x ≤ x + i ∧ x + i < obj.x + obj.image.hdr.width ∧
        obj.y ≤ y ∧ y < obj.y + obj.image.hdr.height) := by omega
    rw [if_neg hA, if_neg hB]
    rfl

/-- An object that `fill_horiz_buffer` skips shows no pixel on the strip. -/
theorem horiz_skip_none (s t : Nat) (x y : Int) (obj : object_t) (i : Nat) (hi : i < s)
    (hout : y < obj.y ∨ y ≥ obj.y + obj.image.hdr.height ∨
      x + s ≤ obj.x ∨ x ≥ obj.x + obj.image.hdr.width) :
    obj_pixel t obj (x + i) y = none := by
  unfold obj_pixel
  rw [if_neg (by omega)]

theorem horiz_objects_spec (s t : Nat) (x y : Int) (objs : List object_t) (buf : List Nat)
    (hwf : ∀ o ∈ objs, image_wf o.image) (hlen : buf.length = s) :
    ∃ buf2, horiz_objects s t x y objs buf = some buf2 ∧ buf2.length = s ∧
      ∀ i v, i < s → buf[i]? = some v → buf2[i]? = some (overlay t (x + i) y objs v) := by
  induction objs generalizing buf with
  | nil => exact ⟨buf, rfl, hlen, fun i v _ hv => hv⟩
  | cons obj rest ih =>
    have hwf2 : ∀ o ∈ rest, image_wf o.image := fun o ho => hwf o (by simp [ho])
    by_cases hout : y < obj.y ∨ y ≥ obj.y + obj.image.hdr.height ∨
        x + s ≤ obj.x ∨ x ≥ obj.x + obj.image.hdr.width
    · obtain ⟨buf2, e1, e2, e3⟩ := ih buf hwf2 hlen
      refine ⟨buf2, ?_, e2, ?_⟩
      · rw [horiz_objects]; simp only; rw [if_pos hout]; exact e1
      · intro i v hi hv
        rw [e3 i v hi hv, overlay, horiz_skip_none s t x y obj i hi hout]
        rfl
    · obtain ⟨buf1, c1, c2, c3⟩ := horiz_object_spec s t x y obj buf
        (hwf obj (by simp)) hlen hout
      obtain ⟨buf2, e1, e2, e3⟩ := ih buf1 hwf2 c2
      refine ⟨buf2, ?_, e2, ?_⟩
      · rw [horiz_objects]; simp only; rw [if_neg hout, c1]; exact e1
      · intro i v hi hv
        rw [e3 i _ hi (c3 i v hi hv), overlay]

/-- What one object does to a vertical strip. -/
theorem vert_object_spec (s t : Nat) (x y : Int) (obj : object_t) (buf : List Nat)
    (hwf : image_wf obj.image) (hlen : buf.length = s)
    (hin : ¬ (x < obj.x ∨ x ≥ obj.x + obj.image.hdr.width ∨
      y + s ≤ obj.y ∨ y ≥ obj.y + obj.image.hdr.height)) :
    ∃ buf2, vert_copy s t obj.image (x - obj.x) (s + 1)
        (if y ≤ obj.y then obj.y - y else 0) (if y ≤ obj.y then 0 else y - obj.y) buf
          = some buf2 ∧ buf2.length = s ∧
      ∀ i v, i < s → buf[i]? = some v →
        buf2[i]? = some ((obj_pixel t obj x (y + i)).getD v) := by
  have hpx : ∀ c : Int, 0 ≤ c → c < obj.image.hdr.height →
      ∃ v, read_at obj.image.img ((x - obj.x) + (obj.image.hdr.width : Int) * c) = some v := by
    intro c hc0 hc1
    have hb := mul_add_lt_mul obj.image.hdr.width obj.image.hdr.height c (x - obj.x)
      hc0 hc1 (by omega) (by omega)
    have e : (x - obj.x) + (obj.image.hdr.width : Int) * c
        = c * obj.image.hdr.width + (x - obj.x) := by ring
    rw [e]
    apply read_at_some _ _ hb.1
    rw [hwf]; push_cast; exact hb.2
  obtain ⟨buf2, e1, e2, e3⟩ := copy_loop_spec s t obj.image.hdr.height
    (fun c => read_at obj.image.img ((x - obj.x) + (obj.image.hdr.width : Int) * c))
    (vert_copy s t obj.image (x - obj.x))
    (vert_copy_step s t obj.image _) hpx (s + 1)
    (if y ≤ obj.y then obj.y - y else 0) (if y ≤ obj.y then 0 else y - obj.y) buf
    (by split <;> omega) (by split <;> omega) (by split <;> omega)
    (by split <;> push_cast <;> omega) hlen
  refine ⟨buf2, e1, e2, ?_⟩
  intro i v hi hv
  rw [e3 i, hv]
  unfold obj_pixel
  by_cases hcov : obj.y ≤ y + i ∧ y + i < obj.y + obj.image.hdr.height
  · have hA : (if y ≤ obj.y then obj.y - y else 0) ≤ (i : Int) ∧ (i : Int) < s ∧
        (if y ≤ obj.y then 0 else y - obj.y) +
          ((i : Int) - (if y ≤ obj.y then obj.y - y else 0)) < obj.image.hdr.height := by
      split <;> omega
    have hB : obj.x ≤ x ∧ x < obj.x + obj.image.hdr.width ∧
        obj.y ≤ y + i ∧ y + i < obj.y + obj.image.hdr.height := by omega
    have hc : (if y ≤ obj.y then 0 else y - obj.y) +
          ((i : Int) - (if y ≤ obj.y then obj.y - y else 0)) = y + i - obj.y := by
      split <;> omega
    have hidx : (x - obj.x) + (obj.image.hdr.width : Int) * (y + i - obj.y)
        = (y + i - obj.y) * obj.image.hdr.width + (x - obj.x) := by ring
    rw [if_pos hA, if_pos hB, hc, hidx, paint_some]
  · have hA : ¬ ((if y ≤ obj.y then obj.y - y else 0) ≤ (i : Int) ∧ (i : Int) < s ∧
        (if y ≤ obj.y then 0 else y - obj.y) +
          ((i : Int) - (if y ≤ obj.y then obj.y - y else 0)) < obj.image.hdr.height) := by
      split <;> omega
    have hB : ¬ (obj.x ≤ x ∧ x < obj.x + obj.image.hdr.width ∧
        obj.y ≤ y + i ∧ y + i < obj.y + obj.image.hdr.height) := by omega
    rw [if_neg hA, if_neg hB]
    rfl

/-- An object that `fill_vert_buffer` skips shows no pixel on the strip. -/
theorem vert_skip_none (s t : Nat) (x y : Int) (obj : object_t) (i : Nat) (hi : i < s)
    (hout : x < obj.x ∨ x ≥ obj.x + obj.image.hdr.width ∨
      y + s ≤ obj.y ∨ y ≥ obj.y + obj.image.hdr.height) :
    obj_pixel t obj x (y + i) = none := by
  unfold obj_pixel
  rw [if_neg (by omega)]

theorem vert_objects_spec (s t : Nat) (x y : Int) (objs : List object_t) (buf : List Nat)
    (hwf : ∀ o ∈ objs, image_wf o.image) (hlen : buf.length = s) :
    ∃ buf2, vert_objects s t x y objs buf = some buf2 ∧ buf2.length = s ∧
      ∀ i v, i < s → buf[i]? = some v → buf2[i]? = some (overlay t x (y + i) objs v) := by
  induction objs generalizing buf with
  | nil => exact ⟨buf, rfl, hlen, fun i v _ hv => hv⟩
  | cons obj rest ih =>
    have hwf2 : ∀ o ∈ rest, image_wf o.image := fun o ho => hwf o (by simp [ho])
    by_cases hout : x < obj.x ∨ x ≥ obj.x + obj.image.hdr.width ∨
        y + s ≤ obj.y ∨ y ≥ obj.y + obj.image.hdr.height
    · obtain ⟨buf2, e1, e2, e3⟩ := ih buf hwf2 hlen
      refine ⟨buf2, ?_, e2, ?_⟩
      · rw [vert_objects]; simp only; rw [if_pos hout]; exact e1
      · intro i v hi hv
        rw [e3 i v hi hv, overlay, vert_skip_none s t x y obj i hi hout]
        rfl
    · obtain ⟨buf1, c1, c2, c3⟩ := vert_object_spec s t x y obj buf
        (hwf obj (by simp)) hlen hout
      obtain ⟨buf2, e1, e2, e3⟩ := ih buf1 hwf2 c2
      refine ⟨buf2, ?_, e2, ?_⟩
      · rw [vert_objects]; simp only; rw [if_neg hout, c1]; exact e1
      · intro i v hi hv
        rw [e3 i _ hi (c3 i v hi hv), overlay]

/-- Result of `fill_horiz_buffer` on a row of the photo. -/
theorem fill_horiz_buffer_eq (s t : Nat) (room : room_t) (x y : Int) (buf : List Nat)
    (hbuf : buf.length = s) (hy0 : 0 ≤ y) (hy : y < room.photo.hdr.height)
    (hphoto : photo_wf room.photo) (hobjs : ∀ o ∈ room.contents, image_wf o.image) :
    ∃ out, fill_horiz_buffer s t room x y buf = some out ∧ out.length = s ∧
      ∀ i, i < s → ∃ v, photo_horiz room.photo x y i = some v ∧
        out[i]? = some (overlay t (x + i) y room.contents v) := by
  obtain ⟨buf1, a1, a2, a3⟩ := horiz_photo_loop_spec room.photo x y s buf hphoto hy0 hy hbuf
  obtain ⟨out, b1, b2, b3⟩ := horiz_objects_spec s t x y room.contents buf1 hobjs a2
  refine ⟨out, ?_, b2, ?_⟩
  · unfold fill_horiz_buffer
    simp only
    rw [a1]
    exact b1
  · intro i hi
    obtain ⟨v, hv⟩ := photo_horiz_some room.photo x y i hphoto hy0 hy
    exact ⟨v, hv, b3 i v hi (by rw [a3 i hi, hv])⟩

/-- Result of `fill_vert_buffer` on a column of the photo. -/
theorem fill_vert_buffer_eq (s t : Nat) (room : room_t) (x y : Int) (buf : List Nat)
    (hbuf : buf.length = s) (hx0 : 0 ≤ x) (hx : x < room.photo.hdr.width)
    (hphoto : photo_wf room.photo) (hobjs : ∀ o ∈ room.contents, image_wf o.image) :
    ∃ out, fill_vert_buffer s t room x y buf = some out ∧ out.length = s ∧
      ∀ i, i < s → ∃ v, photo_vert room.photo x y i = some v ∧
        out[i]? = some (overlay t x (y + i) room.contents v) := by
  obtain ⟨buf1, a1, a2, a3⟩ := vert_photo_loop_spec room.photo x y s buf hphoto hx0 hx hbuf
  obtain ⟨out, b1, b2, b3⟩ := vert_objects_spec s t x y room.contents buf1 hobjs a2
  refine ⟨out, ?_, b2, ?_⟩
  · unfold fill_vert_buffer
    simp only
    rw [a1]
    exact b1
  · intro i hi
    obtain ⟨v, hv⟩ := photo_vert_some room.photo x y i hphoto hx0 hx
    exact ⟨v, hv, b3 i v hi (by rw [a3 i hi, hv])⟩

theorem overlay_none (t : Nat) (mx my : Int) (objs : List object_t) (v : Nat)
    (h : ∀ o ∈ objs, obj_pixel t o mx my = none) : overlay t mx my objs v = v := by
  induction objs generalizing v with
  | nil => rfl
  | cons o rest ih =>
    rw [overlay, h o (by simp)]
    exact ih _ (fun o2 ho2 => h o2 (by simp [ho2]))

theorem overlay_last (t : Nat) (mx my : Int) (objs : List object_t) (v : Nat)
    (k : Nat) (obj : object_t) (px : Nat) (hk : objs[k]? = some obj)
    (hpx : obj_pixel t obj mx my = some px)
    (hlater : ∀ (k2 : Nat) (obj2 : object_t), k < k2 → objs[k2]? = some obj2 →
      obj_pixel t obj2 mx my = none) :
    overlay t mx my objs v = px := by
  induction objs generalizing v k with
  | nil => simp at hk
  | cons o rest ih =>
    rw [overlay]
    cases k with
    | zero =>
      simp only [List.getElem?_cons_zero, Option.some.injEq] at hk
      subst hk
      rw [hpx]
      apply overlay_none
      intro o2 ho2
      obtain ⟨n, hn⟩ := List.mem_iff_getElem?.mp ho2
      exact hlater (n + 1) o2 (by omega) (by simpa using hn)
    | succ k =>
      apply ih _ k (by simpa using hk)
      intro k2 obj2 hlt h2
      exact hlater (k2 + 1) obj2 (by omega) (by simpa using h2)

/-! ## The object loop in 32-bit `int` -/

theorem to_int_eq (v : Int) (h : in_int v) : to_int v = v := by
  unfold in_int at h
  unfold to_int
  omega

theorem horiz_objects_int_eq (s t : Nat) (x y : Int) (objs : List object_t) (buf : List Nat)
    (hs : in_int s) (hxs : in_int (x + s)) (hobjs : ∀ o ∈ objs, object_in_int o) :
    horiz_objects_int s t x y objs buf = horiz_objects s t x y objs buf := by
  induction objs generalizing buf with
  | nil => rfl
  | cons obj rest ih =>
    obtain ⟨bx, by1, bw, bh, bwh⟩ := hobjs obj (List.mem_cons_self _ _)
    have ih2 := fun b => ih b (fun o ho => hobjs o (List.mem_cons_of_mem _ ho))
    rw [horiz_objects_int, horiz_objects]
    simp only
    rw [to_int_eq _ by1, to_int_eq _ hxs, to_int_eq _ bx]
    by_cases hskip : y < obj.y ∨ y ≥ obj.y + obj.image.hdr.height ∨
        x + s ≤ obj.x ∨ x ≥ obj.x + obj.image.hdr.width
    · rw [if_pos hskip, if_pos hskip]
      exact ih2 buf
    · rw [if_neg hskip, if_neg hskip]
      unfold in_int at hs hxs bx by1 bw bh bwh
      have e1 : to_int (y - obj.y) = y - obj.y := to_int_eq _ (by unfold in_int; omega)
      have hprod : (y - obj.y) * (obj.image.hdr.width : Int) ≤
          (obj.image.hdr.height : Int) * obj.image.hdr.width :=
        Int.mul_le_mul_of_nonneg_right (by omega) (Int.ofNat_nonneg _)
      have hnn : 0 ≤ (y - obj.y) * (obj.image.hdr.width : Int) :=
        Int.mul_nonneg (by omega) (Int.ofNat_nonneg _)
      have e2 : to_int ((y - obj.y) * (obj.image.hdr.width : Int)) =
          (y - obj.y) * obj.image.hdr.width :=
        to_int_eq _ (by
          unfold in_int
          rw [Int.mul_comm (obj.image.hdr.height : Int)] at hprod
          omega)
      have e3 : x ≤ obj.x → to_int (obj.x - x) = obj.x - x := fun hle =>
        to_int_eq _ (by unfold in_int; omega)
      have e4 : ¬ x ≤ obj.x → to_int (x - obj.x) = x - obj.x := fun hgt =>
        to_int_eq _ (by unfold in_int; omega)
      rw [e1, e2]
      by_cases hle : x ≤ obj.x
      · rw [if_pos hle, if_pos hle, if_pos hle, if_pos hle, e3 hle]
        cases horiz_copy s t obj.image ((y - obj.y) * obj.image.hdr.width) (s + 1)
          (obj.x - x) 0 buf with
        | none => rfl
        | some buf2 => exact ih2 buf2
      · rw [if_neg hle, if_neg hle, if_neg hle, if_neg hle, e4 hle]
        cases horiz_copy s t obj.image ((y - obj.y) * obj.image.hdr.width) (s + 1)
          0 (x - obj.x) buf with
        | none => rfl
        | some buf2 => exact ih2 buf2

theorem fill_horiz_buffer_int_eq (s t : Nat) (room : room_t) (x y : Int) (buf : List Nat)
    (hs : in_int s) (hxs : in_int (x + s)) (hobjs : ∀ o ∈ room.contents, object_in_int o) :
    fill_horiz_buffer_int s t room x y buf = fill_horiz_buffer s t room x y buf := by
  unfold fill_horiz_buffer_int fill_horiz_buffer
  simp only
  cases horiz_photo_loop room.photo x y (List.range s) buf with
  | none => rfl
  | some buf1 => exact horiz_objects_int_eq s t x y room.contents buf1 hs hxs hobjs

/-- C9, for the strips and objects whose coordinates stay in the range of `int`
(`SCROLL_X_DIM`, `x + SCROLL_X_DIM` and, for every object, `obj_x + width`,
`obj_y + height`, `width`, `height` and `width * height`): for a row `y` of the
photo and an offset `i` of the strip, after `fill_horiz_buffer (x, y, buf)` the cell
`buf[i]` holds the pixel of the last object in iteration order whose bounding box
contains `(x+i, y)` and whose pixel there is not `OBJ_CLR_TRANSP`; when there is no
such object it holds `img[width*y + x + i]` if `0 <= x+i < width` and 0 otherwise. -/
theorem horiz_strip_shows_last_object (SCROLL_X_DIM OBJ_CLR_TRANSP : Nat) (room : room_t)
    (x y : Int) (buf : List Nat) (i : Nat)
    (hbuf : buf.length = SCROLL_X_DIM) (hi : i < SCROLL_X_DIM)
    (hy : 0 ≤ y ∧ y < room.photo.hdr.height)
    (hphoto : photo_wf room.photo) (hobjs : ∀ o ∈ room.contents, image_wf o.image)
    (hs : in_int SCROLL_X_DIM) (hxs : in_int (x + SCROLL_X_DIM))
    (hint : ∀ o ∈ room.contents, object_in_int o) :
    ∃ out, fill_horiz_buffer_int SCROLL_X_DIM OBJ_CLR_TRANSP room x y buf = some out ∧
      (∀ (k : Nat) (obj : object_t) (px : Nat), room.contents[k]? = some obj →
        obj_pixel OBJ_CLR_TRANSP obj (x + i) y = some px →
        (∀ (k2 : Nat) (obj2 : object_t), k < k2 → room.contents[k2]? = some obj2 →
          obj_pixel OBJ_CLR_TRANSP obj2 (x + i) y = none) →
        out[i]? = some px) ∧
      ((∀ obj ∈ room.contents, obj_pixel OBJ_CLR_TRANSP obj (x + i) y = none) →
        out[i]? =
          if 0 ≤ x + i ∧ x + i < room.photo.hdr.width then
            read_at room.photo.img ((room.photo.hdr.width : Int) * y + x + i)
          else some 0) := by
  rw [fill_horiz_buffer_int_eq SCROLL_X_DIM OBJ_CLR_TRANSP room x y buf hs hxs hint]
  obtain ⟨out, h1, _, h3⟩ := fill_horiz_buffer_eq SCROLL_X_DIM OBJ_CLR_TRANSP room x y buf
    hbuf hy.1 hy.2 hphoto hobjs
  obtain ⟨v, hv, hout⟩ := h3 i hi
  refine ⟨out, h1, ?_, ?_⟩
  · intro k obj px hk hpx hlater
    rw [hout, overlay_last OBJ_CLR_TRANSP (x + i) y room.contents v k obj px hk hpx hlater]
  · intro hnone
    rw [hout, overlay_none OBJ_CLR_TRANSP (x + i) y room.contents v hnone, ← hv]
    rfl

theorem sample_room_wf :
    photo_wf sample_room.photo ∧ ∀ o ∈ sample_room.contents, image_wf o.image := by
  constructor
  · rfl
  · intro o ho
    simp only [sample_room, List.mem_singleton] at ho
    subst ho
    rfl

theorem sample_room_in_int : ∀ o ∈ sample_room.contents, object_in_int o := by
  intro o ho
  simp only [sample_room, List.mem_singleton] at ho
  subst ho
  unfold object_in_int in_int
  decide

theorem horiz_strip_shows_last_object_witness :
    (([0, 0] : List Nat).length = 2 ∧ 1 < 2 ∧
      ((0 : Int) ≤ 0 ∧ (0 : Int) < sample_room.photo.hdr.height) ∧
      photo_wf sample_room.photo ∧ (∀ o ∈ sample_room.contents, image_wf o.image) ∧
      in_int (2 : Nat) ∧ in_int ((0 : Int) + (2 : Nat)) ∧
      ∀ o ∈ sample_room.contents, object_in_int o) ∧
    ∃ out, fill_horiz_buffer_int 2 64 sample_room 0 0 [0, 0] = some out ∧
      (∀ (k : Nat) (obj : object_t) (px : Nat), sample_room.contents[k]? = some obj →
        obj_pixel 64 obj ((0 : Int) + (1 : Nat)) 0 = some px →
        (∀ (k2 : Nat) (obj2 : object_t), k < k2 → sample_room.contents[k2]? = some obj2 →
          obj_pixel 64 obj2 ((0 : Int) + (1 : Nat)) 0 = none) →
        out[1]? = some px) ∧
      ((∀ obj ∈ sample_room.contents, obj_pixel 64 obj ((0 : Int) + (1 : Nat)) 0 = none) →
        out[1]? =
          if 0 ≤ (0 : Int) + (1 : Nat) ∧ (0 : Int) + (1 : Nat) < sample_room.photo.hdr.width then
            read_at sample_room.photo.img
              ((sample_room.photo.hdr.width : Int) * 0 + 0 + (1 : Nat))
          else some 0) :=
  ⟨⟨rfl, by decide, by decide, sample_room_wf.1, sample_room_wf.2, by unfold in_int; decide,
    by unfold in_int; decide, sample_room_in_int⟩,
   horiz_strip_shows_last_object 2 64 sample_room 0 0 [0, 0] 1 rfl (by decide) (by decide)
     sample_room_wf.1 sample_room_wf.2 (by unfold in_int; decide) (by unfold in_int; decide)
     sample_room_in_int⟩

/-- C9, the case the claim gets wrong: at `x = 2147483646` with a strip of two
cells, the sum `x + SCROLL_X_DIM` of line 148 and the sum `obj_x + width` exceed
the largest `int`, the object of `far_room` is skipped, and `buf[0]` holds the 0 of
the photo loop although the object covers `(x, 0)` with the pixel 5, which is not
the transparent code 64. -/
theorem horiz_strip_skips_object_past_int :
    fill_horiz_buffer_int 2 64 far_room 2147483646 0 [9, 9] = some [0, 0] ∧
    far_room.contents =
      [{ x := 2147483646, y := 0, image := { hdr := ⟨2, 1⟩, img := [5, 6] } }] ∧
    obj_pixel 64 { x := 2147483646, y := 0, image := { hdr := ⟨2, 1⟩, img := [5, 6] } }
      ((2147483646 : Int) + (0 : Nat)) 0 = some 5 ∧
    to_int ((2147483646 : Int) + (2 : Nat)) = -2147483648 := by
  decide

/-- C10: for a column `x` of the photo and an offset `i` of the vertical strip with
`y+i` a row of the photo, the value `fill_vert_buffer (x, y)` leaves in `buf[i]` is
the value `fill_horiz_buffer (x, y+i)` leaves in `buf[0]`. -/
theorem vert_strip_is_transposed_horiz (SCROLL_X_DIM SCROLL_Y_DIM OBJ_CLR_TRANSP : Nat)
    (room : room_t) (x y : Int) (bufv bufh : List Nat) (i : Nat)
    (hbv : bufv.length = SCROLL_Y_DIM) (hbh : bufh.length = SCROLL_X_DIM)
    (hsx : 0 < SCROLL_X_DIM) (hi : i < SCROLL_Y_DIM)
    (hx : 0 ≤ x ∧ x < room.photo.hdr.width)
    (hyi : 0 ≤ y + i ∧ y + i < room.photo.hdr.height)
    (hphoto : photo_wf room.photo) (hobjs : ∀ o ∈ room.contents, image_wf o.image) :
    ∃ outv outh v,
      fill_vert_buffer SCROLL_Y_DIM OBJ_CLR_TRANSP room x y bufv = some outv ∧
      fill_horiz_buffer SCROLL_X_DIM OBJ_CLR_TRANSP room x (y + i) bufh = some outh ∧
      outv[i]? = some v ∧ outh[0]? = some v := by
  obtain ⟨outv, a1, _, a3⟩ := fill_vert_buffer_eq SCROLL_Y_DIM OBJ_CLR_TRANSP room x y bufv
    hbv hx.1 hx.2 hphoto hobjs
  obtain ⟨outh, b1, _, b3⟩ := fill_horiz_buffer_eq SCROLL_X_DIM OBJ_CLR_TRANSP room x (y + i)
    bufh hbh hyi.1 hyi.2 hphoto hobjs
  obtain ⟨v1, hv1, ho1⟩ := a3 i hi
  obtain ⟨v2, hv2, ho2⟩ := b3 0 hsx
  have hsame : v2 = v1 := by
    unfold photo_vert at hv1
    unfold photo_horiz at hv2
    rw [if_pos ⟨hyi.1, hyi.2⟩] at hv1
    simp only [Nat.cast_zero, add_zero] at hv2
    rw [if_pos ⟨hx.1, hx.2⟩, hv1] at hv2
    exact (Option.some.inj hv2).symm
  refine ⟨outv, outh, _, a1, b1, ho1, ?_⟩
  rw [ho2, hsame]
  simp only [Nat.cast_zero, add_zero]

theorem vert_strip_is_transposed_horiz_witness :
    ((([0, 0, 0] : List Nat).length = 3 ∧ ([0, 0] : List Nat).length = 2 ∧ 0 < 2 ∧ 1 < 3) ∧
      ((0 : Int) ≤ 1 ∧ (1 : Int) < sample_room.photo.hdr.width) ∧
      ((0 : Int) ≤ -1 + (1 : Nat) ∧ (-1 : Int) + (1 : Nat) < sample_room.photo.hdr.height) ∧
      photo_wf sample_room.photo ∧ ∀ o ∈ sample_room.contents, image_wf o.image) ∧
    ∃ outv outh v,
      fill_vert_buffer 3 64 sample_room 1 (-1) [0, 0, 0] = some outv ∧
      fill_horiz_buffer 2 64 sample_room 1 (-1 + (1 : Nat)) [0, 0] = some outh ∧
      outv[1]? = some v ∧ outh[0]? = some v :=
  ⟨⟨⟨rfl, rfl, by decide, by decide⟩, by decide, by decide, sample_room_wf.1, sample_room_wf.2⟩,
   vert_strip_is_transposed_horiz 2 3 64 sample_room 1 (-1) [0, 0, 0] [0, 0] 1 rfl rfl
     (by decide) (by decide) (by decide) (by decide) sample_room_wf.1 sample_room_wf.2⟩

/-! ## Fine and coarse ids agree -/

/-- C18: `map_to_octree` adds a pixel to the fine cell `fine_id` and to the coarse
cell `coarse_id`; the index `((n>>10)&3)<<4 | ((n>>6)&3)<<2 | ((n>>2)&3)` that
`read_photo` derives from the pixel's fine id is its coarse id; so the subtraction
made for a promoted bucket holding the pixel goes to the coarse cell the pixel was
added to. -/
theorem derived_coarse_index_matches (pixel : Nat) (st : Hist)
    (level_4 : List octree) (pal : List color) (level_2 : List octree) (i : Nat) (o : octree)
    (ho : level_4[i]? = some o) (hc : o.count ≠ 0) (hn : o.node_num = fine_id pixel) :
    (map_to_octree st pixel).level_4 =
      add_pixel st.level_4 (fine_id pixel) (red_of pixel) (green_of pixel) (blue_of pixel) ∧
    (map_to_octree st pixel).level_2 =
      add_pixel st.level_2 (coarse_id pixel) (red_of pixel) (green_of pixel) (blue_of pixel) ∧
    coarse_of_node (fine_id pixel) = coarse_id pixel ∧
    (fine_step level_4 (pal, level_2) i).2 = sub_bucket level_2 (coarse_id pixel) o := by
  refine ⟨rfl, rfl, coarse_of_fine pixel, ?_⟩
  rw [fine_step_pos level_4 _ i o ho hc, hn, coarse_of_fine]

theorem derived_coarse_index_matches_witness :
    (([⟨31, 0, 0, 1, 0xF00⟩] : List octree)[0]? = some ⟨31, 0, 0, 1, 0xF00⟩ ∧
      (⟨31, 0, 0, 1, 0xF00⟩ : octree).count ≠ 0 ∧
      (⟨31, 0, 0, 1, 0xF00⟩ : octree).node_num = fine_id 0xF800) ∧
    ((map_to_octree reset_hist 0xF800).level_4 =
      add_pixel reset_hist.level_4 (fine_id 0xF800) (red_of 0xF800) (green_of 0xF800)
        (blue_of 0xF800) ∧
    (map_to_octree reset_hist 0xF800).level_2 =
      add_pixel reset_hist.level_2 (coarse_id 0xF800) (red_of 0xF800) (green_of 0xF800)
        (blue_of 0xF800) ∧
    coarse_of_node (fine_id 0xF800) = coarse_id 0xF800 ∧
    (fine_step [⟨31, 0, 0, 1, 0xF00⟩] (zero_palette, reset_hist.level_2) 0).2 =
      sub_bucket reset_hist.level_2 (coarse_id 0xF800) ⟨31, 0, 0, 1, 0xF00⟩) :=
  ⟨⟨rfl, by decide, by decide⟩,
   derived_coarse_index_matches 0xF800 reset_hist [⟨31, 0, 0, 1, 0xF00⟩] zero_palette
     reset_hist.level_2 0 ⟨31, 0, 0, 1, 0xF00⟩ rfl (by decide) (by decide)⟩

/-! ## The bucket invariant -/

theorem bucket_of_inv (ps : List Nat) (id : Nat) :
    ((bucket_of ps id).count = 0 →
      (bucket_of ps id).red = 0 ∧ (bucket_of ps id).green = 0 ∧ (bucket_of ps id).blue = 0) ∧
    0 ≤ (bucket_of ps id).count ∧ 0 ≤ (bucket_of ps id).red ∧
    0 ≤ (bucket_of ps id).green ∧ 0 ≤ (bucket_of ps id).blue := by
  refine ⟨?_, Int.ofNat_nonneg _, chan_sum_nonneg _ _, chan_sum_nonneg _ _, chan_sum_nonneg _ _⟩
  intro h
  have h0 : ps.length = 0 := by
    have : ((ps.length : Nat) : Int) = 0 := h
    omega
  have hnil : ps = [] := List.length_eq_zero.mp h0
  subst hnil
  exact ⟨chan_sum_nil _, chan_sum_nil _, chan_sum_nil _⟩

theorem level_4_mem (s : List Nat) (o : octree) (ho : o ∈ (accumulate s).level_4) :
    ∃ k, o = fine_hist s k := by
  rw [accumulate_level_4] at ho
  simp only [List.mem_map, List.mem_range] at ho
  obtain ⟨k, _, hk⟩ := ho
  exact ⟨k, hk.symm⟩

theorem level_2_mem (s : List Nat) (o : octree) (ho : o ∈ (accumulate s).level_2) :
    ∃ j, o = coarse_hist s j := by
  rw [accumulate_level_2] at ho
  simp only [List.mem_map, List.mem_range] at ho
  obtain ⟨j, _, hj⟩ := ho
  exact ⟨j, hj.symm⟩

theorem select_level_2_mem (s : List Nat) (sorted : List octree)
    (h : IsQsorted (accumulate s).level_4 sorted) (c : octree)
    (hc : c ∈ (select_palette sorted (accumulate s).level_2).2) :
    ∃ j, j < 64 ∧ c = bucket_of (rest_pixels s sorted j) j := by
  obtain ⟨j, hj⟩ := List.mem_iff_getElem?.mp hc
  have hlt : j < 64 := by
    have := (List.getElem?_eq_some.mp hj).1
    rw [select_level_2_length] at this
    exact this
  rw [select_level_2 s sorted h j hlt, residual_eq s sorted h j] at hj
  exact ⟨j, hlt, (Option.some.inj hj).symm⟩

/-- C19: every fine and every coarse bucket has zero sums when its count is zero,
after the reset (`n = 0`) and after each of the first `n` calls of `map_to_octree`;
the same holds for every coarse bucket after `read_photo` has subtracted the
promoted fine buckets, and what is left there, count and sums, is not below zero. -/
theorem empty_bucket_has_zero_sums (stream : List Nat) (n : Nat) (sorted : List octree)
    (hq : IsQsorted (accumulate stream).level_4 sorted) :
    (∀ o, o ∈ (accumulate (stream.take n)).level_4 ∨ o ∈ (accumulate (stream.take n)).level_2 →
      o.count = 0 → o.red = 0 ∧ o.green = 0 ∧ o.blue = 0) ∧
    (∀ c ∈ (select_palette sorted (accumulate stream).level_2).2,
      (c.count = 0 → c.red = 0 ∧ c.green = 0 ∧ c.blue = 0) ∧
      0 ≤ c.count ∧ 0 ≤ c.red ∧ 0 ≤ c.green ∧ 0 ≤ c.blue) := by
  constructor
  · intro o ho
    rcases ho with ho | ho
    · obtain ⟨k, rfl⟩ := level_4_mem _ o ho
      exact (bucket_of_inv _ k).1
    · obtain ⟨j, rfl⟩ := level_2_mem _ o ho
      exact (bucket_of_inv _ j).1
  · intro c hc
    obtain ⟨j, _, rfl⟩ := select_level_2_mem stream sorted hq c hc
    exact bucket_of_inv _ j

theorem empty_bucket_has_zero_sums_witness :
    IsQsorted (accumulate sample_stream).level_4 sample_sorted ∧
    ((∀ o, o ∈ (accumulate (sample_stream.take 1)).level_4 ∨
        o ∈ (accumulate (sample_stream.take 1)).level_2 →
      o.count = 0 → o.red = 0 ∧ o.green = 0 ∧ o.blue = 0) ∧
    (∀ c ∈ (select_palette sample_sorted (accumulate sample_stream).level_2).2,
      (c.count = 0 → c.red = 0 ∧ c.green = 0 ∧ c.blue = 0) ∧
      0 ≤ c.count ∧ 0 ≤ c.red ∧ 0 ≤ c.green ∧ 0 ≤ c.blue)) :=
  ⟨qsort_model_spec (accumulate sample_stream).level_4,
   empty_bucket_has_zero_sums sample_stream 1 sample_sorted
     (qsort_model_spec (accumulate sample_stream).level_4)⟩

/-! ## Linear scan against the lookup table -/

theorem find_congr (l : List Nat) (p q : Nat → Bool) (h : ∀ x ∈ l, p x = q x) :
    l.find? p = l.find? q := by
  induction l with
  | nil => rfl
  | cons a l ih =>
    rw [List.find?_cons, List.find?_cons, h a (by simp), ih (fun x hx => h x (by simp [hx]))]

theorem vga_by_table_eq (l4 : List octree) (p : Nat) :
    vga_by_table l4 p =
      match (List.range 128).find? (fun i =>
          match l4[i]? with
          | some o => decide (o.count ≠ 0) && decide (o.node_num = fine_id p)
          | none => false) with
      | some i => 128 + i
      | none => 64 + coarse_id p := by
  unfold vga_by_table promoted_table
  cases (List.range 128).find? (fun i =>
      match l4[i]? with
      | some o => decide (o.count ≠ 0) && decide (o.node_num = fine_id p)
      | none => false) <;> rfl

/-- The scan and the table agree on a pixel whose fine id is not the id of an
empty bucket ranked below 128. -/
theorem scan_eq_table (l4 : List octree) (p : Nat)
    (h : ∀ (i : Nat) (o : octree), i < 128 → l4[i]? = some o → o.node_num = fine_id p →
      o.count ≠ 0) :
    vga_conventer l4 p = vga_by_table l4 p := by
  rw [vga_conventer_eq, vga_by_table_eq]
  have hfind : (List.range 128).find? (fun i =>
        match l4[i]? with
        | some o => decide (o.node_num = fine_id p)
        | none => false) =
      (List.range 128).find? (fun i =>
        match l4[i]? with
        | some o => decide (o.count ≠ 0) && decide (o.node_num = fine_id p)
        | none => false) := by
    apply find_congr
    intro i hi
    have hi2 : i < 128 := List.mem_range.mp hi
    cases ho : l4[i]? with
    | none => rfl
    | some o =>
      simp only
      by_cases hn : o.node_num = fine_id p
      · have := h i o hi2 ho hn
        simp [hn, this]
      · simp [hn]
  rw [hfind]
  cases hf : (List.range 128).find? (fun i =>
      match l4[i]? with
      | some o => decide (o.count ≠ 0) && decide (o.node_num = fine_id p)
      | none => false) with
  | none =>
    have := coarse_id_lt p
    show (coarse_id p + 64) % 256 = 64 + coarse_id p
    omega
  | some i =>
    have hi : i < 128 := List.mem_range.mp (List.mem_of_find?_eq_some hf)
    show (i + 128) % 256 = 128 + i
    omega

/-- C20, as amended: for every histogram produced by accumulating a pixel stream
and sorting, and for every pixel value that occurs in the stream, or more generally
whose fine id is not the id of an empty bucket ranked below 128, the linear scan of
`vga_conventer` returns the index that the lookup table gives. -/
theorem scan_matches_table_on_populated (stream : List Nat) (sorted : List octree)
    (hq : IsQsorted (accumulate stream).level_4 sorted) (pixel : Nat)
    (hpix : pixel ∈ stream ∨
      ∀ (i : Nat) (o : octree), i < 128 → sorted[i]? = some o →
        o.node_num = fine_id pixel → o.count ≠ 0) :
    vga_conventer sorted pixel = vga_by_table sorted pixel := by
  apply scan_eq_table
  rcases hpix with hp | hgen
  · intro i o _ ho hn
    have hm := (sorted_mem stream sorted hq o (List.mem_iff_getElem?.mpr ⟨i, ho⟩)).2
    rw [hn] at hm
    have := fine_hist_count_pos stream pixel hp
    rw [hm]; omega
  · exact hgen

theorem scan_matches_table_on_populated_witness :
    (IsQsorted (accumulate sample_stream).level_4 sample_sorted ∧
      (0x1F ∈ sample_stream ∨
        ∀ (i : Nat) (o : octree), i < 128 → sample_sorted[i]? = some o →
          o.node_num = fine_id 0x1F → o.count ≠ 0)) ∧
    vga_conventer sample_sorted 0x1F = vga_by_table sample_sorted 0x1F :=
  ⟨⟨qsort_model_spec (accumulate sample_stream).level_4, Or.inl (by simp [sample_stream])⟩,
   scan_matches_table_on_populated sample_stream sample_sorted
     (qsort_model_spec (accumulate sample_stream).level_4) 0x1F
     (Or.inl (by simp [sample_stream]))⟩

theorem one_black_pixel_count (j : Nat) (hj : j ≠ 0) : (fine_hist [0] j).count = 0 := by
  have h0 : fine_id 0 = 0 := by decide
  have : [0].filter (fun p => decide (fine_id p = j)) = [] := by
    simp [h0, hj.symm]
  show (((([0] : List Nat).filter (fun p => decide (fine_id p = j))).length : Nat) : Int) = 0
  rw [this]; rfl

theorem one_black_pixel_sorted :
    IsQsorted (accumulate [0]).level_4 (accumulate [0]).level_4 := by
  refine ⟨List.Perm.refl _, ?_⟩
  rw [accumulate_level_4, List.pairwise_map]
  apply (List.pairwise_lt_range level_4_size).imp
  intro i j hij
  rw [qsort_comp_le, one_black_pixel_count j (by omega)]
  exact Int.ofNat_nonneg _

/-- C20, counterexample: for the stream of one black pixel, whose accumulated fine
array is already in sorted order, and the pixel value 2 (fine id 1, not in the
stream), the scan of `vga_conventer` stops at the empty bucket of rank 1 and
returns 129, whereas the table, which holds promoted buckets only, gives
64 + coarse id = 64. -/
theorem scan_differs_from_table_off_stream :
    IsQsorted (accumulate [0]).level_4 (accumulate [0]).level_4 ∧
    vga_conventer (accumulate [0]).level_4 2 = 129 ∧
    vga_by_table (accumulate [0]).level_4 2 = 64 := by
  have hf : fine_id 2 = 1 := by decide
  have hc : coarse_id 2 = 0 := by decide
  have h1 : (accumulate [0]).level_4[1]? = some (fine_hist [0] 1) :=
    level_4_getElem? [0] 1 (by omega)
  refine ⟨one_black_pixel_sorted, ?_, ?_⟩
  · rcases vga_cases (accumulate [0]).level_4 2 with ⟨i, o, hi, ho, hn, hv⟩ | ⟨hno, _⟩
    · rw [level_4_getElem? [0] i (by omega)] at ho
      have ho2 : fine_hist [0] i = o := Option.some.inj ho
      have : i = 1 := by
        rw [← ho2, hf] at hn
        exact hn
      omega
    · exact absurd (by rw [hf]; rfl) (hno 1 (fine_hist [0] 1) (by omega) h1)
  · rw [vga_by_table_eq, hc]
    have hnone : (List.range 128).find? (fun i =>
        match (accumulate [0]).level_4[i]? with
        | some o => decide (o.count ≠ 0) && decide (o.node_num = fine_id 2)
        | none => false) = none := by
      rw [List.find?_eq_none]
      intro i hi
      have hi2 : i < 128 := List.mem_range.mp hi
      rw [level_4_getElem? [0] i (by omega)]
      simp only [hf]
      by_cases he : i = 1
      · subst he
        have := one_black_pixel_count 1 (by omega)
        simp [this]
      · have : (fine_hist [0] i).node_num ≠ 1 := he
        simp [this]
    rw [hnone]

/-! ## When a load fails -/

theorem obj_pass_ok (width : Nat) (cs : List (Nat × Nat)) (ws img : List Nat)
    (h : cs.length ≤ ws.length) : ∃ img2, obj_pass width cs ws img = some img2 := by
  induction cs generalizing ws img with
  | nil => exact ⟨img, rfl⟩
  | cons c cs ih =>
    cases ws with
    | nil => simp at h
    | cons w ws =>
      obtain ⟨y, x⟩ := c
      obtain ⟨img2, h1⟩ := ih ws (img.set (width * y + x) w) (by simpa using h)
      exact ⟨img2, by simpa [obj_pass] using h1⟩

theorem obj_pass_short (width : Nat) (cs : List (Nat × Nat)) (ws img : List Nat)
    (h : ws.length < cs.length) : obj_pass width cs ws img = none := by
  induction cs generalizing ws img with
  | nil => simp at h
  | cons c cs ih =>
    cases ws with
    | nil => rfl
    | cons w ws =>
      obtain ⟨y, x⟩ := c
      simp only [obj_pass]
      exact ih ws _ (by simpa using h)

theorem read_photo_fails_iff (maxw maxh : Nat) (qsort : List octree → List octree)
    (mem : Nat → Nat) (prev : Hist) (width height : Nat) (pixels : List Nat) :
    (read_photo maxw maxh qsort mem prev (width :: height :: pixels)).1 = none ↔
      maxw < width ∨ maxh < height ∨ pixels.length < width * height := by
  constructor
  · intro hnone
    by_contra hcon
    obtain ⟨ph, hph, _⟩ := read_photo_ok maxw maxh qsort mem prev width height pixels
      (by omega) (by omega) (by omega)
    rw [hnone] at hph
    cases hph
  · intro h
    by_cases hdim : maxw < width ∨ maxh < height
    · unfold read_photo
      simp only
      rw [if_pos hdim]
    · have hshort : pixels.length < width * height := by omega
      have hfp := first_pass_short (scan_order width height) pixels (reset_levels prev)
        (by rw [scan_order_length]; exact hshort)
      unfold read_photo
      simp only
      rw [if_neg hdim, if_pos hfp]

theorem read_obj_image_fails_iff (maxw maxh : Nat) (mem : Nat → Nat)
    (width height : Nat) (pixels : List Nat) :
    read_obj_image maxw maxh mem (width :: height :: pixels) = none ↔
      maxw < width ∨ maxh < height ∨ pixels.length < width * height := by
  constructor
  · intro hnone
    by_contra hcon
    obtain ⟨img2, h2⟩ := obj_pass_ok width (scan_order width height) pixels
      ((List.range (width * height)).map mem) (by rw [scan_order_length]; omega)
    unfold read_obj_image at hnone
    simp only at hnone
    rw [if_neg (by omega), h2] at hnone
    cases hnone
  · intro h
    by_cases hdim : maxw < width ∨ maxh < height
    · unfold read_obj_image
      simp only
      rw [if_pos hdim]
    · have hshort : pixels.length < width * height := by omega
      have hop := obj_pass_short width (scan_order width height) pixels
        ((List.range (width * height)).map mem) (by rw [scan_order_length]; exact hshort)
      unfold read_obj_image
      simp only
      rw [if_neg hdim, hop]

/-- C15: for a file that opens and holds a header, and allocations that succeed,
`read_photo` returns no photo exactly when the width exceeds `MAX_PHOTO_WIDTH`, or
the height exceeds `MAX_PHOTO_HEIGHT`, or fewer than width*height 16-bit pixels
follow the header; `read_obj_image` does the same with `MAX_OBJECT_WIDTH`,
`MAX_OBJECT_HEIGHT` and one-byte pixels; dimensions equal to the maxima are
accepted when the pixels are there. -/
theorem load_fails_exactly_when (MAX_PHOTO_WIDTH MAX_PHOTO_HEIGHT : Nat)
    (MAX_OBJECT_WIDTH MAX_OBJECT_HEIGHT : Nat) (qsort : List octree → List octree)
    (mem : Nat → Nat) (prev : Hist) (width height : Nat) (pixels : List Nat) :
    ((read_photo MAX_PHOTO_WIDTH MAX_PHOTO_HEIGHT qsort mem prev
        (width :: height :: pixels)).1 = none ↔
      MAX_PHOTO_WIDTH < width ∨ MAX_PHOTO_HEIGHT < height ∨
        pixels.length < width * height) ∧
    (read_obj_image MAX_OBJECT_WIDTH MAX_OBJECT_HEIGHT mem (width :: height :: pixels) = none ↔
      MAX_OBJECT_WIDTH < width ∨ MAX_OBJECT_HEIGHT < height ∨
        pixels.length < width * height) ∧
    (width * height ≤ pixels.length →
      (read_photo width height qsort mem prev (width :: height :: pixels)).1 ≠ none ∧
      read_obj_image width height mem (width :: height :: pixels) ≠ none) := by
  refine ⟨read_photo_fails_iff _ _ _ _ _ _ _ _, read_obj_image_fails_iff _ _ _ _ _ _, ?_⟩
  intro hlen
  constructor
  · intro h
    have := (read_photo_fails_iff width height qsort mem prev width height pixels).mp h
    omega
  · intro h
    have := (read_obj_image_fails_iff width height mem width height pixels).mp h
    omega

theorem load_fails_exactly_when_witness :
    ((read_photo 2 1 qsort_model (fun _ => 0) reset_hist (2 :: 1 :: [0xF800, 0x1F])).1 = none ↔
      2 < 2 ∨ 1 < 1 ∨ [0xF800, 0x1F].length < 2 * 1) ∧
    (read_obj_image 2 1 (fun _ => 0) (2 :: 1 :: [0xF800, 0x1F]) = none ↔
      2 < 2 ∨ 1 < 1 ∨ [0xF800, 0x1F].length < 2 * 1) ∧
    (2 * 1 ≤ [0xF800, 0x1F].length →
      (read_photo 2 1 qsort_model (fun _ => 0) reset_hist (2 :: 1 :: [0xF800, 0x1F])).1 ≠ none ∧
      read_obj_image 2 1 (fun _ => 0) (2 :: 1 :: [0xF800, 0x1F]) ≠ none) :=
  load_fails_exactly_when 2 1 2 1 qsort_model (fun _ => 0) reset_hist 2 1 [0xF800, 0x1F]

/-! ## What the second pass stores where -/

theorem scan_order_succ (width height : Nat) :
    scan_order width (height + 1) =
      (List.range width).map (fun x => (height, x)) ++ scan_order width height := by
  unfold scan_order
  rw [List.range_succ, List.reverse_append, List.reverse_singleton, List.singleton_append,
    List.flatMap_cons]

theorem scan_order_getElem? (width height k : Nat) (hk : k < width * height) :
    (scan_order width height)[k]? = some (height - 1 - k / width, k % width) := by
  induction height generalizing k with
  | zero => simp at hk
  | succ h ih =>
    have hw : 0 < width := by
      rcases Nat.eq_zero_or_pos width with h0 | h0
      · subst h0; simp at hk
      · exact h0
    rw [scan_order_succ]
    by_cases hlt : k < width
    · rw [List.getElem?_append_left (by simpa using hlt)]
      simp only [List.getElem?_map, List.getElem?_range hlt, Option.map_some']
      rw [Nat.div_eq_of_lt hlt, Nat.mod_eq_of_lt hlt]
      simp
    · have hge : width ≤ k := by omega
      rw [List.getElem?_append_right (by simpa using hge)]
      simp only [List.length_map, List.length_range]
      have hk2 : k - width < width * h := by
        rw [Nat.mul_succ] at hk; omega
      rw [ih (k - width) hk2]
      have hdiv : k / width = (k - width) / width + 1 := by
        conv_lhs => rw [show k = (k - width) + width by omega]
        rw [Nat.add_div_right _ hw]
      have hmod : k % width = (k - width) % width := by
        conv_lhs => rw [show k = (k - width) + width by omega]
        rw [Nat.add_mod_right]
      have hle : (k - width) / width < h := by
        apply Nat.div_lt_of_lt_mul; exact hk2
      rw [hdiv, hmod]
      congr 2
      omega

/-- The cell `m` holds the index of the word read at the last visit that stores
to `m`. -/
theorem second_pass_cell (l4 : List octree) (width : Nat) (cs : List (Nat × Nat))
    (ws img : List Nat) (h : cs.length ≤ ws.length) (k y x v m : Nat)
    (hc : cs[k]? = some (y, x)) (hv : ws[k]? = some v)
    (hm : (width : Int) * y + x - 2 = m) (hlen : m < img.length)
    (hlater : ∀ (k2 : Nat) (c : Nat × Nat), k < k2 → cs[k2]? = some c →
      (width : Int) * c.1 + c.2 - 2 ≠ m) :
    ∃ img2, second_pass l4 width cs ws img = some img2 ∧
      img2[m]? = some (vga_conventer l4 v) := by
  induction cs generalizing ws img k with
  | nil => simp at hc
  | cons c cs ih =>
    cases ws with
    | nil => simp at h
    | cons w ws =>
      obtain ⟨cy, cx⟩ := c
      have hlen2 : cs.length ≤ ws.length := by simpa using h
      cases k with
      | zero =>
        simp only [List.getElem?_cons_zero, Option.some.injEq, Prod.mk.injEq] at hc hv
        obtain ⟨rfl, rfl⟩ := hc
        subst hv
        obtain ⟨img2, h1, _, h3⟩ := second_pass_ok l4 width cs ws
          (store_pixel l4 width img cy cx w) hlen2
        refine ⟨img2, by simpa [second_pass] using h1, ?_⟩
        rw [h3 m]
        · unfold store_pixel
          rw [if_neg (by omega), hm, Int.toNat_ofNat, List.getElem?_set_self hlen]
        · intro c hcm
          obtain ⟨n, hn⟩ := List.mem_iff_getElem?.mp hcm
          exact hlater (n + 1) c (by omega) (by simpa using hn)
      | succ k =>
        obtain ⟨img2, h1, h2⟩ := ih ws (store_pixel l4 width img cy cx w) hlen2 k
          (by simpa using hc) (by simpa using hv)
          (by rw [store_pixel_length]; exact hlen)
          (fun k2 c hk2 hc2 => hlater (k2 + 1) c (by omega) (by simpa using hc2))
        exact ⟨img2, by simpa [second_pass] using h1, h2⟩

theorem store_index_inj (width height k k2 : Nat) (hw : 0 < width)
    (hk : k < width * height) (hk2 : k2 < width * height)
    (he : width * (height - 1 - k / width) + k % width =
      width * (height - 1 - k2 / width) + k2 % width) : k = k2 := by
  have hm1 : k % width < width := Nat.mod_lt _ hw
  have hm2 : k2 % width < width := Nat.mod_lt _ hw
  have hmod : k % width = k2 % width := by
    have := congrArg (· % width) he
    simp only [Nat.mul_add_mod, Nat.mod_mod] at this
    exact this
  have hdivs : height - 1 - k / width = height - 1 - k2 / width := by
    have := congrArg (· / width) he
    simp only at this
    rw [Nat.mul_add_div hw, Nat.mul_add_div hw, Nat.div_eq_of_lt hm1, Nat.div_eq_of_lt hm2]
      at this
    simpa using this
  have hd1 : k / width < height := Nat.div_lt_of_lt_mul hk
  have hd2 : k2 / width < height := Nat.div_lt_of_lt_mul hk2
  have hdiv : k / width = k2 / width := by omega
  have e1 := Nat.div_add_mod k width
  have e2 := Nat.div_add_mod k2 width
  rw [hdiv, hmod] at e1
  omega

theorem word_stored_at_spec (width height m : Nat) (hm : m + 2 < width * height) :
    word_stored_at width height m < width * height ∧
    height - 1 - word_stored_at width height m / width = (m + 2) / width ∧
    word_stored_at width height m % width = (m + 2) % width ∧
    width * ((m + 2) / width) + (m + 2) % width = m + 2 := by
  have hw : 0 < width := by
    rcases Nat.eq_zero_or_pos width with h0 | h0
    · subst h0; simp at hm
    · exact h0
  have hx : (m + 2) % width < width := Nat.mod_lt _ hw
  have hy : (m + 2) / width < height := Nat.div_lt_of_lt_mul hm
  have hdm := Nat.div_add_mod (m + 2) width
  unfold word_stored_at
  generalize (m + 2) / width = y at *
  generalize (m + 2) % width = x at *
  have hdiv : ((height - 1 - y) * width + x) / width = height - 1 - y := by
    rw [Nat.mul_comm, Nat.mul_add_div hw, Nat.div_eq_of_lt hx, Nat.add_zero]
  have hmod : ((height - 1 - y) * width + x) % width = x := by
    rw [Nat.mul_comm, Nat.mul_add_mod, Nat.mod_eq_of_lt hx]
  refine ⟨?_, ?_, hmod, hdm⟩
  · have h1 : (height - 1 - y + 1) * width ≤ height * width :=
      Nat.mul_le_mul_right _ (by omega)
    rw [Nat.succ_mul] at h1
    rw [Nat.mul_comm width height]
    omega
  · rw [hdiv]; omega

/-- The buffer of a loaded photo, cell by cell: the cell `m` with
`m + 2 < width * height` holds the index `vga_conventer` gives for the word of the
file at position `word_stored_at width height m`, counted from the start of the
file, header included. -/
theorem read_photo_img (maxw maxh : Nat) (qsort : List octree → List octree) (mem : Nat → Nat)
    (prev : Hist) (width height : Nat) (pixels : List Nat)
    (h4 : prev.level_4.length = 4096) (h2 : prev.level_2.length = 64)
    (hw : width ≤ maxw) (hh : height ≤ maxh) (hlen : width * height ≤ pixels.length)
    (m : Nat) (hm : m + 2 < width * height) :
    ∃ ph v, (read_photo maxw maxh qsort mem prev (width :: height :: pixels)).1 = some ph ∧
      ph.hdr = ⟨width, height⟩ ∧
      ph.palette = (select_palette (qsort (accumulate (pixels.take (width * height))).level_4)
        (accumulate (pixels.take (width * height))).level_2).1 ∧
      (width :: height :: pixels)[word_stored_at width height m]? = some v ∧
      ph.img[m]? =
        some (vga_conventer (qsort (accumulate (pixels.take (width * height))).level_4) v) := by
  obtain ⟨hk, hy, hx, hsum⟩ := word_stored_at_spec width height m hm
  have hwpos : 0 < width := by
    rcases Nat.eq_zero_or_pos width with h0 | h0
    · subst h0; simp at hm
    · exact h0
  have hc := scan_order_getElem? width height _ hk
  rw [hy, hx] at hc
  have hfile : word_stored_at width height m < (width :: height :: pixels).length := by
    simp only [List.length_cons]; omega
  have hv : (width :: height :: pixels)[word_stored_at width height m]? =
      some ((width :: height :: pixels)[word_stored_at width height m]) :=
    List.getElem?_eq_getElem hfile
  have hmi : (width : Int) * ((m + 2) / width : Nat) + ((m + 2) % width : Nat) - 2 = (m : Int) := by
    have : ((width * ((m + 2) / width) + (m + 2) % width : Nat) : Int) = ((m + 2 : Nat) : Int) := by
      rw [hsum]
    push_cast at this
    omega
  obtain ⟨img2, hsp, hcell⟩ := second_pass_cell
    (qsort (accumulate (pixels.take (width * height))).level_4) width
    (scan_order width height) (width :: height :: pixels)
    ((List.range (width * height)).map mem)
    (by rw [scan_order_length]; simp only [List.length_cons]; omega)
    (word_stored_at width height m) ((m + 2) / width) ((m + 2) % width) _ m hc hv hmi
    (by simp; omega)
    (by
      intro k2 c hk2 hc2 he
      have hk2lt : k2 < width * height := by
        have := (List.getElem?_eq_some.mp hc2).1
        rw [scan_order_length] at this
        exact this
      rw [scan_order_getElem? width height k2 hk2lt] at hc2
      have hc3 : (height - 1 - k2 / width, k2 % width) = c := Option.some.inj hc2
      rw [← hc3] at he
      simp only at he
      have he2 : width * (height - 1 - k2 / width) + k2 % width = m + 2 := by
        have : ((width * (height - 1 - k2 / width) + k2 % width : Nat) : Int)
            = ((m + 2 : Nat) : Int) := by
          push_cast; omega
        exact_mod_cast this
      have := store_index_inj width height (word_stored_at width height m) k2 hwpos hk hk2lt
        (by rw [hy, hx, hsum, he2])
      omega)
  exact ⟨_, _, read_photo_eq maxw maxh qsort mem prev width height pixels img2 h4 h2 hw hh hlen
    hsp, rfl, rfl, hv, hcell⟩

/-! ## A load does not depend on what the histogram held before -/

theorem add_pixel_length (a : List octree) (i r g b : Nat) :
    (add_pixel a i r g b).length = a.length := by
  unfold add_pixel
  cases a[i]? <;> simp

theorem first_pass_sizes (cs : List (Nat × Nat)) (ws : List Nat) (st : Hist) :
    (first_pass cs ws st).2.level_4.length = st.level_4.length ∧
    (first_pass cs ws st).2.level_2.length = st.level_2.length := by
  induction cs generalizing ws st with
  | nil => exact ⟨rfl, rfl⟩
  | cons c cs ih =>
    cases ws with
    | nil => exact ⟨rfl, rfl⟩
    | cons w ws =>
      simp only [first_pass]
      have := ih ws (map_to_octree st w)
      rw [map_to_octree_eq] at this
      simp only [add_pixel_length] at this
      rw [map_to_octree_eq]
      exact this

theorem read_photo_hdr_palette (maxw maxh : Nat) (qsort : List octree → List octree)
    (mem : Nat → Nat) (prev : Hist) (width height : Nat) (pixels : List Nat)
    (h4 : prev.level_4.length = 4096) (h2 : prev.level_2.length = 64)
    (hw : width ≤ maxw) (hh : height ≤ maxh) (hlen : width * height ≤ pixels.length) :
    ∃ ph, (read_photo maxw maxh qsort mem prev (width :: height :: pixels)).1 = some ph ∧
      ph.hdr = ⟨width, height⟩ ∧
      ph.palette = (select_palette (qsort (accumulate (pixels.take (width * height))).level_4)
        (accumulate (pixels.take (width * height))).level_2).1 := by
  obtain ⟨img2, hsp, _⟩ := second_pass_ok
    (qsort (accumulate (pixels.take (width * height))).level_4) width
    (scan_order width height) (width :: height :: pixels)
    ((List.range (width * height)).map mem)
    (by rw [scan_order_length]; simp only [List.length_cons]; omega)
  exact ⟨_, read_photo_eq maxw maxh qsort mem prev width height pixels img2 h4 h2 hw hh hlen hsp,
    rfl, rfl⟩

/-- With the same allocated bytes, the photo does not depend on the previous
contents of the histogram arrays. -/
theorem read_photo_prev_irrelevant (maxw maxh : Nat) (qsort : List octree → List octree)
    (mem : Nat → Nat) (prev1 prev2 : Hist) (file : List Nat)
    (h14 : prev1.level_4.length = 4096) (h12 : prev1.level_2.length = 64)
    (h24 : prev2.level_4.length = 4096) (h22 : prev2.level_2.length = 64) :
    (read_photo maxw maxh qsort mem prev1 file).1 =
      (read_photo maxw maxh qsort mem prev2 file).1 := by
  unfold read_photo
  split
  · rename_i width height pixels
    simp only
    by_cases hdim : maxw < width ∨ maxh < height
    · rw [if_pos hdim, if_pos hdim]
    · rw [if_neg hdim, if_neg hdim, reset_levels_eq prev1 h14 h12, reset_levels_eq prev2 h24 h22]
  · rfl

/-- The histogram arrays keep their sizes across a load. -/
theorem read_photo_state_sizes (maxw maxh : Nat) (qsort : List octree → List octree)
    (hq : ∀ l, IsQsorted l (qsort l)) (mem : Nat → Nat) (prev : Hist) (file : List Nat)
    (h4 : prev.level_4.length = 4096) (h2 : prev.level_2.length = 64) :
    (read_photo maxw maxh qsort mem prev file).2.level_4.length = 4096 ∧
    (read_photo maxw maxh qsort mem prev file).2.level_2.length = 64 := by
  unfold read_photo
  split
  · rename_i width height pixels
    simp only
    by_cases hdim : maxw < width ∨ maxh < height
    · rw [if_pos hdim]; exact ⟨h4, h2⟩
    · rw [if_neg hdim, reset_levels_eq prev h4 h2]
      have hs := first_pass_sizes (scan_order width height) pixels reset_hist
      rw [reset_hist_sizes.1, reset_hist_sizes.2] at hs
      by_cases hfp : (first_pass (scan_order width height) pixels reset_hist).1 = false
      · rw [if_pos hfp]; exact hs
      · rw [if_neg hfp]
        have hl4 : (qsort (first_pass (scan_order width height) pixels reset_hist).2.level_4).length
            = 4096 := by
          rw [(hq _).1.length_eq]; exact hs.1
        have hl2 : (select_palette
            (qsort (first_pass (scan_order width height) pixels reset_hist).2.level_4)
            (first_pass (scan_order width height) pixels reset_hist).2.level_2).2.length = 64 := by
          unfold select_palette
          simp only
          rw [fine_loop_level_2_length]; exact hs.2
        split <;> exact ⟨hl4, hl2⟩
  · exact ⟨h4, h2⟩

theorem read_photo_no_header (maxw maxh : Nat) (qsort : List octree → List octree)
    (mem : Nat → Nat) (prev : Hist) (file : List Nat) (hshort : file.length < 2) :
    (read_photo maxw maxh qsort mem prev file).1 = none := by
  rcases file with _ | ⟨w, _ | ⟨h, pixels⟩⟩
  · rfl
  · rfl
  · simp only [List.length_cons] at hshort
    omega

/-- What two loads of the same file have in common whatever the two histogram
arrays held before each load: with the same allocated bytes the photos are
identical; in every case both loads fail or both succeed, with the same header,
the same palette and the same index in every cell the second pass stores to; and
the arrays a load leaves behind have the sizes the next load relies on. -/
theorem load_ignores_earlier_histogram (maxw maxh : Nat) (qsort : List octree → List octree)
    (hq : ∀ l, IsQsorted l (qsort l)) (mem1 mem2 : Nat → Nat) (prev1 prev2 : Hist)
    (file : List Nat)
    (h14 : prev1.level_4.length = 4096) (h12 : prev1.level_2.length = 64)
    (h24 : prev2.level_4.length = 4096) (h22 : prev2.level_2.length = 64) :
    (read_photo maxw maxh qsort mem1 prev1 file).1 =
      (read_photo maxw maxh qsort mem1 prev2 file).1 ∧
    ((read_photo maxw maxh qsort mem1 prev1 file).1 = none ↔
      (read_photo maxw maxh qsort mem2 prev2 file).1 = none) ∧
    (∀ p1 p2, (read_photo maxw maxh qsort mem1 prev1 file).1 = some p1 →
      (read_photo maxw maxh qsort mem2 prev2 file).1 = some p2 →
      p1.hdr = p2.hdr ∧ p1.palette = p2.palette ∧
      ∀ m, m + 2 < p1.hdr.width * p1.hdr.height → p1.img[m]? = p2.img[m]?) ∧
    ((read_photo maxw maxh qsort mem1 prev1 file).2.level_4.length = 4096 ∧
      (read_photo maxw maxh qsort mem1 prev1 file).2.level_2.length = 64) := by
  refine ⟨read_photo_prev_irrelevant maxw maxh qsort mem1 prev1 prev2 file h14 h12 h24 h22,
    ?_, ?_, read_photo_state_sizes maxw maxh qsort hq mem1 prev1 file h14 h12⟩
  · rcases file with _ | ⟨w, _ | ⟨h, pixels⟩⟩
    · exact ⟨fun _ => rfl, fun _ => rfl⟩
    · exact ⟨fun _ => rfl, fun _ => rfl⟩
    · rw [read_photo_fails_iff, read_photo_fails_iff]
  · intro p1 p2 hp1 hp2
    rcases file with _ | ⟨w, _ | ⟨h, pixels⟩⟩
    · cases hp1
    · cases hp1
    · have hok : ¬ (maxw < w ∨ maxh < h ∨ pixels.length < w * h) := by
        intro hbad
        rw [(read_photo_fails_iff maxw maxh qsort mem1 prev1 w h pixels).mpr hbad] at hp1
        cases hp1
      obtain ⟨q1, e1, a1, b1⟩ := read_photo_hdr_palette maxw maxh qsort mem1 prev1 w h pixels
        h14 h12 (by omega) (by omega) (by omega)
      obtain ⟨q2, e2, a2, b2⟩ := read_photo_hdr_palette maxw maxh qsort mem2 prev2 w h pixels
        h24 h22 (by omega) (by omega) (by omega)
      rw [hp1] at e1
      rw [hp2] at e2
      have hq1 : p1 = q1 := Option.some.inj e1
      have hq2 : p2 = q2 := Option.some.inj e2
      subst hq1 hq2
      refine ⟨by rw [a1, a2], by rw [b1, b2], ?_⟩
      intro m hm
      rw [a1] at hm
      obtain ⟨r1, v1, f1, _, _, g1, c1⟩ := read_photo_img maxw maxh qsort mem1 prev1 w h pixels
        h14 h12 (by omega) (by omega) (by omega) m hm
      obtain ⟨r2, v2, f2, _, _, g2, c2⟩ := read_photo_img maxw maxh qsort mem2 prev2 w h pixels
        h24 h22 (by omega) (by omega) (by omega) m hm
      rw [hp1] at f1
      rw [hp2] at f2
      have hr1 : p1 = r1 := Option.some.inj f1
      have hr2 : p2 = r2 := Option.some.inj f2
      subst hr1 hr2
      rw [g1] at g2
      have hv : v1 = v2 := Option.some.inj g2
      rw [c1, c2, hv]

theorem load_ignores_earlier_histogram_witness :
    ((∀ l, IsQsorted l (qsort_model l)) ∧
      (reset_hist.level_4.length = 4096 ∧ reset_hist.level_2.length = 64) ∧
      ((accumulate sample_stream).level_4.length = 4096 ∧
        (accumulate sample_stream).level_2.length = 64)) ∧
    ((read_photo 2 1 qsort_model (fun _ => 0) reset_hist [2, 1, 0xF800, 0x1F]).1 =
      (read_photo 2 1 qsort_model (fun _ => 0) (accumulate sample_stream)
        [2, 1, 0xF800, 0x1F]).1 ∧
    ((read_photo 2 1 qsort_model (fun _ => 0) reset_hist [2, 1, 0xF800, 0x1F]).1 = none ↔
      (read_photo 2 1 qsort_model (fun _ => 7) (accumulate sample_stream)
        [2, 1, 0xF800, 0x1F]).1 = none) ∧
    (∀ p1 p2, (read_photo 2 1 qsort_model (fun _ => 0) reset_hist [2, 1, 0xF800, 0x1F]).1
        = some p1 →
      (read_photo 2 1 qsort_model (fun _ => 7) (accumulate sample_stream)
        [2, 1, 0xF800, 0x1F]).1 = some p2 →
      p1.hdr = p2.hdr ∧ p1.palette = p2.palette ∧
      ∀ m, m + 2 < p1.hdr.width * p1.hdr.height → p1.img[m]? = p2.img[m]?) ∧
    ((read_photo 2 1 qsort_model (fun _ => 0) reset_hist [2, 1, 0xF800, 0x1F]).2.level_4.length
        = 4096 ∧
      (read_photo 2 1 qsort_model (fun _ => 0) reset_hist [2, 1, 0xF800, 0x1F]).2.level_2.length
        = 64)) :=
  ⟨⟨qsort_model_spec, reset_hist_sizes,
    ⟨by rw [accumulate_level_4]; simp [level_4_size], level_2_length sample_stream⟩⟩,
   load_ignores_earlier_histogram 2 1 qsort_model qsort_model_spec (fun _ => 0) (fun _ => 7)
     reset_hist (accumulate sample_stream) [2, 1, 0xF800, 0x1F]
     reset_hist_sizes.1 reset_hist_sizes.2
     (by rw [accumulate_level_4]; simp [level_4_size]) (level_2_length sample_stream)⟩

/-- C14, as the code behaves: two loads of the same 2x2 file, one starting from
the reset histogram and one from the histogram another stream left behind, give
the same header, the same palette and the same index in the two cells the second
pass stores to, however `qsort` orders equal counts, but not the same photo: the
cells `img[2]` and `img[3]` are never stored to and keep the bytes of the
allocated buffer, 0 in one load and 7 in the other. -/
theorem reload_differs_in_unwritten_cells :
    ∀ qsort : List octree → List octree,
      (read_photo 1024 1024 qsort (fun _ => 0) reset_hist
          [2, 2, 0xF800, 0xF800, 0x1F, 0x1F]).1 =
        some ⟨⟨2, 2⟩,
          (select_palette (qsort (accumulate [0xF800, 0xF800, 0x1F, 0x1F]).level_4)
            (accumulate [0xF800, 0xF800, 0x1F, 0x1F]).level_2).1,
          [vga_conventer (qsort (accumulate [0xF800, 0xF800, 0x1F, 0x1F]).level_4) 2,
           vga_conventer (qsort (accumulate [0xF800, 0xF800, 0x1F, 0x1F]).level_4) 2,
           0, 0]⟩ ∧
      (read_photo 1024 1024 qsort (fun _ => 7) (accumulate sample_stream)
          [2, 2, 0xF800, 0xF800, 0x1F, 0x1F]).1 =
        some ⟨⟨2, 2⟩,
          (select_palette (qsort (accumulate [0xF800, 0xF800, 0x1F, 0x1F]).level_4)
            (accumulate [0xF800, 0xF800, 0x1F, 0x1F]).level_2).1,
          [vga_conventer (qsort (accumulate [0xF800, 0xF800, 0x1F, 0x1F]).level_4) 2,
           vga_conventer (qsort (accumulate [0xF800, 0xF800, 0x1F, 0x1F]).level_4) 2,
           7, 7]⟩ ∧
      (read_photo 1024 1024 qsort (fun _ => 0) reset_hist
          [2, 2, 0xF800, 0xF800, 0x1F, 0x1F]).1 ≠
        (read_photo 1024 1024 qsort (fun _ => 7) (accumulate sample_stream)
          [2, 2, 0xF800, 0xF800, 0x1F, 0x1F]).1 := by
  intro qsort
  have h : scan_order 2 2 = [(1, 0), (1, 1), (0, 0), (0, 1)] := by decide
  have e1 := read_photo_eq 1024 1024 qsort (fun _ => 0) reset_hist 2 2
    [0xF800, 0xF800, 0x1F, 0x1F]
    [vga_conventer (qsort (accumulate [0xF800, 0xF800, 0x1F, 0x1F]).level_4) 2,
     vga_conventer (qsort (accumulate [0xF800, 0xF800, 0x1F, 0x1F]).level_4) 2, 0, 0]
    reset_hist_sizes.1 reset_hist_sizes.2 (by omega) (by omega) (by simp)
    (by rw [h]; simp [second_pass, store_pixel])
  have e2 := read_photo_eq 1024 1024 qsort (fun _ => 7) (accumulate sample_stream) 2 2
    [0xF800, 0xF800, 0x1F, 0x1F]
    [vga_conventer (qsort (accumulate [0xF800, 0xF800, 0x1F, 0x1F]).level_4) 2,
     vga_conventer (qsort (accumulate [0xF800, 0xF800, 0x1F, 0x1F]).level_4) 2, 7, 7]
    (by rw [accumulate_level_4]; simp [level_4_size]) (level_2_length sample_stream)
    (by omega) (by omega) (by simp)
    (by rw [h]; simp [second_pass, store_pixel])
  refine ⟨e1, e2, ?_⟩
  rw [e1, e2]
  intro hsame
  have himg := congrArg photo_t.img (Option.some.inj hsame)
  simp at himg

/-! ## The values each pass works on -/

theorem first_pass_uses_args (cs : List (Nat × Nat)) (ws : List Nat) (st : Hist) :
    (first_pass cs ws st).2 = (first_pass_args cs ws).foldl map_to_octree st := by
  induction cs generalizing ws st with
  | nil => rfl
  | cons c cs ih =>
    cases ws with
    | nil => rfl
    | cons w ws =>
      simp only [first_pass, first_pass_args, List.foldl_cons]
      exact ih ws _

theorem second_pass_uses_calls (l4 : List octree) (width : Nat) (cs : List (Nat × Nat))
    (ws img img2 : List Nat) (h : second_pass l4 width cs ws img = some img2) :
    img2 = (second_pass_calls width cs ws).foldl
      (fun buf call => buf.set call.1 (vga_conventer l4 call.2)) img := by
  induction cs generalizing ws img with
  | nil =>
    simp only [second_pass, Option.some.injEq] at h
    simp [second_pass_calls, h]
  | cons c cs ih =>
    cases ws with
    | nil => simp [second_pass] at h
    | cons w ws =>
      obtain ⟨y, x⟩ := c
      simp only [second_pass] at h
      have := ih ws _ h
      rw [this]
      unfold store_pixel
      simp only [second_pass_calls]
      by_cases hneg : (width : Int) * y + x - 2 < 0
      · rw [if_pos hneg, if_pos hneg]
      · rw [if_neg hneg, if_neg hneg, List.foldl_cons]

/-- C17 (the code at a failing input): for the 2x2 file with pixels
0xF800, 0xF800, 0x1F, 0x1F, `read_photo` succeeds; its first pass hands
0xF800, 0xF800, 0x1F, 0x1F to `map_to_octree`, and its second pass, reading from
the start of the file, makes two calls of `vga_conventer` only, both with the
header word 2, for the cells 0 and 1. -/
theorem second_pass_reads_header_words :
    ∀ qsort : List octree → List octree,
      (∃ ph, (read_photo 1024 1024 qsort (fun _ => 0) reset_hist
          [2, 2, 0xF800, 0xF800, 0x1F, 0x1F]).1 = some ph ∧
        ph.img = (second_pass_calls 2 (scan_order 2 2) [2, 2, 0xF800, 0xF800, 0x1F, 0x1F]).foldl
          (fun buf call => buf.set call.1
            (vga_conventer (qsort (accumulate [0xF800, 0xF800, 0x1F, 0x1F]).level_4) call.2))
          ((List.range (2 * 2)).map (fun _ => 0))) ∧
      first_pass_args (scan_order 2 2) [0xF800, 0xF800, 0x1F, 0x1F] =
        [0xF800, 0xF800, 0x1F, 0x1F] ∧
      second_pass_calls 2 (scan_order 2 2) [2, 2, 0xF800, 0xF800, 0x1F, 0x1F] =
        [(0, 2), (1, 2)] := by
  intro qsort
  refine ⟨?_, by decide, by decide⟩
  obtain ⟨img2, hsp, _⟩ := second_pass_ok
    (qsort (accumulate [0xF800, 0xF800, 0x1F, 0x1F]).level_4) 2
    (scan_order 2 2) [2, 2, 0xF800, 0xF800, 0x1F, 0x1F]
    ((List.range (2 * 2)).map (fun _ => 0))
    (by rw [scan_order_length]; simp)
  refine ⟨_, read_photo_eq 1024 1024 qsort (fun _ => 0) reset_hist 2 2
    [0xF800, 0xF800, 0x1F, 0x1F] img2 reset_hist_sizes.1 reset_hist_sizes.2
    (by omega) (by omega) (by simp) hsp, ?_⟩
  exact second_pass_uses_calls _ 2 _ _ _ img2 hsp

/-! ## The 8x8 pure red image -/

theorem red_pixels_mem (p : Nat) (hp : p ∈ red_pixels) : p = 0xF800 :=
  List.eq_of_mem_replicate hp

theorem red_pixels_fine (k : Nat) (hk : k ≠ 0xF00) :
    red_pixels.filter (fun p => decide (fine_id p = k)) = [] := by
  rw [List.filter_eq_nil_iff]
  intro p hp
  rw [red_pixels_mem p hp]
  have : fine_id 0xF800 = 0xF00 := by decide
  simp only [this, decide_eq_true_eq]
  exact fun e => hk e.symm

theorem red_pixels_fine_self :
    red_pixels.filter (fun p => decide (fine_id p = 0xF00)) = red_pixels := by
  rw [List.filter_eq_self]
  intro p hp
  rw [red_pixels_mem p hp]
  decide

theorem red_bucket : fine_hist red_pixels 0xF00 = ⟨1984, 0, 0, 64, 0xF00⟩ := by
  unfold fine_hist bucket_of
  rw [red_pixels_fine_self]
  have hr : red_of 0xF800 = 31 := by decide
  have hg : green_of 0xF800 = 0 := by decide
  have hb : blue_of 0xF800 = 0 := by decide
  simp [chan_sum, red_pixels, List.map_replicate, List.sum_replicate, hr, hg, hb]

theorem red_other_bucket (k : Nat) (hk : k ≠ 0xF00) :
    fine_hist red_pixels k = ⟨0, 0, 0, 0, k⟩ := by
  unfold fine_hist bucket_of
  rw [red_pixels_fine k hk]
  simp [chan_sum]

/-- Whatever the order among the empty buckets, the red bucket is at rank 0. -/
theorem red_bucket_first (sorted : List octree)
    (hq : IsQsorted (accumulate red_pixels).level_4 sorted) :
    sorted[0]? = some ⟨1984, 0, 0, 64, 0xF00⟩ := by
  have hlen := sorted_length red_pixels sorted hq
  have h0 : sorted[0]? = some sorted[0] := List.getElem?_eq_getElem (by omega)
  have hmem0 := sorted_mem red_pixels sorted hq sorted[0] (List.getElem_mem (by omega))
  have hB : fine_hist red_pixels 0xF00 ∈ sorted := by
    rw [hq.1.mem_iff, accumulate_level_4]
    exact List.mem_map.mpr ⟨0xF00, List.mem_range.mpr (by decide), rfl⟩
  obtain ⟨i, hi⟩ := List.mem_iff_getElem?.mp hB
  have hge : (fine_hist red_pixels 0xF00).count ≤ sorted[0].count := by
    rcases Nat.eq_zero_or_pos i with hz | hpos
    · subst hz
      rw [h0] at hi
      rw [Option.some.inj hi]
    · exact sorted_desc _ sorted hq 0 i _ _ hpos h0 hi
  rw [red_bucket] at hge
  have hnode : sorted[0].node_num = 0xF00 := by
    by_contra hne
    have := red_other_bucket sorted[0].node_num hne
    rw [← hmem0.2] at this
    rw [this] at hge
    simp at hge
  rw [h0, hmem0.2, hnode, red_bucket]

theorem red_header_word_index (sorted : List octree)
    (hq : IsQsorted (accumulate red_pixels).level_4 sorted) :
    vga_conventer sorted 8 ≠ 128 := by
  have hf : fine_id 8 = 4 := by decide
  have hc : coarse_id 8 = 1 := by decide
  rcases vga_cases sorted 8 with ⟨i, o, _, ho, hn, hv⟩ | ⟨_, hv⟩
  · intro h128
    have hi0 : i = 0 := by omega
    subst hi0
    rw [red_bucket_first sorted hq] at ho
    rw [← Option.some.inj ho, hf] at hn
    simp at hn
  · rw [hv, hc]; omega

theorem red_pixels_take : red_pixels.take (8 * 8) = red_pixels :=
  List.take_of_length_le (by simp [red_pixels])

theorem red_pixel_index (sorted : List octree)
    (hq : IsQsorted (accumulate red_pixels).level_4 sorted) :
    vga_conventer sorted 0xF800 = 128 := by
  have hf : fine_id 0xF800 = 0xF00 := by decide
  have h0 := red_bucket_first sorted hq
  rcases vga_cases sorted 0xF800 with ⟨i, o, _, ho, hn, hv⟩ | ⟨hno, _⟩
  · have := nodup_index_eq sorted (sorted_nodup red_pixels sorted hq) i 0 o _ ho h0
      (by rw [hn, hf])
    omega
  · exact absurd hf.symm (hno 0 _ (by omega) h0)

/-- What `read_photo` makes of the 8x8 pure red image, for every outcome of the
sort: the palette entry 64 is pure red and cell 0 holds 128, but cell 54 holds the
index of the header word 8, which is not 128, and cell 63 keeps the allocated
byte. -/
theorem red_image_load (qsort : List octree → List octree)
    (hq : ∀ l, IsQsorted l (qsort l)) (mem : Nat → Nat) :
    ∃ ph, (read_photo 1024 1024 qsort mem reset_hist red_file).1 = some ph ∧
      ph.palette[64]? = some (31, 0, 0) ∧ ph.img[0]? = some 128 ∧
      (∃ v, ph.img[54]? = some v ∧ v ≠ 128) ∧ ph.img[63]? = some (mem 63) := by
  have hlen : 8 * 8 ≤ red_pixels.length := by simp [red_pixels]
  have hs := hq (accumulate red_pixels).level_4
  obtain ⟨ph, hph, _, hpal⟩ := read_photo_hdr_palette 1024 1024 qsort mem reset_hist 8 8
    red_pixels reset_hist_sizes.1 reset_hist_sizes.2 (by omega) (by omega) hlen
  obtain ⟨p0, v0, hp0, _, _, hv0, hc0⟩ := read_photo_img 1024 1024 qsort mem reset_hist 8 8
    red_pixels reset_hist_sizes.1 reset_hist_sizes.2 (by omega) (by omega) hlen 0 (by omega)
  obtain ⟨p54, v54, hp54, _, _, hv54, hc54⟩ := read_photo_img 1024 1024 qsort mem reset_hist 8 8
    red_pixels reset_hist_sizes.1 reset_hist_sizes.2 (by omega) (by omega) hlen 54 (by omega)
  obtain ⟨p63, hp63, _, _, hc63⟩ := read_photo_ok 1024 1024 qsort mem reset_hist 8 8
    red_pixels (by omega) (by omega) hlen
  have e0 : p0 = ph := Option.some.inj (hp0.symm.trans hph)
  have e54 : p54 = ph := Option.some.inj (hp54.symm.trans hph)
  have e63 : p63 = ph := Option.some.inj (hp63.symm.trans hph)
  subst e0 e54 e63
  rw [red_pixels_take] at hpal hc0 hc54
  have hw0 : (8 :: 8 :: red_pixels)[word_stored_at 8 8 0]? = some 0xF800 := by decide
  have hw54 : (8 :: 8 :: red_pixels)[word_stored_at 8 8 54]? = some 8 := by decide
  rw [hw0] at hv0
  rw [hw54] at hv54
  rw [← Option.some.inj hv0, red_pixel_index _ hs] at hc0
  rw [← Option.some.inj hv54] at hc54
  refine ⟨p63, hph, ?_, hc0, ⟨_, hc54, red_header_word_index _ hs⟩, hc63 63 (by omega) (by omega)⟩
  rw [hpal]
  have hsel := select_fine red_pixels _ hs 0 (by omega) _ (red_bucket_first _ hs)
  rw [hsel]
  decide

/-- C16 (the code at the failing input): for the 8x8 image whose 64 pixels all
equal 0xF800, accumulation leaves the fine bucket 0xF00 with count 64 and every
other fine bucket empty, and `palette[64]` is `(31, 0, 0)`, as the claim says; but
of the cells of the stored image, cell 54 holds the index of the header word 8,
which is not 128, and cell 63 still holds the zero it was allocated with. -/
theorem red_image_cells_are_not_uniform :
    (accumulate red_pixels).level_4[0xF00]? = some ⟨1984, 0, 0, 64, 0xF00⟩ ∧
    (∀ k, k < 4096 → k ≠ 0xF00 → (accumulate red_pixels).level_4[k]? = some ⟨0, 0, 0, 0, k⟩) ∧
    ∃ ph, (read_photo 1024 1024 qsort_model (fun _ => 0) reset_hist red_file).1 = some ph ∧
      ph.palette[64]? = some (31, 0, 0) ∧ ph.img[0]? = some 128 ∧
      (∃ v, ph.img[54]? = some v ∧ v ≠ 128) ∧ ph.img[63]? = some 0 := by
  refine ⟨?_, ?_, red_image_load qsort_model qsort_model_spec (fun _ => 0)⟩
  · rw [level_4_getElem? red_pixels 0xF00 (by omega), red_bucket]
  · intro k hk hne
    rw [level_4_getElem? red_pixels k hk, red_other_bucket k hne]

/-! ## Strips outside the photo -/

/-- A loop that stores `val idx` at `buf[idx]`, when `val` is defined on the listed
indices. -/
theorem photo_loop_spec_on (loop : List Nat → List Nat → Option (List Nat))
    (val : Nat → Option Nat)
    (hnil : ∀ buf, loop [] buf = some buf)
    (hcons : ∀ idx rest buf, loop (idx :: rest) buf =
      match val idx with
      | some v => loop rest (buf.set idx v)
      | none => none)
    (idxs buf : List Nat) (hval : ∀ i ∈ idxs, ∃ v, val i = some v) :
    ∃ buf2, loop idxs buf = some buf2 ∧ buf2.length = buf.length ∧
      ∀ i, i < buf.length → buf2[i]? = if i ∈ idxs then val i else buf[i]? := by
  induction idxs generalizing buf with
  | nil => exact ⟨buf, hnil buf, rfl, fun i _ => by simp⟩
  | cons idx rest ih =>
    obtain ⟨v, hv⟩ := hval idx (by simp)
    obtain ⟨buf2, h1, h2, h3⟩ := ih (buf.set idx v) (fun i hi => hval i (by simp [hi]))
    refine ⟨buf2, ?_, by rw [h2, List.length_set], ?_⟩
    · rw [hcons, hv]; exact h1
    · intro i hi
      rw [h3 i (by rw [List.length_set]; exact hi)]
      by_cases hr : i ∈ rest
      · simp [hr]
      · rw [if_neg hr]
        by_cases he : i = idx
        · subst he
          rw [List.getElem?_set_self hi, hv]; simp
        · rw [List.getElem?_set_ne (fun e => he e.symm)]
          simp [he, hr]

theorem horiz_objects_all_skipped (s t : Nat) (x y : Int) (objs : List object_t)
    (buf : List Nat)
    (hskip : ∀ o ∈ objs, y < o.y ∨ y ≥ o.y + o.image.hdr.height ∨
      x + s ≤ o.x ∨ x ≥ o.x + o.image.hdr.width) :
    horiz_objects s t x y objs buf = some buf := by
  induction objs with
  | nil => rfl
  | cons o rest ih =>
    rw [horiz_objects]
    simp only
    rw [if_pos (hskip o (by simp))]
    exact ih (fun o2 ho2 => hskip o2 (by simp [ho2]))

theorem vert_objects_all_skipped (s t : Nat) (x y : Int) (objs : List object_t)
    (buf : List Nat)
    (hskip : ∀ o ∈ objs, x < o.x ∨ x ≥ o.x + o.image.hdr.width ∨
      y + s ≤ o.y ∨ y ≥ o.y + o.image.hdr.height) :
    vert_objects s t x y objs buf = some buf := by
  induction objs with
  | nil => rfl
  | cons o rest ih =>
    rw [vert_objects]
    simp only
    rw [if_pos (hskip o (by simp))]
    exact ih (fun o2 ho2 => hskip o2 (by simp [ho2]))

/-- A horizontal strip whose every `x + i` is outside `[0, width)` is all zero
when no object overlaps it, whatever the row. -/
theorem horiz_strip_beside_photo (s t : Nat) (room : room_t) (x y : Int) (buf : List Nat)
    (hbuf : buf.length = s)
    (hout : ∀ i : Nat, i < s → ¬ (0 ≤ x + i ∧ x + i < room.photo.hdr.width))
    (hskip : ∀ o ∈ room.contents, y < o.y ∨ y ≥ o.y + o.image.hdr.height ∨
      x + s ≤ o.x ∨ x ≥ o.x + o.image.hdr.width) :
    ∃ out, fill_horiz_buffer s t room x y buf = some out ∧ out.length = s ∧
      ∀ i, i < s → out[i]? = some 0 := by
  have hval : ∀ i ∈ List.range s, ∃ v, photo_horiz room.photo x y i = some v := by
    intro i hi
    unfold photo_horiz
    rw [if_neg (hout i (List.mem_range.mp hi))]
    exact ⟨0, rfl⟩
  obtain ⟨buf1, h1, h2, h3⟩ := photo_loop_spec_on (horiz_photo_loop room.photo x y)
    (photo_horiz room.photo x y) (fun _ => rfl) (horiz_photo_loop_eq room.photo x y)
    (List.range s) buf hval
  refine ⟨buf1, ?_, by rw [h2, hbuf], ?_⟩
  · unfold fill_horiz_buffer
    simp only
    rw [h1]
    exact horiz_objects_all_skipped s t x y room.contents buf1 hskip
  · intro i hi
    rw [h3 i (by omega), if_pos (List.mem_range.mpr hi)]
    unfold photo_horiz
    rw [if_neg (hout i hi)]

/-- A vertical strip whose every `y + i` is outside `[0, height)` is all zero when
no object overlaps it, whatever the column. -/
theorem vert_strip_beside_photo (s t : Nat) (room : room_t) (x y : Int) (buf : List Nat)
    (hbuf : buf.length = s)
    (hout : ∀ i : Nat, i < s → ¬ (0 ≤ y + i ∧ y + i < room.photo.hdr.height))
    (hskip : ∀ o ∈ room.contents, x < o.x ∨ x ≥ o.x + o.image.hdr.width ∨
      y + s ≤ o.y ∨ y ≥ o.y + o.image.hdr.height) :
    ∃ out, fill_vert_buffer s t room x y buf = some out ∧ out.length = s ∧
      ∀ i, i < s → out[i]? = some 0 := by
  have hval : ∀ i ∈ List.range s, ∃ v, photo_vert room.photo x y i = some v := by
    intro i hi
    unfold photo_vert
    rw [if_neg (hout i (List.mem_range.mp hi))]
    exact ⟨0, rfl⟩
  obtain ⟨buf1, h1, h2, h3⟩ := photo_loop_spec_on (vert_photo_loop room.photo x y)
    (photo_vert room.photo x y) (fun _ => rfl) (vert_photo_loop_eq room.photo x y)
    (List.range s) buf hval
  refine ⟨buf1, ?_, by rw [h2, hbuf], ?_⟩
  · unfold fill_vert_buffer
    simp only
    rw [h1]
    exact vert_objects_all_skipped s t x y room.contents buf1 hskip
  · intro i hi
    rw [h3 i (by omega), if_pos (List.mem_range.mpr hi)]
    unfold photo_vert
    rw [if_neg (hout i hi)]

/-- C11 (the code at failing inputs): in the room with a 2x2 photo
`[70, 71, 72, 73]` and no object, the vertical strip of length 2 at column
`x = 2`, outside `[0, 2)`, starting at row `-1`, comes out as `[0, 72]`: the cell of
row 0 holds `img[2*0 + 2]`, the pixel of column 0 in row 1; and the horizontal strip
of length 2 on row `y = 2`, outside `[0, 2)`, has no defined result, since the read
`img[2*2 + 0]` is outside the array. -/
theorem strips_outside_photo_are_not_zero :
    fill_vert_buffer 2 64 bare_room 2 (-1) [9, 9] = some [0, 72] ∧
    fill_horiz_buffer 2 64 bare_room 0 2 [9, 9] = none ∧
    read_at bare_room.photo.img ((bare_room.photo.hdr.width : Int) * 2 + 0 + (0 : Nat)) = none := by
  decide

/-! ## Transparency -/

/-- The three cases of a strip cell after one object was laid over the value
`v`: not covered, covered by a transparent pixel, covered by another pixel. -/
theorem obj_pixel_cases (t : Nat) (obj : object_t) (mx my : Int) (v : Nat)
    (hwf : image_wf obj.image) :
    (¬ covers obj mx my → (obj_pixel t obj mx my).getD v = v) ∧
    (covers obj mx my → sprite_pixel obj mx my = some t →
      (obj_pixel t obj mx my).getD v = v) ∧
    ((obj_pixel t obj mx my).getD v ≠ v →
      covers obj mx my ∧ ∃ px, sprite_pixel obj mx my = some px ∧ px ≠ t ∧
        (obj_pixel t obj mx my).getD v = px) := by
  have hkey : ∀ px, sprite_pixel obj mx my = some px → covers obj mx my →
      obj_pixel t obj mx my = if t ≠ px then some px else none := by
    intro px hpx hcov
    unfold obj_pixel
    unfold covers at hcov
    unfold sprite_pixel at hpx
    rw [if_pos hcov, hpx]
    rfl
  have hnot : ¬ covers obj mx my → obj_pixel t obj mx my = none := by
    intro hcov
    unfold obj_pixel
    unfold covers at hcov
    rw [if_neg hcov]
  refine ⟨?_, ?_, ?_⟩
  · intro hcov
    rw [hnot hcov]; rfl
  · intro hcov hpx
    rw [hkey t hpx hcov]
    simp
  · intro hne
    by_cases hcov : covers obj mx my
    · refine ⟨hcov, ?_⟩
      have hin : ∃ px, sprite_pixel obj mx my = some px := by
        unfold sprite_pixel
        unfold covers at hcov
        have hb := mul_add_lt_mul obj.image.hdr.width obj.image.hdr.height (my - obj.y)
          (mx - obj.x) (by omega) (by omega) (by omega) (by omega)
        apply read_at_some _ _ hb.1
        rw [hwf]; push_cast; exact hb.2
      obtain ⟨px, hpx⟩ := hin
      rw [hkey px hpx hcov] at hne ⊢
      by_cases ht : t ≠ px
      · rw [if_pos ht]
        exact ⟨px, hpx, fun e => ht e.symm, rfl⟩
      · rw [if_neg ht] at hne
        exact absurd rfl hne
    · rw [hnot hcov] at hne
      exact absurd rfl hne

/-- C12: processing one object in `fill_horiz_buffer` or `fill_vert_buffer` leaves
unchanged every strip offset the object does not cover and every offset whose
object pixel equals `OBJ_CLR_TRANSP`; an offset that changes is covered by a pixel
other than `OBJ_CLR_TRANSP` and receives that pixel.  An object row
`[A, TRANSPARENT, B, TRANSPARENT]` over `[b0, b1, b2, b3]` gives `[A, b1, B, b3]`. -/
theorem transparent_pixels_leave_strip_alone (SCROLL_X_DIM SCROLL_Y_DIM OBJ_CLR_TRANSP : Nat)
    (x y : Int) (obj : object_t) (bufh bufv : List Nat) (i j : Nat)
    (hwf : image_wf obj.image)
    (hbh : bufh.length = SCROLL_X_DIM) (hbv : bufv.length = SCROLL_Y_DIM)
    (hi : i < SCROLL_X_DIM) (hj : j < SCROLL_Y_DIM) :
    (∃ out, horiz_objects SCROLL_X_DIM OBJ_CLR_TRANSP x y [obj] bufh = some out ∧
      (¬ covers obj (x + i) y → out[i]? = bufh[i]?) ∧
      (covers obj (x + i) y → sprite_pixel obj (x + i) y = some OBJ_CLR_TRANSP →
        out[i]? = bufh[i]?) ∧
      (out[i]? ≠ bufh[i]? → covers obj (x + i) y ∧
        ∃ px, sprite_pixel obj (x + i) y = some px ∧ px ≠ OBJ_CLR_TRANSP ∧
          out[i]? = some px)) ∧
    (∃ out, vert_objects SCROLL_Y_DIM OBJ_CLR_TRANSP x y [obj] bufv = some out ∧
      (¬ covers obj x (y + j) → out[j]? = bufv[j]?) ∧
      (covers obj x (y + j) → sprite_pixel obj x (y + j) = some OBJ_CLR_TRANSP →
        out[j]? = bufv[j]?) ∧
      (out[j]? ≠ bufv[j]? → covers obj x (y + j) ∧
        ∃ px, sprite_pixel obj x (y + j) = some px ∧ px ≠ OBJ_CLR_TRANSP ∧
          out[j]? = some px)) ∧
    (∀ A B b0 b1 b2 b3 : Nat, A ≠ OBJ_CLR_TRANSP → B ≠ OBJ_CLR_TRANSP →
      horiz_objects 4 OBJ_CLR_TRANSP 0 0
        [{ x := 0, y := 0,
           image := { hdr := ⟨4, 1⟩, img := [A, OBJ_CLR_TRANSP, B, OBJ_CLR_TRANSP] } }]
        [b0, b1, b2, b3] = some [A, b1, B, b3]) := by
  refine ⟨?_, ?_, ?_⟩
  · obtain ⟨out, h1, _, h3⟩ := horiz_objects_spec SCROLL_X_DIM OBJ_CLR_TRANSP x y [obj] bufh
      (fun o ho => by rw [List.mem_singleton.mp ho]; exact hwf) hbh
    have hget : bufh[i]? = some bufh[i] := List.getElem?_eq_getElem (by omega)
    have hout := h3 i _ hi hget
    simp only [overlay] at hout
    obtain ⟨c1, c2, c3⟩ := obj_pixel_cases OBJ_CLR_TRANSP obj (x + i) y bufh[i] hwf
    refine ⟨out, h1, ?_, ?_, ?_⟩
    · intro hcov; rw [hout, hget, c1 hcov]
    · intro hcov hpx; rw [hout, hget, c2 hcov hpx]
    · intro hne
      rw [hout, hget] at hne
      obtain ⟨hcov, px, hpx, hpt, he⟩ := c3 (fun e => hne (by rw [e]))
      exact ⟨hcov, px, hpx, hpt, by rw [hout, he]⟩
  · obtain ⟨out, h1, _, h3⟩ := vert_objects_spec SCROLL_Y_DIM OBJ_CLR_TRANSP x y [obj] bufv
      (fun o ho => by rw [List.mem_singleton.mp ho]; exact hwf) hbv
    have hget : bufv[j]? = some bufv[j] := List.getElem?_eq_getElem (by omega)
    have hout := h3 j _ hj hget
    simp only [overlay] at hout
    obtain ⟨c1, c2, c3⟩ := obj_pixel_cases OBJ_CLR_TRANSP obj x (y + j) bufv[j] hwf
    refine ⟨out, h1, ?_, ?_, ?_⟩
    · intro hcov; rw [hout, hget, c1 hcov]
    · intro hcov hpx; rw [hout, hget, c2 hcov hpx]
    · intro hne
      rw [hout, hget] at hne
      obtain ⟨hcov, px, hpx, hpt, he⟩ := c3 (fun e => hne (by rw [e]))
      exact ⟨hcov, px, hpx, hpt, by rw [hout, he]⟩
  · intro A B b0 b1 b2 b3 hA hB
    have hA2 : OBJ_CLR_TRANSP ≠ A := fun e => hA e.symm
    have hB2 : OBJ_CLR_TRANSP ≠ B := fun e => hB e.symm
    simp [horiz_objects, horiz_copy, read_at, hA2, hB2]

theorem transparent_pixels_leave_strip_alone_witness :
    (image_wf sample_object.image ∧ ([70, 71, 72, 73] : List Nat).length = 4 ∧
      ([7, 8, 9] : List Nat).length = 3 ∧ 1 < 4 ∧ 0 < 3) ∧
    ((∃ out, horiz_objects 4 64 1 0 [sample_object] [70, 71, 72, 73] = some out ∧
      (¬ covers sample_object ((1 : Int) + (1 : Nat)) 0 → out[1]? = [70, 71, 72, 73][1]?) ∧
      (covers sample_object ((1 : Int) + (1 : Nat)) 0 →
        sprite_pixel sample_object ((1 : Int) + (1 : Nat)) 0 = some 64 →
        out[1]? = [70, 71, 72, 73][1]?) ∧
      (out[1]? ≠ [70, 71, 72, 73][1]? → covers sample_object ((1 : Int) + (1 : Nat)) 0 ∧
        ∃ px, sprite_pixel sample_object ((1 : Int) + (1 : Nat)) 0 = some px ∧ px ≠ 64 ∧
          out[1]? = some px)) ∧
    (∃ out, vert_objects 3 64 1 0 [sample_object] [7, 8, 9] = some out ∧
      (¬ covers sample_object 1 ((0 : Int) + (0 : Nat)) → out[0]? = [7, 8, 9][0]?) ∧
      (covers sample_object 1 ((0 : Int) + (0 : Nat)) →
        sprite_pixel sample_object 1 ((0 : Int) + (0 : Nat)) = some 64 →
        out[0]? = [7, 8, 9][0]?) ∧
      (out[0]? ≠ [7, 8, 9][0]? → covers sample_object 1 ((0 : Int) + (0 : Nat)) ∧
        ∃ px, sprite_pixel sample_object 1 ((0 : Int) + (0 : Nat)) = some px ∧ px ≠ 64 ∧
          out[0]? = some px)) ∧
    (∀ A B b0 b1 b2 b3 : Nat, A ≠ 64 → B ≠ 64 →
      horiz_objects 4 64 0 0
        [{ x := 0, y := 0, image := { hdr := ⟨4, 1⟩, img := [A, 64, B, 64] } }]
        [b0, b1, b2, b3] = some [A, b1, B, b3])) :=
  ⟨⟨rfl, rfl, rfl, by decide, by decide⟩,
   transparent_pixels_leave_strip_alone 4 3 64 1 0 sample_object [70, 71, 72, 73] [7, 8, 9]
     1 0 rfl rfl rfl (by decide) (by decide)⟩

/-! ## Clipping safety -/

/-- The copy loop of `fill_horiz_buffer` does what its list of accesses says. -/
theorem horiz_copy_uses_accesses (s t : Nat) (img : image_t) (yoff : Int) (fuel : Nat)
    (idx imgx : Int) (buf out : List Nat)
    (h : horiz_copy s t img yoff fuel idx imgx buf = some out) :
    out = (horiz_copy_accesses s img yoff fuel idx imgx).foldl (do_access t img) buf := by
  induction fuel generalizing idx imgx buf with
  | zero => simp [horiz_copy] at h
  | succ fuel ih =>
    rw [horiz_copy] at h
    rw [horiz_copy_accesses]
    by_cases hc : (s : Int) > idx ∧ (img.hdr.width : Int) > imgx
    · rw [if_pos hc] at h
      rw [if_pos hc, List.foldl_cons]
      cases hr : read_at img.img (yoff + imgx) with
      | none => rw [hr] at h; cases h
      | some pixel =>
        rw [hr] at h
        simp only at h
        rw [ih _ _ _ h]
        unfold do_access
        simp only [hr]
    · rw [if_neg hc] at h
      rw [if_neg hc]
      exact (Option.some.inj h).symm

/-- The copy loop of `fill_vert_buffer` does what its list of accesses says. -/
theorem vert_copy_uses_accesses (s t : Nat) (img : image_t) (xoff : Int) (fuel : Nat)
    (idx imgy : Int) (buf out : List Nat)
    (h : vert_copy s t img xoff fuel idx imgy buf = some out) :
    out = (vert_copy_accesses s img xoff fuel idx imgy).foldl (do_access t img) buf := by
  induction fuel generalizing idx imgy buf with
  | zero => simp [vert_copy] at h
  | succ fuel ih =>
    rw [vert_copy] at h
    rw [vert_copy_accesses]
    by_cases hc : (s : Int) > idx ∧ (img.hdr.height : Int) > imgy
    · rw [if_pos hc] at h
      rw [if_pos hc, List.foldl_cons]
      cases hr : read_at img.img (xoff + (img.hdr.width : Int) * imgy) with
      | none => rw [hr] at h; cases h
      | some pixel =>
        rw [hr] at h
        simp only at h
        rw [ih _ _ _ h]
        unfold do_access
        simp only [hr]
    · rw [if_neg hc] at h
      rw [if_neg hc]
      exact (Option.some.inj h).symm

theorem horiz_copy_accesses_bounds (s : Nat) (img : image_t) (yoff : Int) (fuel : Nat)
    (idx imgx : Int) (h0 : 0 ≤ idx) (hx : 0 ≤ imgx) (a : Int × Int)
    (ha : a ∈ horiz_copy_accesses s img yoff fuel idx imgx) :
    (∃ col : Int, 0 ≤ col ∧ col < img.hdr.width ∧ a.1 = yoff + col) ∧
    0 ≤ a.2 ∧ a.2 < s := by
  induction fuel generalizing idx imgx with
  | zero => simp [horiz_copy_accesses] at ha
  | succ fuel ih =>
    rw [horiz_copy_accesses] at ha
    by_cases hc : (s : Int) > idx ∧ (img.hdr.width : Int) > imgx
    · rw [if_pos hc, List.mem_cons] at ha
      rcases ha with rfl | ha
      · exact ⟨⟨imgx, hx, hc.2, rfl⟩, h0, hc.1⟩
      · exact ih (idx + 1) (imgx + 1) (by omega) (by omega) ha
    · rw [if_neg hc] at ha
      simp at ha

theorem vert_copy_accesses_bounds (s : Nat) (img : image_t) (xoff : Int) (fuel : Nat)
    (idx imgy : Int) (h0 : 0 ≤ idx) (hy : 0 ≤ imgy) (a : Int × Int)
    (ha : a ∈ vert_copy_accesses s img xoff fuel idx imgy) :
    (∃ row : Int, 0 ≤ row ∧ row < img.hdr.height ∧
      a.1 = xoff + (img.hdr.width : Int) * row) ∧
    0 ≤ a.2 ∧ a.2 < s := by
  induction fuel generalizing idx imgy with
  | zero => simp [vert_copy_accesses] at ha
  | succ fuel ih =>
    rw [vert_copy_accesses] at ha
    by_cases hc : (s : Int) > idx ∧ (img.hdr.height : Int) > imgy
    · rw [if_pos hc, List.mem_cons] at ha
      rcases ha with rfl | ha
      · exact ⟨⟨imgy, hy, hc.2, rfl⟩, h0, hc.1⟩
      · exact ih (idx + 1) (imgy + 1) (by omega) (by omega) ha
    · rw [if_neg hc] at ha
      simp at ha

theorem horiz_objects_uses_accesses (s t : Nat) (x y : Int) (obj : object_t)
    (buf out : List Nat) (h : horiz_objects s t x y [obj] buf = some out) :
    out = (horiz_accesses s x y obj).foldl (do_access t obj.image) buf := by
  rw [horiz_objects] at h
  unfold horiz_accesses
  simp only at h ⊢
  by_cases hskip : y < obj.y ∨ y ≥ obj.y + obj.image.hdr.height ∨
      x + s ≤ obj.x ∨ x ≥ obj.x + obj.image.hdr.width
  · rw [if_pos hskip] at h
    rw [if_pos hskip]
    simp only [horiz_objects, Option.some.injEq] at h
    simp [h]
  · rw [if_neg hskip] at h
    rw [if_neg hskip]
    cases hc : horiz_copy s t obj.image ((y - obj.y) * obj.image.hdr.width) (s + 1)
        (if x ≤ obj.x then obj.x - x else 0) (if x ≤ obj.x then 0 else x - obj.x) buf with
    | none => rw [hc] at h; cases h
    | some buf2 =>
      rw [hc] at h
      simp only [horiz_objects, Option.some.injEq] at h
      rw [← h]
      exact horiz_copy_uses_accesses s t obj.image _ _ _ _ buf buf2 hc

theorem vert_objects_uses_accesses (s t : Nat) (x y : Int) (obj : object_t)
    (buf out : List Nat) (h : vert_objects s t x y [obj] buf = some out) :
    out = (vert_accesses s x y obj).foldl (do_access t obj.image) buf := by
  rw [vert_objects] at h
  unfold vert_accesses
  simp only at h ⊢
  by_cases hskip : x < obj.x ∨ x ≥ obj.x + obj.image.hdr.width ∨
      y + s ≤ obj.y ∨ y ≥ obj.y + obj.image.hdr.height
  · rw [if_pos hskip] at h
    rw [if_pos hskip]
    simp only [vert_objects, Option.some.injEq] at h
    simp [h]
  · rw [if_neg hskip] at h
    rw [if_neg hskip]
    cases hc : vert_copy s t obj.image (x - obj.x) (s + 1)
        (if y ≤ obj.y then obj.y - y else 0) (if y ≤ obj.y then 0 else y - obj.y) buf with
    | none => rw [hc] at h; cases h
    | some buf2 =>
      rw [hc] at h
      simp only [vert_objects, Option.some.injEq] at h
      rw [← h]
      exact vert_copy_uses_accesses s t obj.image _ _ _ _ buf buf2 hc

/-- C13: for an object of width `sw` and height `sh` at any position and any strip
origin, every read of the object's pixel array made by `fill_horiz_buffer` and by
`fill_vert_buffer` uses an index `row * sw + col` with `0 <= row < sh` and
`0 <= col < sw`, hence an index in `[0, sw*sh)`, and the offset into `buf` of every
round lies in `[0, SCROLL_X_DIM)`, respectively `[0, SCROLL_Y_DIM)`. -/
theorem overlay_accesses_stay_inside (SCROLL_X_DIM SCROLL_Y_DIM : Nat) (x y : Int)
    (obj : object_t) :
    (∀ a ∈ horiz_accesses SCROLL_X_DIM x y obj,
      (∃ row col : Int, 0 ≤ row ∧ row < obj.image.hdr.height ∧
        0 ≤ col ∧ col < obj.image.hdr.width ∧ a.1 = row * obj.image.hdr.width + col) ∧
      0 ≤ a.1 ∧ a.1 < (obj.image.hdr.width : Int) * obj.image.hdr.height ∧
      0 ≤ a.2 ∧ a.2 < SCROLL_X_DIM) ∧
    (∀ b ∈ vert_accesses SCROLL_Y_DIM x y obj,
      (∃ row col : Int, 0 ≤ row ∧ row < obj.image.hdr.height ∧
        0 ≤ col ∧ col < obj.image.hdr.width ∧ b.1 = row * obj.image.hdr.width + col) ∧
      0 ≤ b.1 ∧ b.1 < (obj.image.hdr.width : Int) * obj.image.hdr.height ∧
      0 ≤ b.2 ∧ b.2 < SCROLL_Y_DIM) := by
  constructor
  · intro a ha
    unfold horiz_accesses at ha
    simp only at ha
    by_cases hskip : y < obj.y ∨ y ≥ obj.y + obj.image.hdr.height ∨
        x + SCROLL_X_DIM ≤ obj.x ∨ x ≥ obj.x + obj.image.hdr.width
    · rw [if_pos hskip] at ha
      simp at ha
    · rw [if_neg hskip] at ha
      obtain ⟨⟨col, c0, c1, hc⟩, i0, i1⟩ := horiz_copy_accesses_bounds SCROLL_X_DIM obj.image
        _ _ _ _ (by split <;> omega) (by split <;> omega) a ha
      have hbnd := mul_add_lt_mul obj.image.hdr.width obj.image.hdr.height (y - obj.y) col
        (by omega) (by omega) c0 c1
      rw [hc]
      exact ⟨⟨y - obj.y, col, by omega, by omega, c0, c1, rfl⟩, hbnd.1, hbnd.2, i0, i1⟩
  · intro b hb
    unfold vert_accesses at hb
    simp only at hb
    by_cases hskip : x < obj.x ∨ x ≥ obj.x + obj.image.hdr.width ∨
        y + SCROLL_Y_DIM ≤ obj.y ∨ y ≥ obj.y + obj.image.hdr.height
    · rw [if_pos hskip] at hb
      simp at hb
    · rw [if_neg hskip] at hb
      obtain ⟨⟨row, r0, r1, hc⟩, i0, i1⟩ := vert_copy_accesses_bounds SCROLL_Y_DIM obj.image
        _ _ _ _ (by split <;> omega) (by split <;> omega) b hb
      have hbnd := mul_add_lt_mul obj.image.hdr.width obj.image.hdr.height row (x - obj.x)
        r0 r1 (by omega) (by omega)
      have he : x - obj.x + (obj.image.hdr.width : Int) * row
          = row * obj.image.hdr.width + (x - obj.x) := by ring
      rw [hc, he]
      exact ⟨⟨row, x - obj.x, r0, r1, by omega, by omega, rfl⟩, hbnd.1, hbnd.2, i0, i1⟩

theorem overlay_accesses_stay_inside_witness :
    (((1 : Int), (1 : Int)) ∈ horiz_accesses 4 1 0 sample_object ∧
      ((2 : Int), (1 : Int)) ∈ vert_accesses 3 1 0 sample_object) ∧
    ((∃ row col : Int, 0 ≤ row ∧ row < sample_object.image.hdr.height ∧
        0 ≤ col ∧ col < sample_object.image.hdr.width ∧
        ((1 : Int), (1 : Int)).1 = row * sample_object.image.hdr.width + col) ∧
      0 ≤ ((1 : Int), (1 : Int)).1 ∧
      ((1 : Int), (1 : Int)).1 <
        (sample_object.image.hdr.width : Int) * sample_object.image.hdr.height ∧
      0 ≤ ((1 : Int), (1 : Int)).2 ∧ ((1 : Int), (1 : Int)).2 < (4 : Nat)) ∧
    ((∃ row col : Int, 0 ≤ row ∧ row < sample_object.image.hdr.height ∧
        0 ≤ col ∧ col < sample_object.image.hdr.width ∧
        ((2 : Int), (1 : Int)).1 = row * sample_object.image.hdr.width + col) ∧
      0 ≤ ((2 : Int), (1 : Int)).1 ∧
      ((2 : Int), (1 : Int)).1 <
        (sample_object.image.hdr.width : Int) * sample_object.image.hdr.height ∧
      0 ≤ ((2 : Int), (1 : Int)).2 ∧ ((2 : Int), (1 : Int)).2 < (3 : Nat)) :=
  ⟨⟨by decide, by decide⟩,
   (overlay_accesses_stay_inside 4 3 1 0 sample_object).1 (1, 1) (by decide),
   (overlay_accesses_stay_inside 4 3 1 0 sample_object).2 (2, 1) (by decide)⟩

/-! ## Index ranges -/

theorem map_to_octree_indices_eq (p : Nat) :
    map_to_octree_indices p = (fine_id p, coarse_id p) := rfl

theorem vga_conventer_offsets_eq (p : Nat) :
    vga_conventer_offsets p = (fine_id p, coarse_id p) := rfl

theorem add_pixel_some (a : List octree) (i r g b : Nat) (o : octree) (h : a[i]? = some o) :
    add_pixel a i r g b = a.set i (add_oct o r g b) := by
  unfold add_pixel
  rw [h]

/-- C21: for every pixel value, so for every 16-bit one, the fine index that `map_to_octree` and
`vga_conventer` compute is below 4096 and the coarse index is below 64, and the
two functions compute the same pair; so the two cells `map_to_octree` indexes
exist in arrays of 4096 and 64 cells and the call updates exactly these two
cells, and `vga_conventer` compares and returns values built from the same pair. -/
theorem bucket_indices_in_range (st : Hist) (sorted : List octree) (pixel : Nat)
    (h4 : st.level_4.length = level_4_size) (h2 : st.level_2.length = level_2_size) :
    (map_to_octree_indices pixel).1 < level_4_size ∧
    (map_to_octree_indices pixel).2 < level_2_size ∧
    (vga_conventer_offsets pixel).1 < level_4_size ∧
    (vga_conventer_offsets pixel).2 < level_2_size ∧
    vga_conventer_offsets pixel = map_to_octree_indices pixel ∧
    (∃ o4 o2, st.level_4[(map_to_octree_indices pixel).1]? = some o4 ∧
      st.level_2[(map_to_octree_indices pixel).2]? = some o2 ∧
      map_to_octree st pixel =
        { level_4 := st.level_4.set (map_to_octree_indices pixel).1
            (add_oct o4 (red_of pixel) (green_of pixel) (blue_of pixel))
          level_2 := st.level_2.set (map_to_octree_indices pixel).2
            (add_oct o2 (red_of pixel) (green_of pixel) (blue_of pixel)) }) ∧
    vga_conventer sorted pixel =
      (match (List.range 128).find? (fun i =>
          match sorted[i]? with
          | some o => decide (o.node_num = (vga_conventer_offsets pixel).1)
          | none => false) with
      | some i => (i + level_4_node) % 256
      | none => ((vga_conventer_offsets pixel).2 + level_2_node) % 256) := by
  have hf : fine_id pixel < level_4_size := fine_id_lt pixel
  have hc : coarse_id pixel < level_2_size := coarse_id_lt pixel
  rw [map_to_octree_indices_eq, vga_conventer_offsets_eq]
  refine ⟨hf, hc, hf, hc, rfl, ?_, rfl⟩
  have e4 : st.level_4[fine_id pixel]? = some (st.level_4[fine_id pixel]) :=
    List.getElem?_eq_getElem (by rw [h4]; exact hf)
  have e2 : st.level_2[coarse_id pixel]? = some (st.level_2[coarse_id pixel]) :=
    List.getElem?_eq_getElem (by rw [h2]; exact hc)
  refine ⟨_, _, e4, e2, ?_⟩
  rw [map_to_octree_eq, add_pixel_some _ _ _ _ _ _ e4, add_pixel_some _ _ _ _ _ _ e2]

theorem bucket_indices_in_range_witness :
    (reset_hist.level_4.length = level_4_size ∧ reset_hist.level_2.length = level_2_size) ∧
    ((map_to_octree_indices 0xFFFF).1 < level_4_size ∧
    (map_to_octree_indices 0xFFFF).2 < level_2_size ∧
    (vga_conventer_offsets 0xFFFF).1 < level_4_size ∧
    (vga_conventer_offsets 0xFFFF).2 < level_2_size ∧
    vga_conventer_offsets 0xFFFF = map_to_octree_indices 0xFFFF ∧
    (∃ o4 o2, reset_hist.level_4[(map_to_octree_indices 0xFFFF).1]? = some o4 ∧
      reset_hist.level_2[(map_to_octree_indices 0xFFFF).2]? = some o2 ∧
      map_to_octree reset_hist 0xFFFF =
        { level_4 := reset_hist.level_4.set (map_to_octree_indices 0xFFFF).1
            (add_oct o4 (red_of 0xFFFF) (green_of 0xFFFF) (blue_of 0xFFFF))
          level_2 := reset_hist.level_2.set (map_to_octree_indices 0xFFFF).2
            (add_oct o2 (red_of 0xFFFF) (green_of 0xFFFF) (blue_of 0xFFFF)) }) ∧
    vga_conventer sample_sorted 0xFFFF =
      (match (List.range 128).find? (fun i =>
          match sample_sorted[i]? with
          | some o => decide (o.node_num = (vga_conventer_offsets 0xFFFF).1)
          | none => false) with
      | some i => (i + level_4_node) % 256
      | none => ((vga_conventer_offsets 0xFFFF).2 + level_2_node) % 256)) :=
  ⟨reset_hist_sizes,
   bucket_indices_in_range reset_hist sample_sorted 0xFFFF reset_hist_sizes.1 reset_hist_sizes.2⟩

/-! ## Range of the palette entries -/

theorem bucket_average_le (ps : List Nat) (id : Nat) :
    (average (bucket_of ps id)).1 ≤ 31 ∧ (average (bucket_of ps id)).2.1 ≤ 63 ∧
    (average (bucket_of ps id)).2.2 ≤ 31 := by
  rw [average_bucket_of]
  have h1 := avg_lt red_of ps 32 (by omega) red_of_lt
  have h2 := avg_lt green_of ps 64 (by omega) green_of_lt
  have h3 := avg_lt blue_of ps 32 (by omega) blue_of_lt
  simp only
  omega

theorem select_palette_length (l4 l2 : List octree) :
    (select_palette l4 l2).1.length = 192 := by
  unfold select_palette
  simp only
  rw [coarse_loop_length, fine_loop_palette_length, zero_palette_length]

/-- Every palette row that selection computes from an accumulated stream has red
and blue at most 31 and green at most 63. -/
theorem select_palette_le (s : List Nat) (sorted : List octree)
    (h : IsQsorted (accumulate s).level_4 sorted) (i : Nat) (hi : i < 192) :
    ∃ c, (select_palette sorted (accumulate s).level_2).1[i]? = some c ∧
      c.1 ≤ 31 ∧ c.2.1 ≤ 63 ∧ c.2.2 ≤ 31 := by
  by_cases hj : i < 64
  · rw [select_coarse s sorted h i hj, residual_eq s sorted h i]
    refine ⟨_, rfl, ?_⟩
    by_cases hc : (bucket_of (rest_pixels s sorted i) i).count ≠ 0
    · rw [if_pos hc]; exact bucket_average_le _ _
    · rw [if_neg hc]; exact ⟨Nat.zero_le _, Nat.zero_le _, Nat.zero_le _⟩
  · have hlen := sorted_length s sorted h
    obtain ⟨o, ho⟩ : ∃ o, sorted[i - 64]? = some o :=
      ⟨_, List.getElem?_eq_getElem (by omega)⟩
    have hsel := select_fine s sorted h (i - 64) (by omega) o ho
    rw [show 64 + (i - 64) = i by omega] at hsel
    rw [hsel]
    refine ⟨_, rfl, ?_⟩
    have hk := (sorted_mem s sorted h o (List.mem_iff_getElem?.mpr ⟨_, ho⟩)).2
    have hb : average o = average (fine_hist s o.node_num) := congrArg average hk
    by_cases hc : o.count ≠ 0
    · rw [if_pos hc, hb]; exact bucket_average_le _ _
    · rw [if_neg hc]; exact ⟨Nat.zero_le _, Nat.zero_le _, Nat.zero_le _⟩

theorem mask_keeps (x : Nat) (h : x ≤ 63) : x &&& bitmask_6 = x := by
  unfold bitmask_6
  rw [and_3F]
  omega

theorem prep_room_getElem? (r : room_t) (i red green blue : Nat) (hi : i < 192)
    (hpal : r.photo.palette[i]? = some (red, green, blue)) :
    (prep_room r).2[i]? =
      some (64 + i, (red <<< 1) &&& bitmask_6, green &&& bitmask_6,
        (blue <<< 1) &&& bitmask_6) := by
  unfold prep_room
  simp only [List.getElem?_map, List.getElem?_range hi, Option.map_some', List.getD,
    List.get?_eq_getElem?, hpal, Option.getD_some, and_3F_mod]
  rfl

/-- C22: every row of a palette that `read_photo` computes has red at most 31,
green at most 63 and blue at most 31; so the 6-bit masks of `prep_room` change
nothing, and the call it makes for row `i` is
`set_palette (64 + i, 2 * red, green, 2 * blue)` with each value at most 63. -/
theorem palette_fits_six_bits (MAX_PHOTO_WIDTH MAX_PHOTO_HEIGHT : Nat)
    (qsort : List octree → List octree) (hq : ∀ l, IsQsorted l (qsort l))
    (mem : Nat → Nat) (prev : Hist) (file : List Nat) (r : room_t) (i : Nat)
    (h4 : prev.level_4.length = level_4_size) (h2 : prev.level_2.length = level_2_size)
    (hload : (read_photo MAX_PHOTO_WIDTH MAX_PHOTO_HEIGHT qsort mem prev file).1 = some r.photo)
    (hi : i < palette_size) :
    r.photo.palette.length = palette_size ∧
    ∃ red green blue, r.photo.palette[i]? = some (red, green, blue) ∧
      red ≤ 31 ∧ green ≤ 63 ∧ blue ≤ 31 ∧
      (red <<< 1) &&& bitmask_6 = red <<< 1 ∧ green &&& bitmask_6 = green ∧
      (blue <<< 1) &&& bitmask_6 = blue <<< 1 ∧
      (prep_room r).2[i]? = some (64 + i, 2 * red, green, 2 * blue) ∧
      2 * red ≤ 63 ∧ green ≤ 63 ∧ 2 * blue ≤ 63 := by
  rcases file with _ | ⟨w, _ | ⟨h, pixels⟩⟩
  · cases hload
  · cases hload
  · have hok : ¬ (MAX_PHOTO_WIDTH < w ∨ MAX_PHOTO_HEIGHT < h ∨ pixels.length < w * h) := by
      intro hbad
      rw [(read_photo_fails_iff MAX_PHOTO_WIDTH MAX_PHOTO_HEIGHT qsort mem prev w h pixels).mpr
        hbad] at hload
      cases hload
    obtain ⟨q, e, _, b⟩ := read_photo_hdr_palette MAX_PHOTO_WIDTH MAX_PHOTO_HEIGHT qsort mem prev
      w h pixels h4 h2 (by omega) (by omega) (by omega)
    rw [hload] at e
    have hq1 : r.photo = q := Option.some.inj e
    rw [← hq1] at b
    obtain ⟨c, hc, c1, c2, c3⟩ := select_palette_le (pixels.take (w * h)) _ (hq _) i hi
    rw [← b] at hc
    obtain ⟨red, green, blue⟩ := c
    simp only at c1 c2 c3
    have s1 : red <<< 1 = 2 * red := by rw [Nat.shiftLeft_eq]; omega
    have s3 : blue <<< 1 = 2 * blue := by rw [Nat.shiftLeft_eq]; omega
    have m1 : (red <<< 1) &&& bitmask_6 = red <<< 1 := mask_keeps _ (by omega)
    have m2 : green &&& bitmask_6 = green := mask_keeps _ c2
    have m3 : (blue <<< 1) &&& bitmask_6 = blue <<< 1 := mask_keeps _ (by omega)
    refine ⟨by rw [b, select_palette_length]; rfl, red, green, blue, hc, c1, c2, c3, m1, m2, m3,
      ?_, by omega, c2, by omega⟩
    rw [prep_room_getElem? r i red green blue hi hc, m1, m2, m3, s1, s3]

theorem palette_fits_six_bits_witness :
    ((∀ l, IsQsorted l (qsort_model l)) ∧
      reset_hist.level_4.length = level_4_size ∧ reset_hist.level_2.length = level_2_size ∧
      (read_photo 1 1 qsort_model (fun _ => 0) reset_hist one_pixel_file).1 =
        some one_pixel_room.photo ∧
      64 < palette_size) ∧
    (one_pixel_room.photo.palette.length = palette_size ∧
    ∃ red green blue, one_pixel_room.photo.palette[64]? = some (red, green, blue) ∧
      red ≤ 31 ∧ green ≤ 63 ∧ blue ≤ 31 ∧
      (red <<< 1) &&& bitmask_6 = red <<< 1 ∧ green &&& bitmask_6 = green ∧
      (blue <<< 1) &&& bitmask_6 = blue <<< 1 ∧
      (prep_room one_pixel_room).2[64]? = some (64 + 64, 2 * red, green, 2 * blue) ∧
      2 * red ≤ 63 ∧ green ≤ 63 ∧ 2 * blue ≤ 63) :=
  have hload : (read_photo 1 1 qsort_model (fun _ => 0) reset_hist one_pixel_file).1 =
      some one_pixel_room.photo :=
    read_photo_eq 1 1 qsort_model (fun _ => 0) reset_hist 1 1 [0xF800] [0]
      reset_hist_sizes.1 reset_hist_sizes.2 (by omega) (by omega) (by simp)
      (by
        have h : scan_order 1 1 = [(0, 0)] := by decide
        rw [h]
        simp [second_pass, store_pixel])
  ⟨⟨qsort_model_spec, reset_hist_sizes.1, reset_hist_sizes.2, hload, by decide⟩,
   palette_fits_six_bits 1 1 qsort_model qsort_model_spec (fun _ => 0) reset_hist one_pixel_file
     one_pixel_room 64 reset_hist_sizes.1 reset_hist_sizes.2 hload (by decide)⟩

end Photo
